import Mathlib

/-!
# Physical page allocator (`kernel/kalloc.c`)

A shallow embedding of the reference-counted page allocator: `pa2index`,
`kfree`, `kalloc`, `cowcopy_pa`, `freerange` and `kinit`.

Physical memory is a byte map `Nat → Nat` (address to byte).  The free list is
intrusive, exactly as in the C code: `kmem.freelist` is a 64-bit pointer and
the `next` field of a `struct run` is the little-endian 64-bit word stored in
the first eight bytes of the free page itself.  The table `ref[]` is a map from
index to count.  Its elements are of type `int` in the C code and mathematical
integers here: the two agree as long as a count lies between `INT_MIN` and
`INT_MAX` and no decrement is applied to `INT_MIN` (signed overflow, undefined
behaviour in C).  A statement about the decrement of an arbitrary count
therefore assumes that the count is an `int` above `INT_MIN`; no operation of
`kalloc.c` increments a count, and in the states reached from `kinit` no count
is below -1.  `panic` never
returns, so an operation that panics yields `Outcome.panic` carrying the
message and the machine state at the moment of the panic.  The spinlocks only
matter between CPUs; one call runs from `acquire` to `release` without
interference, which is what a function on states describes.  Addresses are
natural numbers; only `pa - KERNBASE` and `PGROUNDUP` are reduced modulo
`2 ^ 64`, the other address computations (`p + PGSIZE`, `pa + i`) stay far
below that bound for every address `kfree` accepts.
-/

namespace Kalloc

/-- Modelled from the spec: `PGSIZE` comes from `riscv.h`, which is not among
the sources; the spec fixes a page at 4096 bytes (and so does the header
comment of `kalloc.c`). -/
def PGSIZE : Nat := 4096

/-- Number of values of a `uint64`. -/
def U64 : Nat := 2 ^ 64

/-- Least value of an `int`, the element type of `ref[]`. -/
def INT_MIN : Int := -2 ^ 31

/-- Greatest value of an `int`, the element type of `ref[]`. -/
def INT_MAX : Int := 2 ^ 31 - 1

/-- Modelled from the spec: `PGROUNDUP` comes from `riscv.h`, which is not
among the sources; it rounds an address up to the next page boundary, so that
`freerange` visits page-aligned addresses only. -/
def PGROUNDUP (sz : Nat) : Nat := (sz + PGSIZE - 1) / PGSIZE * PGSIZE % U64

/-- The constants `kalloc.c` takes from `memlayout.h` (`KERNBASE`, `PHYSTOP`)
and from the linker script (`end`, the first address after the kernel image),
none of which is among the sources. -/
structure Layout where
  KERNBASE : Nat
  PHYSTOP : Nat
  kend : Nat

/-- The allocator's view of the machine: `kmem.freelist`, the table `ref[]`
and the bytes of physical memory. -/
structure Kmem where
  freelist : Nat
  ref : Nat → Int
  mem : Nat → Nat

/-- Result of an operation that may `panic`. -/
inductive Outcome (α : Type) where
  | ok (val : α) (s : Kmem)
  | panic (msg : String) (s : Kmem)

/-- The machine state an outcome ends in. -/
def Outcome.state {α : Type} : Outcome α → Kmem
  | .ok _ s => s
  | .panic _ s => s

/-- `memset(dst, c, n)`: `n` bytes from `dst` on become `(unsigned char)c`. -/
def memset (m : Nat → Nat) (dst c n : Nat) : Nat → Nat :=
  fun a => if dst ≤ a ∧ a < dst + n then c % 256 else m a

/-- `memmove(dst, src, n)`: `n` bytes from `dst` on become the bytes that
were at `src` on before the call. -/
def memmove (m : Nat → Nat) (dst src n : Nat) : Nat → Nat :=
  fun a => if dst ≤ a ∧ a < dst + n then m (src + (a - dst)) else m a

/-- Reading a 64-bit little-endian word (`r->next`). -/
def load64 (m : Nat → Nat) (a : Nat) : Nat :=
  m a % 256 + 256 * (m (a + 1) % 256 + 256 * (m (a + 2) % 256 + 256 * (m (a + 3) % 256
    + 256 * (m (a + 4) % 256 + 256 * (m (a + 5) % 256 + 256 * (m (a + 6) % 256
    + 256 * (m (a + 7) % 256)))))))

/-- Writing a 64-bit little-endian word (`r->next = ...`). -/
def store64 (m : Nat → Nat) (a v : Nat) : Nat → Nat :=
  fun x => if a ≤ x ∧ x < a + 8 then v / 256 ^ (x - a) % 256 else m x

/-- Index of a physical address in `ref[]`: `(pa - KERNBASE) / PGSIZE` in
`uint64` arithmetic. -/
def pa2index (L : Layout) (pa : Nat) : Nat :=
  (pa + (U64 - L.KERNBASE % U64)) % U64 / PGSIZE

/-- Free the page at `pa` (drop one reference; push the page on the free list
when the count reaches zero or less).  The decrement `ref[...]--` is the
subtraction on integers, which is what the C code computes for every `int`
count above `INT_MIN`. -/
def kfree (L : Layout) (pa : Nat) (s : Kmem) : Outcome Unit :=
  if pa % PGSIZE ≠ 0 ∨ pa < L.kend ∨ pa ≥ L.PHYSTOP then
    .panic "kfree" s
  else
    -- acquire(&ref_lock); ref[pa2index(pa)]--;
    let s1 : Kmem := { s with ref := Function.update s.ref (pa2index L pa) (s.ref (pa2index L pa) - 1) }
    if s1.ref (pa2index L pa) ≤ 0 then
      -- memset(pa, 1, PGSIZE);
      let s2 : Kmem := { s1 with mem := memset s1.mem pa 1 PGSIZE }
      -- acquire(&kmem.lock); r->next = kmem.freelist; kmem.freelist = r; release(&kmem.lock);
      let s3 : Kmem := { s2 with mem := store64 s2.mem pa s2.freelist }
      .ok () { s3 with freelist := pa }
    else
      .ok () s1

/-- Allocate one page: the address of the page, or 0 when none is free. -/
def kalloc (L : Layout) (s : Kmem) : Nat × Kmem :=
  -- acquire(&kmem.lock); r = kmem.freelist; if(r) kmem.freelist = r->next; release(&kmem.lock);
  let r := s.freelist
  let s1 : Kmem := if r ≠ 0 then { s with freelist := load64 s.mem r } else s
  if r ≠ 0 then
    -- memset((char*)r, 5, PGSIZE); ref[pa2index(r)] = 1;
    let s2 : Kmem := { s1 with mem := memset s1.mem r 5 PGSIZE }
    (r, { s2 with ref := Function.update s2.ref (pa2index L r) 1 })
  else
    (r, s1)

/-- Resolve a copy-on-write fault on the page at `pa`: the page itself when it
has at most one reference, otherwise a fresh copy. -/
def cowcopy_pa (L : Layout) (pa : Nat) (s : Kmem) : Outcome Nat :=
  -- acquire(&ref_lock);
  if s.ref (pa2index L pa) ≤ 1 then
    .ok pa s
  else
    match kalloc L s with
    | (new, s1) =>
      if new = 0 then
        .panic "out of memory" s1
      else
        -- memmove((void*)new, pa, PGSIZE); ref[pa2index(pa)]--;
        let s2 : Kmem := { s1 with mem := memmove s1.mem new pa PGSIZE }
        .ok new { s2 with ref := Function.update s2.ref (pa2index L pa) (s2.ref (pa2index L pa) - 1) }

/-- The loop of `freerange`: `for(; p + PGSIZE <= pa_end; p += PGSIZE) kfree(p);`.
The first argument bounds the number of iterations; `none` means the bound was
too small. -/
def freerangeLoop (L : Layout) (pa_end : Nat) : Nat → Nat → Kmem → Option (Outcome Unit)
  | 0, _, _ => none
  | fuel + 1, p, s =>
    if p + PGSIZE ≤ pa_end then
      match kfree L p s with
      | .ok _ s1 => freerangeLoop L pa_end fuel (p + PGSIZE) s1
      | .panic msg s1 => some (.panic msg s1)
    else
      some (.ok () s)

/-- Hand every whole page of `[pa_start, pa_end)` to `kfree`. -/
def freerange (L : Layout) (pa_start pa_end : Nat) (s : Kmem) : Option (Outcome Unit) :=
  freerangeLoop L pa_end (pa_end / PGSIZE + 1) (PGROUNDUP pa_start) s

/-- Boot-time initialisation: `freerange(end, (void*)PHYSTOP)`. -/
def kinit (L : Layout) (s : Kmem) : Option (Outcome Unit) :=
  freerange L L.kend L.PHYSTOP s

/-- `n` successive calls of `kalloc`: the addresses returned, in call order,
and the final state. -/
def kallocN (L : Layout) : Nat → Kmem → List Nat × Kmem
  | 0, s => ([], s)
  | n + 1, s =>
    let r := kalloc L s
    let rest := kallocN L n r.2
    (r.1 :: rest.1, rest.2)

/-! ## Specification vocabulary -/

/-- The address `pa` passes the check at the top of `kfree`: page-aligned and
inside the managed range `[end, PHYSTOP)`. -/
def InRange (L : Layout) (pa : Nat) : Prop :=
  pa % PGSIZE = 0 ∧ L.kend ≤ pa ∧ pa < L.PHYSTOP

instance (L : Layout) (pa : Nat) : Decidable (InRange L pa) := by
  unfold InRange; infer_instance

/-- Following `next` pointers in memory `m` from the pointer `h` visits
exactly the nodes `l`, in order, and then reaches the null pointer. -/
def IsFreeList (m : Nat → Nat) : Nat → List Nat → Prop
  | h, [] => h = 0
  | h, p :: ps => h = p ∧ p ≠ 0 ∧ IsFreeList m (load64 m p) ps

instance decIsFreeList (m : Nat → Nat) : ∀ (h : Nat) (l : List Nat), Decidable (IsFreeList m h l)
  | h, [] => inferInstanceAs (Decidable (h = 0))
  | _, p :: ps =>
    @instDecidableAnd _ _ _ (@instDecidableAnd _ _ _ (decIsFreeList m (load64 m p) ps))

/-- The free list of state `s` is the list of pages `l` (head first): the
chain from `kmem.freelist` is `l`, and every node is a page of the managed
range. -/
def FreeList (L : Layout) (s : Kmem) (l : List Nat) : Prop :=
  IsFreeList s.mem s.freelist l ∧ ∀ q ∈ l, InRange L q

instance (L : Layout) (s : Kmem) (l : List Nat) : Decidable (FreeList L s l) := by
  unfold FreeList; infer_instance

/-- The layout never lets a managed page be the null pointer or lie beyond a
64-bit address. -/
def Layout.Sane (L : Layout) : Prop :=
  0 < L.kend ∧ L.PHYSTOP ≤ U64

instance (L : Layout) : Decidable L.Sane := by
  unfold Layout.Sane; infer_instance

/-! ## Concrete machines used as test inputs -/

/-- The layout of the teaching kernel on the `virt` board: RAM from
`0x80000000`, 128 MiB of it, and a kernel image ending at `0x80021d40`. -/
def xv6 : Layout := { KERNBASE := 0x80000000, PHYSTOP := 0x88000000, kend := 0x80021d40 }

/-- The same board with only three whole pages after the kernel image. -/
def tiny : Layout := { KERNBASE := 0x80000000, PHYSTOP := 0x80025000, kend := 0x80021d40 }

/-- Memory after boot, before `kinit`: zeroed `.bss`, so the free list is
empty and every count is 0; the page contents are whatever `m` holds. -/
def boot (m : Nat → Nat) : Kmem := { freelist := 0, ref := fun _ => 0, mem := m }

/-- Four pages right after the kernel image of `xv6`. -/
def pageA : Nat := 0x80022000

def pageB : Nat := 0x80023000

def pageC : Nat := 0x80024000

def pageD : Nat := 0x80025000

/-- A machine in mid-run: the free list is `pageB → pageA`, `pageC` is
shared by two mappings and `pageD` has a single owner; the pages hold
arbitrary data. -/
def demo : Kmem :=
  { freelist := pageB,
    ref := fun j => if j = pa2index xv6 pageC then 2 else if j = pa2index xv6 pageD then 1 else 0,
    mem := store64 (store64 (fun a => a % 251) pageA 0) pageB pageA }

/-- The `n` pages from `start` on, highest address first: the order in which
`kalloc` hands them out after `freerange` has pushed them lowest first. -/
def pagesDown (start : Nat) : Nat → List Nat
  | 0 => []
  | n + 1 => (start + n * PGSIZE) :: pagesDown start n

/-- One allocator call made by a caller that keeps to the contract: `kalloc`
at any time, `kfree` and `cowcopy_pa` only on a page whose count is at least 1
(a call that panics halts the kernel and so leads to no further state). -/
inductive Step (L : Layout) : Kmem → Kmem → Prop
  | kalloc (s : Kmem) : Step L s (kalloc L s).2
  | kfree (s : Kmem) (pa : Nat) (s' : Kmem) :
      1 ≤ s.ref (pa2index L pa) → kfree L pa s = .ok () s' → Step L s s'
  | cowcopy_pa (s : Kmem) (pa q : Nat) (s' : Kmem) :
      1 ≤ s.ref (pa2index L pa) → cowcopy_pa L pa s = .ok q s' → Step L s s'

/-- The states the allocator can be in: `freerange` run on the zeroed state
of boot (`kinit` is `freerange end PHYSTOP`), then any number of steps. -/
inductive Reachable (L : Layout) : Kmem → Prop
  | init (s0 : Kmem) (pa_start pa_end : Nat) (s : Kmem) :
      s0.freelist = 0 → (∀ j, s0.ref j = 0) →
      freerange L pa_start pa_end s0 = some (.ok () s) → Reachable L s
  | step (s s' : Kmem) : Reachable L s → Step L s s' → Reachable L s'

/-- The free list is well formed and none of its pages is in use. -/
def Inv (L : Layout) (s : Kmem) : Prop :=
  ∃ l, FreeList L s l ∧ ∀ q ∈ l, s.ref (pa2index L q) ≤ 0

/-- The machine `tiny` right after `kinit` on zeroed memory. -/
def tinyBooted : Kmem :=
  match kinit tiny (boot fun _ => 0) with
  | some o => o.state
  | none => boot fun _ => 0

/-- The pages `kinit` hands to `kfree`: the whole pages between the end of
the kernel image, rounded up, and `PHYSTOP`. -/
def Managed (L : Layout) (p : Nat) : Prop :=
  p % PGSIZE = 0 ∧ PGROUNDUP L.kend ≤ p ∧ p + PGSIZE ≤ L.PHYSTOP

instance (L : Layout) (p : Nat) : Decidable (Managed L p) := by
  unfold Managed; infer_instance

/-- The states the allocator can be in after `kinit` has run on the zeroed
state of boot, followed by any number of steps. -/
inductive ReachableFromKinit (L : Layout) : Kmem → Prop
  | init (s0 s : Kmem) :
      s0.freelist = 0 → (∀ j, s0.ref j = 0) →
      kinit L s0 = some (.ok () s) → ReachableFromKinit L s
  | step (s s' : Kmem) : ReachableFromKinit L s → Step L s s' → ReachableFromKinit L s'

/-- The free list is well formed, no page on it is in use, no count is below
-1, and every managed page that is not in use is on the list `l`. -/
def PageInv (L : Layout) (s : Kmem) (l : List Nat) : Prop :=
  FreeList L s l ∧ (∀ q ∈ l, s.ref (pa2index L q) ≤ 0) ∧ (∀ j, -1 ≤ s.ref j) ∧
    ∀ p, Managed L p → s.ref (pa2index L p) ≤ 0 → p ∈ l

end Kalloc

/-!
# Buffer cache (`kernel/bio.c`)

A shallow embedding of `binit`, `bget`, `bread`, `bwrite`, `brelse`, `bpin`
and `bunpin`.  A `struct buf *` is the index of the buffer in `bcache.buf`
(`none` is the null pointer); the bucket chains are the pointer structure of
the C code, `bcache.head[i]` and the `next` field of every buffer.  The scans
of `bget` follow `next` pointers and are given a bound on their number of
steps; on a cache whose chains are well formed the bound is never reached.
`bget` ends in `acquiresleep`: when the buffer's sleep lock is taken the caller
sleeps there, which is the result `Result.sleep`, carrying the state the call
has produced so far.  The spinlocks serialise the two critical sections of
`bget` (`bgetLocal` under the bucket lock, `bgetGlobal` under all locks); one
call of `bget` by a CPU that is not interleaved with another runs them back to
back.
-/

namespace Bio

/-- The constants `bio.c` takes from `param.h` (`NBUF`) and from the
definition of `NBUCKET`, neither of which is among the sources. -/
structure Params where
  NBUF : Nat
  NBUCKET : Nat

/-- Modelled from the spec: `struct buf` is declared in `buf.h`, which is not
among the sources.  A buffer has a device id, a block number, a validity
flag, a reference count, an exclusive-access lock held by at most one caller
(`lock` is the holder, `none` when free), the block-sized payload, and the
`next` link of its bucket chain that `bio.c` uses.  Width and signedness of
the count are not in the sources and the count is an integer here. -/
structure Buf where
  valid : Bool
  dev : Nat
  blockno : Nat
  lock : Option Nat
  refcnt : Int
  next : Option Nat
  data : Nat → Nat

/-- The buffer cache (`bcache.buf`, `bcache.head`) together with the block
device behind it: the contents of every block and the log of transfers
(`true` for a write), latest first. -/
structure Bcache where
  buf : Nat → Buf
  head : Nat → Option Nat
  disk : Nat → Nat → Nat → Nat
  io : List (Bool × Nat × Nat)

/-- How a call ends: it returns, it panics, the caller sleeps in
`acquiresleep` on buffer `b`, or (`undef`) a scan ran into its bound or
followed a null pointer. -/
inductive Result (α : Type) where
  | ok (val : α) (c : Bcache)
  | panic (msg : String) (c : Bcache)
  | sleep (b : Nat) (c : Bcache)
  | undef (c : Bcache)

/-- The state a call leaves behind for the calls that follow it; a panic
halts the kernel. -/
def Result.after {α : Type} : Result α → Option Bcache
  | .ok _ c => some c
  | .sleep _ c => some c
  | .panic _ _ => none
  | .undef _ => none

/-- The call has returned to its caller. -/
def Result.returned {α : Type} : Result α → Bool
  | .ok _ _ => true
  | .panic _ _ => false
  | .sleep _ _ => false
  | .undef _ => false

/-- The buffer a call of `bget` has settled on, returned or slept on. -/
def Result.chosen : Result Nat → Option Nat
  | .ok b _ => some b
  | .sleep b _ => some b
  | .panic _ _ => none
  | .undef _ => none

def Bcache.setBuf (c : Bcache) (b : Nat) (x : Buf) : Bcache :=
  { c with buf := Function.update c.buf b x }

def Bcache.setHead (c : Bcache) (i : Nat) (h : Option Nat) : Bcache :=
  { c with head := Function.update c.head i h }

/-- Modelled from the spec: `holdingsleep` is defined in `sleeplock.c`, which
is not among the sources; the caller holds the exclusive lock. -/
def holdingsleep (pid : Nat) (x : Buf) : Bool :=
  x.lock == some pid

/-- Modelled from the spec: `acquiresleep` is defined in `sleeplock.c`, which
is not among the sources; the lock is blocking and held by at most one
caller, so the call takes a free lock and otherwise does not return (`none`)
until the holder releases it. -/
def acquiresleep (pid b : Nat) (c : Bcache) : Option Bcache :=
  match (c.buf b).lock with
  | some _ => none
  | none => some (c.setBuf b { c.buf b with lock := some pid })

/-- Modelled from the spec: `releasesleep` is defined in `sleeplock.c`, which
is not among the sources; it releases the exclusive lock. -/
def releasesleep (b : Nat) (c : Bcache) : Bcache :=
  c.setBuf b { c.buf b with lock := none }

/-- Modelled from the spec: `virtio_disk_rw` belongs to the block device
collaborator, which is not among the sources; it transfers exactly one block
between the device and the payload of the buffer, in the given direction. -/
def virtio_disk_rw (b : Nat) (write : Bool) (c : Bcache) : Bcache :=
  let x := c.buf b
  if write then
    { c with
      disk := fun d n => if d = x.dev ∧ n = x.blockno then x.data else c.disk d n,
      io := (true, x.dev, x.blockno) :: c.io }
  else
    { c.setBuf b { x with data := c.disk x.dev x.blockno } with
      io := (false, x.dev, x.blockno) :: c.io }

/-- The body of the second loop of `binit` for buffer `i`:
`initsleeplock(&b->lock, "buffer"); b->next = bcache.head[id]; bcache.head[id] = b;`
with `id = i % NBUCKET`. -/
def binitStep (P : Params) (c : Bcache) (i : Nat) : Bcache :=
  (c.setBuf i { c.buf i with lock := none, next := c.head (i % P.NBUCKET) }).setHead
    (i % P.NBUCKET) (some i)

/-- Initialise the cache: empty every bucket, then put buffer `i` at the head
of bucket `i % NBUCKET`, for `i` from 0 to `NBUF - 1`. -/
def binit (P : Params) (c : Bcache) : Bcache :=
  let c1 : Bcache := { c with head := fun i => if i < P.NBUCKET then none else c.head i }
  (List.range P.NBUF).foldl (binitStep P) c1

/-- The loop `for(b = h; b; b = b->next) if(test(b)) ...`: the first buffer
of the chain from `h` that passes the test, `some none` when the chain ends
without one, `none` when the bound on the number of steps is reached. -/
def findChain (c : Bcache) (test : Buf → Bool) : Nat → Option Nat → Option (Option Nat)
  | 0, _ => none
  | _ + 1, none => some none
  | fuel + 1, some b =>
    if test (c.buf b) then some (some b) else findChain c test fuel (c.buf b).next

/-- The assignments `b->dev = dev; b->blockno = blockno; b->valid = 0;
b->refcnt = 1;` of both eviction paths. -/
def rebind (c : Bcache) (b dev blockno : Nat) : Bcache :=
  c.setBuf b { c.buf b with dev := dev, blockno := blockno, valid := false, refcnt := 1 }

/-- The end of every successful path of `bget`:
`acquiresleep(&b->lock); return b;`. -/
def finish (pid b : Nat) (c : Bcache) : Result Nat :=
  match acquiresleep pid b c with
  | some c1 => .ok b c1
  | none => .sleep b c

/-- The part of `bget` that runs under the lock of the target bucket: the hit
path and the eviction within the bucket.  `none` means neither applied and
the bucket lock has been released with the cache untouched. -/
def bgetLocal (P : Params) (pid dev blockno : Nat) (c : Bcache) : Option (Result Nat) :=
  let id := blockno % P.NBUCKET
  -- Is the block already cached?
  match findChain c (fun x => x.dev == dev && x.blockno == blockno) (P.NBUF + 1) (c.head id) with
  | none => some (.undef c)
  | some (some b) =>
    -- b->refcnt++;
    some (finish pid b (c.setBuf b { c.buf b with refcnt := (c.buf b).refcnt + 1 }))
  | some none =>
    -- Not cached. First try to evict within the same bucket.
    match findChain c (fun x => x.refcnt == 0) (P.NBUF + 1) (c.head id) with
    | none => some (.undef c)
    | some (some b) => some (finish pid b (rebind c b dev blockno))
    | some none => none

/-- The scan `for(i = 0; i < NBUCKET; i++) { if(i == id) continue; ... }` for
an unused buffer in another bucket: the bucket and the buffer found, `some
none` when there is none.  The first argument counts the buckets still to
visit, the second is `i`. -/
def findVictim (P : Params) (c : Bcache) (id : Nat) : Nat → Nat → Option (Option (Nat × Nat))
  | 0, _ => some none
  | k + 1, i =>
    if i = id then findVictim P c id k (i + 1)
    else
      match findChain c (fun x => x.refcnt == 0) (P.NBUF + 1) (c.head i) with
      | none => none
      | some (some b) => some (some (i, b))
      | some none => findVictim P c id k (i + 1)

/-- The loop `while (prev->next != b) prev = prev->next;`: the buffer whose
`next` is `b`; `none` when the bound is reached or a null pointer would be
followed. -/
def findPrev (c : Bcache) (b : Nat) : Nat → Nat → Option Nat
  | 0, _ => none
  | fuel + 1, prev =>
    match (c.buf prev).next with
    | none => none
    | some n => if n = b then some prev else findPrev c b fuel n

/-- Remove buffer `b` from the chain of bucket `i`. -/
def unlink (P : Params) (c : Bcache) (i b : Nat) : Option Bcache :=
  match c.head i with
  | none => none
  | some prev =>
    if prev = b then
      some (c.setHead i (c.buf b).next)
    else
      match findPrev c b (P.NBUF + 1) prev with
      | none => none
      | some prev1 => some (c.setBuf prev1 { c.buf prev1 with next := (c.buf b).next })

/-- The part of `bget` that runs with every bucket lock and the global lock
held: take an unused buffer from another bucket and move it to the head of
the target bucket, or panic. -/
def bgetGlobal (P : Params) (pid dev blockno : Nat) (c : Bcache) : Result Nat :=
  let id := blockno % P.NBUCKET
  match findVictim P c id P.NBUCKET 0 with
  | none => .undef c
  | some none => .panic "bget: no buffers" c
  | some (some (i, b)) =>
    let c1 := rebind c b dev blockno
    -- remove from old bucket
    match unlink P c1 i b with
    | none => .undef c1
    | some c2 =>
      -- add to new bucket: b->next = bcache.head[id]; bcache.head[id] = b;
      let c3 := c2.setBuf b { c2.buf b with next := c2.head id }
      finish pid b (c3.setHead id (some b))

/-- Look through the buffer cache for a block; if not found, allocate a
buffer; in either case return the locked buffer. -/
def bget (P : Params) (pid dev blockno : Nat) (c : Bcache) : Result Nat :=
  match bgetLocal P pid dev blockno c with
  | some r => r
  | none => bgetGlobal P pid dev blockno c

/-- Return a locked buffer with the contents of the indicated block. -/
def bread (P : Params) (pid dev blockno : Nat) (c : Bcache) : Result Nat :=
  match bget P pid dev blockno c with
  | .ok b c1 =>
    if !(c1.buf b).valid then
      -- virtio_disk_rw(b, 0); b->valid = 1;
      let c2 := virtio_disk_rw b false c1
      .ok b (c2.setBuf b { c2.buf b with valid := true })
    else
      .ok b c1
  | r => r

/-- Write the contents of a buffer to disk; the buffer must be locked. -/
def bwrite (pid b : Nat) (c : Bcache) : Result Unit :=
  if !holdingsleep pid (c.buf b) then .panic "bwrite" c
  else .ok () (virtio_disk_rw b true c)

/-- Release a locked buffer. -/
def brelse (pid b : Nat) (c : Bcache) : Result Unit :=
  if !holdingsleep pid (c.buf b) then .panic "brelse" c
  else
    let c1 := releasesleep b c
    -- acquire(&bcache.lock[id]); b->refcnt--; release(&bcache.lock[id]);
    .ok () (c1.setBuf b { c1.buf b with refcnt := (c1.buf b).refcnt - 1 })

def bpin (b : Nat) (c : Bcache) : Bcache :=
  c.setBuf b { c.buf b with refcnt := (c.buf b).refcnt + 1 }

def bunpin (b : Nat) (c : Bcache) : Bcache :=
  c.setBuf b { c.buf b with refcnt := (c.buf b).refcnt - 1 }

/-! ## Specification vocabulary -/

/-- Following `next` pointers from the pointer `h` visits exactly the buffers
`l`, in order, and then reaches the null pointer. -/
def IsChain (c : Bcache) : Option Nat → List Nat → Prop
  | h, [] => h = none
  | h, b :: l => h = some b ∧ IsChain c (c.buf b).next l

instance decIsChain (c : Bcache) : ∀ (h : Option Nat) (l : List Nat), Decidable (IsChain c h l)
  | h, [] => inferInstanceAs (Decidable (h = none))
  | _, b :: l => @instDecidableAnd _ _ _ (decIsChain c (c.buf b).next l)

/-- The chains of the cache are `ch 0`, ..., `ch (NBUCKET - 1)`: bucket `i`
heads the chain `ch i`, the chains hold pool buffers only, every pool buffer
is in a chain, and no buffer is in two chains. -/
def Chains (P : Params) (c : Bcache) (ch : Nat → List Nat) : Prop :=
  (∀ i, i < P.NBUCKET → IsChain c (c.head i) (ch i)) ∧
  (∀ i, i < P.NBUCKET → ∀ b ∈ ch i, b < P.NBUF) ∧
  (∀ b, b < P.NBUF → ∃ i, i < P.NBUCKET ∧ b ∈ ch i) ∧
  (∀ i, i < P.NBUCKET → ∀ j, j < P.NBUCKET → ∀ b ∈ ch i, b ∈ ch j → i = j)

instance (P : Params) (c : Bcache) (ch : Nat → List Nat) : Decidable (Chains P c ch) := by
  unfold Chains; infer_instance

/-- The first buffer of the list `l` that caches the block `(dev, blockno)`. -/
def firstCached (c : Bcache) (l : List Nat) (dev blockno : Nat) : Option Nat :=
  l.find? (fun b => (c.buf b).dev == dev && (c.buf b).blockno == blockno)

/-- The first buffer of the list `l` whose count is 0. -/
def firstFree (c : Bcache) (l : List Nat) : Option Nat :=
  l.find? (fun b => (c.buf b).refcnt == 0)

/-- The chains after buffer `b` has been taken out of bucket `i` and put at
the head of bucket `id`. -/
def moved (ch : Nat → List Nat) (i id b : Nat) : Nat → List Nat :=
  fun j => if j = id then b :: ch id else if j = i then (ch i).erase b else ch j

/-- The chains `binit` has built after its first `n` buffers: buffer `i` is
put in front of the chain of bucket `i % NBUCKET`. -/
def initialChains (P : Params) : Nat → Nat → List Nat
  | 0, _ => []
  | n + 1, id =>
    if n % P.NBUCKET = id then n :: initialChains P n id else initialChains P n id

/-- Successive calls of `bget` for one block by the processes `pids`, with
no call of `brelse` between them, each on the state the one before has left
(a call that sleeps has already done its work on the cache): the results, in
call order, and the final state.  A panic ends the sequence. -/
def bgetN (P : Params) (dev blockno : Nat) : List Nat → Bcache → List (Result Nat) × Bcache
  | [], c => ([], c)
  | pid :: pids, c =>
    match (bget P pid dev blockno c).after with
    | some c1 =>
      (bget P pid dev blockno c :: (bgetN P dev blockno pids c1).1,
        (bgetN P dev blockno pids c1).2)
    | none => ([bget P pid dev blockno c], c)

/-- Every pool buffer in use is the buffer that the hit path of `bget` finds
for the block it caches: it is in the chain of the bucket of its block number
and no buffer in front of it caches the same block. -/
def Uniq (P : Params) (c : Bcache) (ch : Nat → List Nat) : Prop :=
  ∀ b, b < P.NBUF → 0 < (c.buf b).refcnt →
    firstCached c (ch ((c.buf b).blockno % P.NBUCKET)) (c.buf b).dev (c.buf b).blockno = some b

/-- The calls a client of the cache can make. -/
inductive Call where
  | bget (pid dev blockno : Nat)
  | bread (pid dev blockno : Nat)
  | brelse (pid b : Nat)
  | bpin (b : Nat)
  | bunpin (b : Nat)

/-- The state a call leaves behind, if the kernel goes on after it. -/
def Call.run (P : Params) : Call → Bcache → Option Bcache
  | .bget pid dev blockno, c => (Bio.bget P pid dev blockno c).after
  | .bread pid dev blockno, c => (Bio.bread P pid dev blockno c).after
  | .brelse pid b, c => (Bio.brelse pid b c).after
  | .bpin b, c => some (Bio.bpin b c)
  | .bunpin b, c => some (Bio.bunpin b c)

/-- Calls that pass a pool buffer and apply `brelse` and `bunpin` only to a
buffer whose count is positive. -/
def Allowed (P : Params) (c : Bcache) : Call → Prop
  | .bget _ _ _ => True
  | .bread _ _ _ => True
  | .brelse _ b => b < P.NBUF ∧ 0 < (c.buf b).refcnt
  | .bpin b => b < P.NBUF
  | .bunpin b => b < P.NBUF ∧ 0 < (c.buf b).refcnt

/-- Calls that in addition apply `bpin` only to a buffer whose count is
positive. -/
def Owned (P : Params) (c : Bcache) : Call → Prop
  | .bpin b => b < P.NBUF ∧ 0 < (c.buf b).refcnt
  | call => Allowed P c call

/-- The cache before `binit`: `bcache` lies in zero-initialised memory. -/
def Zeroed (c : Bcache) : Prop :=
  ∀ b, (c.buf b).valid = false ∧ (c.buf b).dev = 0 ∧ (c.buf b).blockno = 0 ∧
    (c.buf b).lock = none ∧ (c.buf b).refcnt = 0 ∧ (c.buf b).next = none

/-- The states of the cache reachable from `binit` by calls that satisfy
`allowed`. -/
inductive Reach (P : Params) (allowed : Bcache → Call → Prop) : Bcache → Prop
  | init (c0 : Bcache) : Zeroed c0 → Reach P allowed (binit P c0)
  | step (c : Bcache) (call : Call) (c' : Bcache) :
      Reach P allowed c → allowed c call → call.run P c = some c' → Reach P allowed c'

/-! ## Concrete caches used as test inputs -/

/-- Zero-initialised memory in front of a device whose block `n` of device `d`
holds the byte `d + n` throughout. -/
def zeroed : Bcache :=
  { buf := fun _ =>
      { valid := false, dev := 0, blockno := 0, lock := none, refcnt := 0, next := none,
        data := fun _ => 0 },
    head := fun _ => none,
    disk := fun d n _ => d + n,
    io := [] }

/-- A pool of two buffers in one bucket. -/
def two : Params := { NBUF := 2, NBUCKET := 1 }

/-- A pool of three buffers in two buckets. -/
def three : Params := { NBUF := 3, NBUCKET := 2 }

/-- The state a call leaves behind, or zeroed memory if the kernel has
halted; used to build the concrete caches below. -/
def Result.next {α : Type} (r : Result α) : Bcache :=
  match r.after with
  | some c => c
  | none => zeroed

/-- The pool `two` after `binit`, `bget(1, 10)`, `bget(1, 20)` and the release
of the buffer of the first call, all by process 7: buffer 1 still caches
block 10 with count 0, buffer 0 caches block 20 and is held. -/
def twoReleased : Bcache :=
  (brelse 7 1 (bget two 7 1 20 (bget two 7 1 10 (binit two zeroed)).next).next).next

/-- The pool `two` after `binit`, `bread(1, 10)` by process 7 and the release
of the buffer: block 10 is cached and valid, and the device has been read
once. -/
def twoCached : Bcache := (brelse 7 1 (bread two 7 1 10 (binit two zeroed)).next).next

/-- The pool `two` after `binit`, `bget(1, 10)` and `bget(1, 20)` by process 7:
both buffers are in use. -/
def twoBoth : Bcache := (bget two 7 1 20 (bget two 7 1 10 (binit two zeroed)).next).next

/-- The pool `three` after `binit` and `bget(1, 1)` by process 7: buffer 1,
the only buffer of bucket 1, is in use; buffers 2 and 0 of bucket 0 are not. -/
def threeHeld : Bcache := (bget three 7 1 1 (binit three zeroed)).next

/-- The pool `two` after `binit` and `bget(1, 10)` by process 7: buffer 1
caches the block and is locked by the process, buffer 0 is unused. -/
def twoHeld : Bcache := (bget two 7 1 10 (binit two zeroed)).next

end Bio

/-!
# Spinlock acquisition order

The spinlock events of the operations of `kalloc.c` and `bio.c`, in program
order, as functions of the state the operation starts in (the state decides
which branch is taken).  `acquiresleep` and `releasesleep` work on sleep
locks and are not spinlock events.
-/

namespace LockOrder

/-- The spinlocks of `kalloc.c` (`ref_lock`, `kmem.lock`) and of `bio.c`
(`bcache.lock[i]`, `bcache.lock_global`). -/
inductive Lock where
  | ref_lock
  | kmem
  | bucket (i : Nat)
  | lock_global
  deriving DecidableEq

inductive Ev where
  | acquire (l : Lock)
  | release (l : Lock)

/-- Holding the lock does not forbid acquiring the lock of bucket `i`: it is
neither the global lock nor the lock of bucket `i` or of a later bucket. -/
def below (i : Nat) : Lock → Bool
  | .bucket j => decide (j < i)
  | .lock_global => false
  | .ref_lock => true
  | .kmem => true

/-- The lock may be acquired while the locks `held` are held: `ref_lock` only
when `kmem.lock` is not held, a bucket lock only when every held lock is
`below` it. -/
def mayAcquire (held : List Lock) : Lock → Bool
  | .ref_lock => !(held.contains Lock.kmem)
  | .bucket i => held.all (below i)
  | .kmem => true
  | .lock_global => true

/-- Every acquisition of the event sequence respects `mayAcquire`, starting
with the locks `held`. -/
def ordered : List Lock → List Ev → Bool
  | _, [] => true
  | held, .acquire l :: es => mayAcquire held l && ordered (l :: held) es
  | held, .release l :: es => ordered (held.erase l) es

/-- The locks held after the event sequence. -/
def heldAfter : List Lock → List Ev → List Lock
  | held, [] => held
  | held, .acquire l :: es => heldAfter (l :: held) es
  | held, .release l :: es => heldAfter (held.erase l) es

/-- The events of `for(i ...; i < NBUCKET; i++) acquire(&bcache.lock[i]);`
with `k` buckets to go from `i` on. -/
def acquireAll : Nat → Nat → List Ev
  | 0, _ => []
  | k + 1, i => .acquire (.bucket i) :: acquireAll k (i + 1)

/-- The events of `for(j ...; j < NBUCKET; j++) release(&bcache.lock[j]);`. -/
def releaseAll : Nat → Nat → List Ev
  | 0, _ => []
  | k + 1, j => .release (.bucket j) :: releaseAll k (j + 1)

def kfree_locks (L : Kalloc.Layout) (pa : Nat) (s : Kalloc.Kmem) : List Ev :=
  if pa % Kalloc.PGSIZE ≠ 0 ∨ pa < L.kend ∨ pa ≥ L.PHYSTOP then
    []
  else
    [.acquire .ref_lock] ++
      (if s.ref (Kalloc.pa2index L pa) - 1 ≤ 0 then [.acquire .kmem, .release .kmem] else []) ++
      [.release .ref_lock]

def kalloc_locks : List Ev :=
  [.acquire .kmem, .release .kmem]

def cowcopy_pa_locks (L : Kalloc.Layout) (pa : Nat) (s : Kalloc.Kmem) : List Ev :=
  if s.ref (Kalloc.pa2index L pa) ≤ 1 then
    [.acquire .ref_lock, .release .ref_lock]
  else
    -- kalloc() is called with ref_lock held; ref_lock is released on both ways out
    [.acquire .ref_lock] ++ kalloc_locks ++ [.release .ref_lock]

def freerangeLoop_locks (L : Kalloc.Layout) (pa_end : Nat) : Nat → Nat → Kalloc.Kmem → List Ev
  | 0, _, _ => []
  | fuel + 1, p, s =>
    if p + Kalloc.PGSIZE ≤ pa_end then
      kfree_locks L p s ++
        (match Kalloc.kfree L p s with
         | .ok _ s1 => freerangeLoop_locks L pa_end fuel (p + Kalloc.PGSIZE) s1
         | .panic _ _ => [])
    else
      []

def freerange_locks (L : Kalloc.Layout) (pa_start pa_end : Nat) (s : Kalloc.Kmem) : List Ev :=
  freerangeLoop_locks L pa_end (pa_end / Kalloc.PGSIZE + 1) (Kalloc.PGROUNDUP pa_start) s

/-- The events of the global eviction path of `bget` once the bucket lock has
been released: all bucket locks in ascending order, the global lock, and, when
a victim is found, the releases; `panic` keeps every lock. -/
def bgetGlobal_locks (P : Bio.Params) (blockno : Nat) (c : Bio.Bcache) : List Ev :=
  acquireAll P.NBUCKET 0 ++ [.acquire .lock_global] ++
    (match Bio.findVictim P c (blockno % P.NBUCKET) P.NBUCKET 0 with
     | some (some _) => .release .lock_global :: releaseAll P.NBUCKET 0
     | some none => []
     | none => [])

def bget_locks (P : Bio.Params) (dev blockno : Nat) (c : Bio.Bcache) : List Ev :=
  let id := blockno % P.NBUCKET
  match Bio.findChain c (fun x => x.dev == dev && x.blockno == blockno) (P.NBUF + 1)
      (c.head id) with
  | none => [.acquire (.bucket id)]
  | some (some _) => [.acquire (.bucket id), .release (.bucket id)]
  | some none =>
    match Bio.findChain c (fun x => x.refcnt == 0) (P.NBUF + 1) (c.head id) with
    | none => [.acquire (.bucket id)]
    | some (some _) => [.acquire (.bucket id), .release (.bucket id)]
    | some none =>
      [.acquire (.bucket id), .release (.bucket id)] ++ bgetGlobal_locks P blockno c

def brelse_locks (P : Bio.Params) (pid b : Nat) (c : Bio.Bcache) : List Ev :=
  if !Bio.holdingsleep pid (c.buf b) then []
  else
    [.acquire (.bucket ((c.buf b).blockno % P.NBUCKET)),
      .release (.bucket ((c.buf b).blockno % P.NBUCKET))]

def bpin_locks (P : Bio.Params) (b : Nat) (c : Bio.Bcache) : List Ev :=
  [.acquire (.bucket ((c.buf b).blockno % P.NBUCKET)),
    .release (.bucket ((c.buf b).blockno % P.NBUCKET))]

def bunpin_locks (P : Bio.Params) (b : Nat) (c : Bio.Bcache) : List Ev :=
  [.acquire (.bucket ((c.buf b).blockno % P.NBUCKET)),
    .release (.bucket ((c.buf b).blockno % P.NBUCKET))]

end LockOrder

namespace Kalloc

/-! ## Memory lemmas -/

theorem load64_congr (m m' : Nat → Nat) (a : Nat)
    (h : ∀ i, i < 8 → m' (a + i) = m (a + i)) : load64 m' a = load64 m a := by
  have h0 := h 0 (by omega)
  simp only [Nat.add_zero] at h0
  simp only [load64, h0, h 1 (by omega), h 2 (by omega), h 3 (by omega), h 4 (by omega),
    h 5 (by omega), h 6 (by omega), h 7 (by omega)]

theorem load64_lt (m : Nat → Nat) (a : Nat) : load64 m a < U64 := by
  simp only [load64, U64]
  omega

theorem load64_store64 (m : Nat → Nat) (a v : Nat) (hv : v < U64) :
    load64 (store64 m a v) a = v := by
  simp only [U64] at hv
  have e1 : a + 1 - a = 1 := by omega
  have e2 : a + 2 - a = 2 := by omega
  have e3 : a + 3 - a = 3 := by omega
  have e4 : a + 4 - a = 4 := by omega
  have e5 : a + 5 - a = 5 := by omega
  have e6 : a + 6 - a = 6 := by omega
  have e7 : a + 7 - a = 7 := by omega
  simp only [load64, store64, e1, e2, e3, e4, e5, e6, e7]
  norm_num
  omega

theorem store64_outside (m : Nat → Nat) (a v x : Nat) (h : x < a ∨ a + 8 ≤ x) :
    store64 m a v x = m x := by
  simp only [store64]
  rw [if_neg (by omega)]

theorem memset_inside (m : Nat → Nat) (dst c n x : Nat) (h1 : dst ≤ x) (h2 : x < dst + n) :
    memset m dst c n x = c % 256 := by
  simp only [memset]
  rw [if_pos ⟨h1, h2⟩]

theorem memset_outside (m : Nat → Nat) (dst c n x : Nat) (h : x < dst ∨ dst + n ≤ x) :
    memset m dst c n x = m x := by
  simp only [memset]
  rw [if_neg (by omega)]

theorem memmove_inside (m : Nat → Nat) (dst src n i : Nat) (h : i < n) :
    memmove m dst src n (dst + i) = m (src + i) := by
  simp only [memmove]
  rw [if_pos ⟨by omega, by omega⟩]
  congr 2
  omega

theorem memmove_outside (m : Nat → Nat) (dst src n x : Nat) (h : x < dst ∨ dst + n ≤ x) :
    memmove m dst src n x = m x := by
  simp only [memmove]
  rw [if_neg (by omega)]

/-- Distinct page-aligned 64-bit addresses have distinct entries in `ref[]`. -/
theorem pa2index_inj (L : Layout) (p q : Nat) (hp : p % PGSIZE = 0) (hq : q % PGSIZE = 0)
    (hp64 : p < U64) (hq64 : q < U64) (h : pa2index L p = pa2index L q) : p = q := by
  simp only [pa2index, PGSIZE, U64] at *
  omega

/-- Two distinct page-aligned addresses are the starts of disjoint pages. -/
theorem page_disjoint (p q : Nat) (hp : p % PGSIZE = 0) (hq : q % PGSIZE = 0) (hne : p ≠ q) :
    p + PGSIZE ≤ q ∨ q + PGSIZE ≤ p := by
  simp only [PGSIZE] at *
  omega

/-! ## Free-list lemmas -/

theorem IsFreeList_congr (m m' : Nat → Nat) :
    ∀ (l : List Nat) (h : Nat), IsFreeList m h l →
      (∀ q ∈ l, ∀ i, i < 8 → m' (q + i) = m (q + i)) → IsFreeList m' h l
  | [], _, hl, _ => hl
  | p :: ps, h, hl, hm => by
    obtain ⟨h1, h2, h3⟩ := hl
    refine ⟨h1, h2, ?_⟩
    rw [load64_congr m m' p (hm p (List.mem_cons_self p ps))]
    exact IsFreeList_congr m m' ps _ h3 (fun q hq => hm q (List.mem_cons_of_mem p hq))

/-- The chain from a pointer determines its list of nodes. -/
theorem IsFreeList_unique (m : Nat → Nat) :
    ∀ (l1 l2 : List Nat) (h : Nat), IsFreeList m h l1 → IsFreeList m h l2 → l1 = l2
  | [], [], _, _, _ => rfl
  | [], q :: qs, h, h1, h2 => by
    obtain ⟨e, ne, _⟩ := h2
    simp only [IsFreeList] at h1
    omega
  | p :: ps, [], h, h1, h2 => by
    obtain ⟨e, ne, _⟩ := h1
    simp only [IsFreeList] at h2
    omega
  | p :: ps, q :: qs, h, h1, h2 => by
    obtain ⟨e1, _, t1⟩ := h1
    obtain ⟨e2, _, t2⟩ := h2
    have e : p = q := by omega
    subst e
    rw [IsFreeList_unique m ps qs _ t1 t2]

/-- From any node of a chain the rest of the chain is again a chain. -/
theorem IsFreeList_suffix (m : Nat → Nat) :
    ∀ (l : List Nat) (h q : Nat), IsFreeList m h l → q ∈ l →
      ∃ l2, IsFreeList m q (q :: l2) ∧ l2.length < l.length
  | [], _, _, _, hq => by cases hq
  | p :: ps, h, q, hl, hq => by
    rcases List.mem_cons.mp hq with e | hmem
    · subst e
      exact ⟨ps, ⟨rfl, hl.2.1, hl.2.2⟩, by simp⟩
    · obtain ⟨l2, h2, hlen⟩ := IsFreeList_suffix m ps _ q hl.2.2 hmem
      exact ⟨l2, h2, by simp only [List.length_cons]; omega⟩

/-- The head of a free list does not occur again further down. -/
theorem IsFreeList_head_not_mem (m : Nat → Nat) (h p : Nat) (ps : List Nat)
    (hl : IsFreeList m h (p :: ps)) : p ∉ ps := by
  intro hmem
  obtain ⟨l2, h2, hlen⟩ := IsFreeList_suffix m ps _ p hl.2.2 hmem
  have hp : IsFreeList m p (p :: ps) := ⟨rfl, hl.2.1, hl.2.2⟩
  have := IsFreeList_unique m _ _ p h2 hp
  simp only [List.cons.injEq, true_and] at this
  subst this
  omega

/-- A free list never holds a page twice. -/
theorem IsFreeList_nodup (m : Nat → Nat) :
    ∀ (l : List Nat) (h : Nat), IsFreeList m h l → l.Nodup
  | [], _, _ => List.nodup_nil
  | p :: ps, h, hl =>
    List.nodup_cons.mpr ⟨IsFreeList_head_not_mem m h p ps hl, IsFreeList_nodup m ps _ hl.2.2⟩

/-! ## `kalloc` -/

theorem kalloc_nonempty (L : Layout) (s : Kmem) (h : s.freelist ≠ 0) :
    kalloc L s = (s.freelist,
      { freelist := load64 s.mem s.freelist,
        ref := Function.update s.ref (pa2index L s.freelist) 1,
        mem := memset s.mem s.freelist 5 PGSIZE }) := by
  simp only [kalloc, if_pos h]

theorem kalloc_null (L : Layout) (s : Kmem) (h : s.freelist = 0) : kalloc L s = (0, s) := by
  simp [kalloc, h]

/-- Memory that differs from the old one only inside the head page still
holds the tail of the free list. -/
theorem FreeList_pop (L : Layout) (s : Kmem) (p : Nat) (ps : List Nat) (r : Nat → Int)
    (m' : Nat → Nat) (hl : FreeList L s (p :: ps))
    (hm : ∀ a, a < p ∨ p + PGSIZE ≤ a → m' a = s.mem a) :
    FreeList L { freelist := load64 s.mem p, ref := r, mem := m' } ps := by
  obtain ⟨⟨hh, hne, htl⟩, hr⟩ := hl
  have hp := hr p (List.mem_cons_self p ps)
  have hnm : p ∉ ps := IsFreeList_head_not_mem s.mem s.freelist p ps ⟨hh, hne, htl⟩
  refine ⟨?_, fun q hq => hr q (List.mem_cons_of_mem p hq)⟩
  refine IsFreeList_congr s.mem m' ps _ htl ?_
  intro q hq i hi
  have hqr := hr q (List.mem_cons_of_mem p hq)
  have hd := page_disjoint p q hp.1 hqr.1 (fun e => hnm (e ▸ hq))
  simp only [PGSIZE] at hd
  exact hm _ (by simp only [PGSIZE]; omega)

/-- On a state whose free list is `p :: ps`, `kalloc` returns `p`, leaves the
list `ps`, sets the count of `p` to 1 and keeps every other entry of `ref[]`. -/
theorem kalloc_head (L : Layout) (s : Kmem) (p : Nat) (ps : List Nat)
    (hl : FreeList L s (p :: ps)) :
    (kalloc L s).1 = p ∧
    FreeList L (kalloc L s).2 ps ∧
    (kalloc L s).2.ref (pa2index L p) = 1 ∧
    (∀ j, j ≠ pa2index L p → (kalloc L s).2.ref j = s.ref j) := by
  have hh : s.freelist = p := hl.1.1
  have hne : p ≠ 0 := hl.1.2.1
  have hpop := FreeList_pop L s p ps (Function.update s.ref (pa2index L p) 1)
    (memset s.mem p 5 PGSIZE) hl (fun a ha => memset_outside _ _ _ _ _ ha)
  rw [kalloc_nonempty L s (by rw [hh]; exact hne), hh]
  refine ⟨rfl, hpop, ?_, ?_⟩
  · simp
  · intro j hj
    simp [Function.update, hj]

/-- C2: on a state whose free list is `p :: ps`, `kalloc` returns the head `p`,
the free list becomes `ps`, all 4096 bytes of `p` are the fill byte 5, the
count of `p` is 1, and every other entry of `ref[]` (so the count of every
other page) and every byte outside the page `p` is what it was. -/
theorem kalloc_pops_head (L : Layout) (s : Kmem) (p : Nat) (ps : List Nat)
    (hL : L.Sane) (hl : FreeList L s (p :: ps)) :
    (kalloc L s).1 = p ∧
    FreeList L (kalloc L s).2 ps ∧
    (∀ i, i < PGSIZE → (kalloc L s).2.mem (p + i) = 5) ∧
    (kalloc L s).2.ref (pa2index L p) = 1 ∧
    (∀ j, j ≠ pa2index L p → (kalloc L s).2.ref j = s.ref j) ∧
    (∀ q, q % PGSIZE = 0 → q < U64 → q ≠ p →
      (kalloc L s).2.ref (pa2index L q) = s.ref (pa2index L q)) ∧
    (∀ a, a < p ∨ p + PGSIZE ≤ a → (kalloc L s).2.mem a = s.mem a) := by
  obtain ⟨hret, hfl, href, hother⟩ := kalloc_head L s p ps hl
  have hh : s.freelist = p := hl.1.1
  have hne : p ≠ 0 := hl.1.2.1
  have hp := hl.2 p (List.mem_cons_self p ps)
  have hmem : (kalloc L s).2.mem = memset s.mem p 5 PGSIZE := by
    rw [kalloc_nonempty L s (by rw [hh]; exact hne), hh]
  refine ⟨hret, hfl, ?_, href, hother, ?_, ?_⟩
  · intro i hi
    rw [hmem]
    exact memset_inside _ _ _ _ _ (by omega) (by omega)
  · intro q hq hq64 hqp
    exact hother _ (fun e =>
      hqp (pa2index_inj L q p hq hp.1 hq64 (lt_of_lt_of_le hp.2.2 hL.2) e))
  · intro a ha
    rw [hmem]
    exact memset_outside _ _ _ _ _ ha

/-- C3: on an empty free list `kalloc` returns 0 and changes nothing (it has
no way to panic), and it returns 0 only when the free list is empty. -/
theorem kalloc_fails_iff_empty (L : Layout) (s : Kmem) :
    (FreeList L s [] → kalloc L s = (0, s)) ∧ ((kalloc L s).1 = 0 → FreeList L s []) := by
  constructor
  · intro h
    exact kalloc_null L s h.1
  · intro h
    by_cases h0 : s.freelist = 0
    · exact ⟨h0, by simp⟩
    · rw [kalloc_nonempty L s h0] at h
      exact absurd h h0

/-! ## `cowcopy_pa` -/

theorem FreeList_nil (L : Layout) (s : Kmem) : FreeList L s [] ↔ s.freelist = 0 := by
  simp [FreeList, IsFreeList]

/-- C1: when the page `P` is not on the free list, has count `k > 1`, and the
free list is `q :: qs`, `cowcopy_pa P` returns the page `q`, different from
`P`, holding a copy of the 4096 bytes `P` had at the call; `P` keeps its bytes,
its count becomes `k - 1` and the count of `q` is 1. -/
theorem cowcopy_pa_shared (L : Layout) (s : Kmem) (P : Nat) (k : Int) (q : Nat) (qs : List Nat)
    (hL : L.Sane) (hl : FreeList L s (q :: qs)) (hP : P % PGSIZE = 0) (hP64 : P < U64)
    (hnot : P ∉ q :: qs) (hk : s.ref (pa2index L P) = k) (h1 : 1 < k) :
    ∃ s', cowcopy_pa L P s = .ok q s' ∧ q ≠ P ∧
      (∀ i, i < PGSIZE → s'.mem (q + i) = s.mem (P + i)) ∧
      (∀ i, i < PGSIZE → s'.mem (P + i) = s.mem (P + i)) ∧
      s'.ref (pa2index L P) = k - 1 ∧
      s'.ref (pa2index L q) = 1 := by
  obtain ⟨⟨hh, hne, htl⟩, hr⟩ := hl
  have hq := hr q (List.mem_cons_self q qs)
  have hqP : q ≠ P := fun e => hnot (e ▸ List.mem_cons_self q qs)
  have hidx : pa2index L q ≠ pa2index L P := fun e =>
    hqP (pa2index_inj L q P hq.1 hP (lt_of_lt_of_le hq.2.2 hL.2) hP64 e)
  have hd := page_disjoint q P hq.1 hP hqP
  have hf : s.freelist ≠ 0 := by rw [hh]; exact hne
  have hgt : ¬ s.ref (pa2index L P) ≤ 1 := by omega
  simp only [cowcopy_pa, if_neg hgt, kalloc_nonempty L s hf, hh, if_neg hne]
  refine ⟨_, rfl, hqP, ?_, ?_, ?_, ?_⟩
  · intro i hi
    show memmove _ q P PGSIZE (q + i) = _
    rw [memmove_inside _ _ _ _ _ hi]
    exact memset_outside _ _ _ _ _ (by omega)
  · intro i hi
    show memmove _ q P PGSIZE (P + i) = _
    rw [memmove_outside _ _ _ _ _ (by omega)]
    exact memset_outside _ _ _ _ _ (by omega)
  · simp [Function.update, Ne.symm hidx, hk]
  · simp [Function.update, hidx]

/-- C6: on a page whose count is at most 1, `cowcopy_pa` returns the page
itself and leaves the whole state (free list, counts, memory) as it was. -/
theorem cowcopy_pa_exclusive (L : Layout) (s : Kmem) (P : Nat)
    (h : s.ref (pa2index L P) ≤ 1) : cowcopy_pa L P s = .ok P s := by
  simp only [cowcopy_pa, if_pos h]

/-- C7: `cowcopy_pa P` panics exactly when the count of `P` exceeds 1 and the
free list is empty; the message is then "out of memory" and the state at the
panic is the state at the call (count not decremented, no byte changed). -/
theorem cowcopy_pa_panics_iff (L : Layout) (s : Kmem) (P : Nat) :
    ((∃ msg s', cowcopy_pa L P s = .panic msg s') ↔
      (1 < s.ref (pa2index L P) ∧ FreeList L s [])) ∧
    (∀ msg s', cowcopy_pa L P s = .panic msg s' → msg = "out of memory" ∧ s' = s) := by
  rw [FreeList_nil]
  by_cases hc : s.ref (pa2index L P) ≤ 1
  · simp only [cowcopy_pa, if_pos hc]
    refine ⟨⟨?_, ?_⟩, ?_⟩
    · rintro ⟨msg, s', h⟩
      cases h
    · rintro ⟨h, _⟩
      omega
    · intro msg s' h
      cases h
  · by_cases hf : s.freelist = 0
    · simp only [cowcopy_pa, if_neg hc, kalloc_null L s hf, if_true]
      refine ⟨⟨fun _ => ⟨by omega, hf⟩, fun _ => ⟨_, _, rfl⟩⟩, ?_⟩
      intro msg s' h
      cases h
      exact ⟨rfl, rfl⟩
    · simp only [cowcopy_pa, if_neg hc, kalloc_nonempty L s hf, if_neg hf]
      refine ⟨⟨?_, ?_⟩, ?_⟩
      · rintro ⟨msg, s', h⟩
        cases h
      · rintro ⟨_, h⟩
        exact absurd h hf
      · intro msg s' h
        cases h

/-! ## `kfree` -/

theorem kfree_out_of_range (L : Layout) (pa : Nat) (s : Kmem)
    (h : pa % PGSIZE ≠ 0 ∨ pa < L.kend ∨ L.PHYSTOP ≤ pa) :
    kfree L pa s = .panic "kfree" s := by
  simp only [kfree, ge_iff_le, if_pos h]

theorem kfree_last_ref (L : Layout) (pa : Nat) (s : Kmem) (hin : InRange L pa)
    (hc : s.ref (pa2index L pa) - 1 ≤ 0) :
    kfree L pa s = .ok ()
      { freelist := pa,
        ref := Function.update s.ref (pa2index L pa) (s.ref (pa2index L pa) - 1),
        mem := store64 (memset s.mem pa 1 PGSIZE) pa s.freelist } := by
  have hg : ¬ (pa % PGSIZE ≠ 0 ∨ pa < L.kend ∨ L.PHYSTOP ≤ pa) := by
    obtain ⟨h1, h2, h3⟩ := hin
    omega
  simp only [kfree, ge_iff_le, if_neg hg, Function.update_same, if_pos hc]

theorem kfree_still_shared (L : Layout) (pa : Nat) (s : Kmem) (hin : InRange L pa)
    (hc : ¬ s.ref (pa2index L pa) - 1 ≤ 0) :
    kfree L pa s = .ok ()
      { freelist := s.freelist,
        ref := Function.update s.ref (pa2index L pa) (s.ref (pa2index L pa) - 1),
        mem := s.mem } := by
  have hg : ¬ (pa % PGSIZE ≠ 0 ∨ pa < L.kend ∨ L.PHYSTOP ≤ pa) := by
    obtain ⟨h1, h2, h3⟩ := hin
    omega
  simp only [kfree, ge_iff_le, if_neg hg, Function.update_same, if_neg hc]

/-- The head pointer of a free list is a 64-bit value. -/
theorem FreeList_head_lt (L : Layout) (s : Kmem) (l : List Nat) (hL : L.Sane)
    (hl : FreeList L s l) : s.freelist < U64 := by
  cases l with
  | nil =>
    have : s.freelist = 0 := hl.1
    rw [this]
    simp [U64]
  | cons p ps =>
    have h1 : s.freelist = p := hl.1.1
    have h2 := (hl.2 p (List.mem_cons_self p ps)).2.2
    rw [h1]
    exact lt_of_lt_of_le h2 hL.2

/-- Pushing a page that is not on the free list: the memory written by the
last-reference branch of `kfree` holds the list `pa :: l`. -/
theorem FreeList_push (L : Layout) (s : Kmem) (l : List Nat) (pa : Nat) (r : Nat → Int)
    (hL : L.Sane) (hl : FreeList L s l) (hin : InRange L pa) (hnot : pa ∉ l) :
    FreeList L { freelist := pa, ref := r,
                 mem := store64 (memset s.mem pa 1 PGSIZE) pa s.freelist } (pa :: l) := by
  have hlt := FreeList_head_lt L s l hL hl
  refine ⟨⟨rfl, ?_, ?_⟩, ?_⟩
  · have := hL.1
    have := hin.2.1
    omega
  · show IsFreeList _ (load64 (store64 (memset s.mem pa 1 PGSIZE) pa s.freelist) pa) l
    rw [load64_store64 _ _ _ hlt]
    refine IsFreeList_congr s.mem _ l _ hl.1 ?_
    intro q hq i hi
    have hd := page_disjoint pa q hin.1 (hl.2 q hq).1 (fun e => hnot (e ▸ hq))
    simp only [PGSIZE] at hd
    show store64 (memset s.mem pa 1 PGSIZE) pa s.freelist (q + i) = s.mem (q + i)
    rw [store64_outside _ _ _ _ (by omega)]
    exact memset_outside _ _ _ _ _ (by simp only [PGSIZE]; omega)
  · intro q hq
    rcases List.mem_cons.mp hq with e | hm
    · rw [e]; exact hin
    · exact hl.2 q hm

/-- C4 (as the code has it): for a page-aligned `pa` of the managed range
whose count `c` is an `int` above `INT_MIN`, `kfree pa` returns, sets the count
to `c - 1`, again an `int` (the decrement does not overflow), and leaves every
other entry of `ref[]` alone.  If `c - 1 ≤ 0`: `kmem.freelist` becomes `pa`,
the first eight bytes of the page hold the old head pointer, the other 4088
bytes are the poison byte 1 (which is not the fill byte 5), no byte outside the
page changes, and, when `pa` was not already on the free list `l`, the free
list is `pa :: l`.  If `c - 1 ≥ 1`: free list and memory are unchanged. -/
theorem kfree_effect (L : Layout) (s : Kmem) (pa : Nat) (c : Int)
    (hL : L.Sane) (hin : InRange L pa) (hc : s.ref (pa2index L pa) = c)
    (hmin : INT_MIN < c) (hmax : c ≤ INT_MAX) :
    ∃ s', kfree L pa s = .ok () s' ∧
      s'.ref (pa2index L pa) = c - 1 ∧ INT_MIN ≤ c - 1 ∧ c - 1 ≤ INT_MAX ∧
      (∀ j, j ≠ pa2index L pa → s'.ref j = s.ref j) ∧
      (∀ q, q % PGSIZE = 0 → q < U64 → q ≠ pa → s'.ref (pa2index L q) = s.ref (pa2index L q)) ∧
      (c - 1 ≤ 0 →
        s'.freelist = pa ∧
        (s.freelist < U64 → load64 s'.mem pa = s.freelist) ∧
        (∀ i, 8 ≤ i → i < PGSIZE → s'.mem (pa + i) = 1 ∧ s'.mem (pa + i) ≠ 5) ∧
        (∀ a, a < pa ∨ pa + PGSIZE ≤ a → s'.mem a = s.mem a) ∧
        (∀ l, FreeList L s l → pa ∉ l → FreeList L s' (pa :: l))) ∧
      (1 ≤ c - 1 → s'.freelist = s.freelist ∧ s'.mem = s.mem) := by
  have hpa64 : pa < U64 := lt_of_lt_of_le hin.2.2 hL.2
  have hidx : ∀ q, q % PGSIZE = 0 → q < U64 → q ≠ pa → pa2index L q ≠ pa2index L pa :=
    fun q hq hq64 hne e => hne (pa2index_inj L q pa hq hin.1 hq64 hpa64 e)
  have hrange : INT_MIN ≤ c - 1 ∧ c - 1 ≤ INT_MAX := by
    constructor <;> omega
  by_cases hle : s.ref (pa2index L pa) - 1 ≤ 0
  · refine ⟨_, kfree_last_ref L pa s hin hle, ?_, hrange.1, hrange.2, ?_, ?_, ?_, ?_⟩
    · simp [hc]
    · intro j hj
      simp [Function.update, hj]
    · intro q hq hq64 hne
      simp [Function.update, hidx q hq hq64 hne]
    · intro _
      refine ⟨rfl, ?_, ?_, ?_, ?_⟩
      · intro hlt
        exact load64_store64 _ _ _ hlt
      · intro i h8 hi
        have : store64 (memset s.mem pa 1 PGSIZE) pa s.freelist (pa + i) = 1 := by
          rw [store64_outside _ _ _ _ (by omega)]
          exact memset_inside _ _ _ _ _ (by omega) (by omega)
        show store64 (memset s.mem pa 1 PGSIZE) pa s.freelist (pa + i) = 1 ∧
          store64 (memset s.mem pa 1 PGSIZE) pa s.freelist (pa + i) ≠ 5
        rw [this]
        exact ⟨rfl, by decide⟩
      · intro a ha
        show store64 (memset s.mem pa 1 PGSIZE) pa s.freelist a = s.mem a
        simp only [PGSIZE] at ha
        rw [store64_outside _ _ _ _ (by omega)]
        exact memset_outside _ _ _ _ _ (by simp only [PGSIZE]; omega)
      · intro l hl hnot
        exact FreeList_push L s l pa _ hL hl hin hnot
    · intro h
      omega
  · refine ⟨_, kfree_still_shared L pa s hin hle, ?_, hrange.1, hrange.2, ?_, ?_, ?_, ?_⟩
    · simp [hc]
    · intro j hj
      simp [Function.update, hj]
    · intro q hq hq64 hne
      simp [Function.update, hidx q hq hq64 hne]
    · intro h
      omega
    · intro _
      exact ⟨rfl, rfl⟩

/-- C5: `kfree pa` panics exactly when `pa` is not a multiple of 4096, or lies
below the end of the kernel image, or is `PHYSTOP` or more; the message is then
"kfree" and the state at the panic is the state at the call. -/
theorem kfree_panics_iff (L : Layout) (s : Kmem) (pa : Nat) :
    ((∃ msg s', kfree L pa s = .panic msg s') ↔
      (pa % 4096 ≠ 0 ∨ pa < L.kend ∨ L.PHYSTOP ≤ pa)) ∧
    (∀ msg s', kfree L pa s = .panic msg s' → msg = "kfree" ∧ s' = s) := by
  by_cases hg : pa % PGSIZE ≠ 0 ∨ pa < L.kend ∨ L.PHYSTOP ≤ pa
  · rw [kfree_out_of_range L pa s hg]
    refine ⟨⟨fun _ => hg, fun _ => ⟨_, _, rfl⟩⟩, ?_⟩
    intro msg s' h
    cases h
    exact ⟨rfl, rfl⟩
  · have hin : InRange L pa := by
      unfold InRange
      omega
    have hno : ∀ msg s', kfree L pa s ≠ .panic msg s' := by
      intro msg s' h
      by_cases hle : s.ref (pa2index L pa) - 1 ≤ 0
      · rw [kfree_last_ref L pa s hin hle] at h
        cases h
      · rw [kfree_still_shared L pa s hin hle] at h
        cases h
    refine ⟨⟨?_, fun h => absurd h hg⟩, fun msg s' h => absurd h (hno msg s')⟩
    rintro ⟨msg, s', h⟩
    exact absurd h (hno msg s')

/-! ## `kalloc` followed by `kfree` -/

/-- C9 (as the code has it): on a state whose free list is `p :: ps`,
`kalloc` returns `p` and an immediate `kfree p` returns normally; afterwards
the free list is `p :: ps` again with the same head pointer, the bytes of `p`
from offset 8 on are the poison byte 1 (neither the fill byte 5 nor data), the
first eight bytes of `p` hold the same link as before the `kalloc`, the count
of `p` is 0, and the next `kalloc` returns `p`. -/
theorem kalloc_kfree_roundtrip (L : Layout) (s : Kmem) (p : Nat) (ps : List Nat)
    (hL : L.Sane) (hl : FreeList L s (p :: ps)) :
    (kalloc L s).1 = p ∧
    ∃ s2, kfree L p (kalloc L s).2 = .ok () s2 ∧
      FreeList L s2 (p :: ps) ∧ s2.freelist = s.freelist ∧
      (∀ i, 8 ≤ i → i < PGSIZE → s2.mem (p + i) = 1 ∧ s2.mem (p + i) ≠ 5) ∧
      load64 s2.mem p = load64 s.mem p ∧
      s2.ref (pa2index L p) = 0 ∧
      (kalloc L s2).1 = p := by
  obtain ⟨hret, hfl, href, _⟩ := kalloc_head L s p ps hl
  have hh : s.freelist = p := hl.1.1
  have hne : p ≠ 0 := hl.1.2.1
  have hp : InRange L p := hl.2 p (List.mem_cons_self p ps)
  have hnm : p ∉ ps := IsFreeList_head_not_mem s.mem s.freelist p ps hl.1
  have hnew : (kalloc L s).2.freelist = load64 s.mem p := by
    rw [kalloc_nonempty L s (by rw [hh]; exact hne), hh]
  have hle : (kalloc L s).2.ref (pa2index L p) - 1 ≤ 0 := by rw [href]; decide
  refine ⟨hret, _, kfree_last_ref L p _ hp hle,
    FreeList_push L _ ps p _ hL hfl hp hnm, hh.symm, ?_, ?_, ?_, ?_⟩
  · intro i h8 hi
    have : store64 (memset (kalloc L s).2.mem p 1 PGSIZE) p (kalloc L s).2.freelist (p + i)
        = 1 := by
      rw [store64_outside _ _ _ _ (by omega)]
      exact memset_inside _ _ _ _ _ (by omega) (by omega)
    show store64 (memset (kalloc L s).2.mem p 1 PGSIZE) p (kalloc L s).2.freelist (p + i) = 1 ∧
      store64 (memset (kalloc L s).2.mem p 1 PGSIZE) p (kalloc L s).2.freelist (p + i) ≠ 5
    rw [this]
    exact ⟨rfl, by decide⟩
  · show load64 (store64 (memset (kalloc L s).2.mem p 1 PGSIZE) p (kalloc L s).2.freelist) p
      = load64 s.mem p
    rw [hnew, load64_store64 _ _ _ (load64_lt s.mem p)]
  · show Function.update (kalloc L s).2.ref (pa2index L p)
      ((kalloc L s).2.ref (pa2index L p) - 1) (pa2index L p) = 0
    rw [Function.update_same, href]
    rfl
  · rw [kalloc_nonempty L _ (show p ≠ 0 from hne)]

/-! ## Evaluation on the concrete machine `demo` -/

/-- C1 at `demo`: a copy-on-write fault on the shared `pageC` (count 2) takes
`pageB` from the free list and leaves both pages with count 1. -/
theorem cowcopy_pa_shared_witness :
    ∃ s', cowcopy_pa xv6 pageC demo = .ok pageB s' ∧ pageB ≠ pageC ∧
      (∀ i, i < PGSIZE → s'.mem (pageB + i) = demo.mem (pageC + i)) ∧
      (∀ i, i < PGSIZE → s'.mem (pageC + i) = demo.mem (pageC + i)) ∧
      s'.ref (pa2index xv6 pageC) = 2 - 1 ∧
      s'.ref (pa2index xv6 pageB) = 1 :=
  cowcopy_pa_shared xv6 demo pageC 2 pageB [pageA] (by decide) (by decide) (by decide)
    (by decide) (by decide) (by decide) (by decide)

/-- C2 at `demo`: `kalloc` hands out `pageB` and leaves `pageA` on the list. -/
theorem kalloc_pops_head_witness :
    (kalloc xv6 demo).1 = pageB ∧ FreeList xv6 (kalloc xv6 demo).2 [pageA] ∧
      (∀ i, i < PGSIZE → (kalloc xv6 demo).2.mem (pageB + i) = 5) ∧
      (kalloc xv6 demo).2.ref (pa2index xv6 pageB) = 1 :=
  have h := kalloc_pops_head xv6 demo pageB [pageA] (by decide) (by decide)
  ⟨h.1, h.2.1, h.2.2.1, h.2.2.2.1⟩

/-- C4 at `demo`: releasing the only reference to `pageD` drops its count to
0 and puts the page in front of the free list `[pageB, pageA]`, with the link
to `pageB` in its first eight bytes and poison behind it. -/
theorem kfree_effect_witness :
    ∃ s', kfree xv6 pageD demo = .ok () s' ∧ s'.ref (pa2index xv6 pageD) = 1 - 1 ∧
      s'.freelist = pageD ∧ load64 s'.mem pageD = pageB ∧
      (∀ i, 8 ≤ i → i < PGSIZE → s'.mem (pageD + i) = 1 ∧ s'.mem (pageD + i) ≠ 5) ∧
      FreeList xv6 s' [pageD, pageB, pageA] :=
  have ⟨s', h1, h2, _, _, _, _, h5, _⟩ :=
    kfree_effect xv6 demo pageD 1 (by decide) (by decide) (by decide) (by decide) (by decide)
  have h := h5 (by decide)
  ⟨s', h1, h2, h.1, h.2.1 (by decide), h.2.2.1, h.2.2.2.2 [pageB, pageA] (by decide) (by decide)⟩

/-- C4 fails as stated.  Releasing the last reference to `pageD` of `demo`
leaves byte 0 of the page at 0, the low byte of the link to the old head
`pageB`, not at the poison byte 1.  And releasing `pageB`, which is already
the head of the free list `[pageB, pageA]`, makes the page its own successor:
the free list is not `pageB` followed by the old list. -/
theorem kfree_effect_counterexample :
    (InRange xv6 pageD ∧ demo.ref (pa2index xv6 pageD) = 1 ∧
      (kfree xv6 pageD demo).state.freelist = pageD ∧
      (kfree xv6 pageD demo).state.mem pageD = 0 ∧
      ¬ (∀ i, i < PGSIZE → (kfree xv6 pageD demo).state.mem (pageD + i) = 1)) ∧
    (InRange xv6 pageB ∧ demo.ref (pa2index xv6 pageB) = 0 ∧ FreeList xv6 demo [pageB, pageA] ∧
      (kfree xv6 pageB demo).state.freelist = pageB ∧
      load64 (kfree xv6 pageB demo).state.mem pageB = pageB ∧
      ¬ FreeList xv6 (kfree xv6 pageB demo).state [pageB, pageB, pageA]) := by
  refine ⟨⟨by decide, by decide, by decide, by decide, ?_⟩,
    by decide, by decide, by decide, by decide, by decide, by decide⟩
  intro h
  exact absurd (h 0 (by decide)) (by decide)

/-- C6 at `demo`: `pageD` has a single owner, so `cowcopy_pa` returns it and
changes nothing. -/
theorem cowcopy_pa_exclusive_witness : cowcopy_pa xv6 pageD demo = .ok pageD demo :=
  cowcopy_pa_exclusive xv6 demo pageD (by decide)

/-- C9 at `demo`: `pageB` is handed out, released, and handed out again. -/
theorem kalloc_kfree_roundtrip_witness :
    (kalloc xv6 demo).1 = pageB ∧
    ∃ s2, kfree xv6 pageB (kalloc xv6 demo).2 = .ok () s2 ∧
      FreeList xv6 s2 [pageB, pageA] ∧ s2.ref (pa2index xv6 pageB) = 0 ∧
      (kalloc xv6 s2).1 = pageB :=
  have ⟨h0, s2, h1, h2, _, _, _, h6, h7⟩ :=
    kalloc_kfree_roundtrip xv6 demo pageB [pageA] (by decide) (by decide)
  ⟨h0, s2, h1, h2, h6, h7⟩

/-- C9 fails as stated.  After `kalloc` and `kfree` of `pageB` on `demo` the
first byte of `pageB` is 0, the low byte of the link to `pageA`: it is the
byte the page held before the `kalloc`, and it is not the poison byte 1. -/
theorem kalloc_kfree_roundtrip_counterexample :
    FreeList xv6 demo [pageB, pageA] ∧ (kalloc xv6 demo).1 = pageB ∧
      (kfree xv6 pageB (kalloc xv6 demo).2).state.mem pageB = 0 ∧
      (kfree xv6 pageB (kalloc xv6 demo).2).state.mem pageB = demo.mem pageB ∧
      ¬ (∀ i, i < PGSIZE → (kfree xv6 pageB (kalloc xv6 demo).2).state.mem (pageB + i) = 1) := by
  refine ⟨by decide, by decide, by decide, by decide, ?_⟩
  intro h
  exact absurd (h 0 (by decide)) (by decide)

/-! ## `freerange` -/

theorem pagesDown_shift (p : Nat) : ∀ k, pagesDown (p + PGSIZE) k ++ [p] = pagesDown p (k + 1)
  | 0 => by simp [pagesDown]
  | k + 1 => by
    have ih := pagesDown_shift p k
    simp only [pagesDown, List.cons_append] at ih ⊢
    rw [ih]
    congr 1
    simp only [PGSIZE]
    omega

theorem mem_pagesDown (start : Nat) : ∀ (n q : Nat), q ∈ pagesDown start n →
    ∃ i, i < n ∧ q = start + i * PGSIZE
  | 0, _, h => by cases h
  | n + 1, q, h => by
    rcases List.mem_cons.mp h with e | hm
    · exact ⟨n, by omega, e⟩
    · obtain ⟨i, hi, e⟩ := mem_pagesDown start n q hm
      exact ⟨i, by omega, e⟩

theorem length_pagesDown (start : Nat) : ∀ n, (pagesDown start n).length = n
  | 0 => rfl
  | n + 1 => by simp [pagesDown, length_pagesDown start n]

/-- The loop of `freerange` over `k` whole pages of the managed range, none of
them on the free list and none in use: it returns, having pushed the pages in
ascending order. -/
theorem freerangeLoop_pushes (L : Layout) (hL : L.Sane) (pa_end : Nat) :
    ∀ (k fuel p : Nat) (s : Kmem) (l : List Nat), k < fuel → p % PGSIZE = 0 → L.kend ≤ p →
      p + k * PGSIZE ≤ pa_end → pa_end < p + (k + 1) * PGSIZE → pa_end ≤ L.PHYSTOP →
      FreeList L s l → (∀ q ∈ l, q < p) → (∀ j, s.ref j ≤ 0) →
      ∃ s1, freerangeLoop L pa_end fuel p s = some (.ok () s1) ∧
        FreeList L s1 (pagesDown p k ++ l) ∧ ∀ j, s1.ref j ≤ 0
  | 0, fuel + 1, p, s, l, _, _, _, _, h2, _, hl, _, hr => by
    refine ⟨s, ?_, hl, hr⟩
    have : ¬ p + PGSIZE ≤ pa_end := by omega
    simp only [freerangeLoop, if_neg this]
  | k + 1, fuel + 1, p, s, l, hf, hal, hlo, h1, h2, h3, hl, hlt, hr => by
    have hstep : p + PGSIZE ≤ pa_end := by
      have : p + (k + 1) * PGSIZE = p + PGSIZE + k * PGSIZE := by ring
      omega
    have hin : InRange L p := ⟨hal, hlo, by simp only [PGSIZE] at hstep; omega⟩
    have hle : s.ref (pa2index L p) - 1 ≤ 0 := by have := hr (pa2index L p); omega
    have hnot : p ∉ l := fun hm => by have := hlt p hm; omega
    have hpush := FreeList_push L s l p
      (Function.update s.ref (pa2index L p) (s.ref (pa2index L p) - 1)) hL hl hin hnot
    obtain ⟨s1, he, hfl, hr1⟩ := freerangeLoop_pushes L hL pa_end k fuel (p + PGSIZE) _ (p :: l)
      (by omega) (by simp only [PGSIZE] at hal ⊢; omega) (by omega)
      (by have : p + (k + 1) * PGSIZE = p + PGSIZE + k * PGSIZE := by ring
          omega)
      (by have : p + (k + 1 + 1) * PGSIZE = p + PGSIZE + (k + 1) * PGSIZE := by ring
          omega)
      h3 hpush
      (by intro q hq
          rcases List.mem_cons.mp hq with e | hm
          · rw [e]; simp only [PGSIZE]; omega
          · have := hlt q hm; omega)
      (by intro j
          show Function.update s.ref (pa2index L p) (s.ref (pa2index L p) - 1) j ≤ 0
          by_cases hj : j = pa2index L p
          · rw [hj, Function.update_same]; exact hle
          · rw [Function.update_noteq hj]; exact hr j)
    refine ⟨s1, ?_, ?_, hr1⟩
    · simp only [freerangeLoop, if_pos hstep, kfree_last_ref L p s hin hle]
      exact he
    · rw [← pagesDown_shift, List.append_assoc]
      exact hfl

/-- Whatever the bounds, when the loop of `freerange` returns, the free list
is well formed and no count is positive. -/
theorem freerangeLoop_inv (L : Layout) (hL : L.Sane) (pa_end : Nat) :
    ∀ (fuel p : Nat) (s s1 : Kmem),
      (∃ l, FreeList L s l ∧ (∀ q ∈ l, q < p) ∧ ∀ j, s.ref j ≤ 0) →
      freerangeLoop L pa_end fuel p s = some (.ok () s1) →
      ∃ l, FreeList L s1 l ∧ ∀ j, s1.ref j ≤ 0
  | 0, _, _, _, _, h => by simp [freerangeLoop] at h
  | fuel + 1, p, s, s1, ⟨l, hl, hlt, hr⟩, h => by
    by_cases hstep : p + PGSIZE ≤ pa_end
    · by_cases hg : p % PGSIZE ≠ 0 ∨ p < L.kend ∨ L.PHYSTOP ≤ p
      · simp [freerangeLoop, if_pos hstep, kfree_out_of_range L p s hg] at h
      · have hin : InRange L p := by unfold InRange; omega
        have hle : s.ref (pa2index L p) - 1 ≤ 0 := by have := hr (pa2index L p); omega
        have hnot : p ∉ l := fun hm => by have := hlt p hm; omega
        simp only [freerangeLoop, if_pos hstep, kfree_last_ref L p s hin hle] at h
        refine freerangeLoop_inv L hL pa_end fuel (p + PGSIZE) _ s1 ⟨p :: l, ?_, ?_, ?_⟩ h
        · exact FreeList_push L s l p _ hL hl hin hnot
        · intro q hq
          rcases List.mem_cons.mp hq with e | hm
          · rw [e]; simp only [PGSIZE]; omega
          · have := hlt q hm; omega
        · intro j
          show Function.update s.ref (pa2index L p) (s.ref (pa2index L p) - 1) j ≤ 0
          by_cases hj : j = pa2index L p
          · rw [hj, Function.update_same]; exact hle
          · rw [Function.update_noteq hj]; exact hr j
    · simp only [freerangeLoop, if_neg hstep, Option.some.injEq, Outcome.ok.injEq, true_and] at h
      rw [← h]
      exact ⟨l, hl, hr⟩

/-- The bound on iterations that `freerange` passes to its loop is never
reached: `freerange` always ends, by returning or by the panic of `kfree`. -/
theorem freerangeLoop_ends (L : Layout) (pa_end : Nat) :
    ∀ (fuel p : Nat) (s : Kmem), 0 < fuel → pa_end < p + fuel * PGSIZE →
      freerangeLoop L pa_end fuel p s ≠ none
  | 0, _, _, h, _ => absurd h (by decide)
  | fuel + 1, p, s, _, h => by
    by_cases hstep : p + PGSIZE ≤ pa_end
    · have hpos : 0 < fuel := by
        rcases Nat.eq_zero_or_pos fuel with e | hp
        · rw [e] at h; simp only [PGSIZE] at h hstep; omega
        · exact hp
      have hnext : pa_end < p + PGSIZE + fuel * PGSIZE := by
        have : p + (fuel + 1) * PGSIZE = p + PGSIZE + fuel * PGSIZE := by ring
        omega
      cases hk : kfree L p s with
      | ok v s1 =>
        simp only [freerangeLoop, if_pos hstep, hk]
        exact freerangeLoop_ends L pa_end fuel (p + PGSIZE) s1 hpos hnext
      | panic msg s1 =>
        simp [freerangeLoop, if_pos hstep, hk]
    · simp [freerangeLoop, if_neg hstep]

theorem freerange_ends (L : Layout) (pa_start pa_end : Nat) (s : Kmem) :
    freerange L pa_start pa_end s ≠ none := by
  refine freerangeLoop_ends L pa_end _ _ s (Nat.succ_pos _) ?_
  simp only [PGSIZE]
  omega

/-- `PGROUNDUP` leaves a page-aligned 64-bit address where it is. -/
theorem PGROUNDUP_aligned (a : Nat) (h : a % PGSIZE = 0) (h64 : a < U64) : PGROUNDUP a = a := by
  simp only [PGROUNDUP, PGSIZE, U64] at *
  omega

/-! ## Successive `kalloc` calls -/

theorem kalloc_keeps_one (L : Layout) (s : Kmem) (j : Nat) (h : s.ref j = 1) :
    (kalloc L s).2.ref j = 1 := by
  by_cases hf : s.freelist = 0
  · rw [kalloc_null L s hf]; exact h
  · rw [kalloc_nonempty L s hf]
    show Function.update s.ref (pa2index L s.freelist) 1 j = 1
    by_cases hj : j = pa2index L s.freelist
    · rw [hj, Function.update_same]
    · rw [Function.update_noteq hj]; exact h

theorem kallocN_keeps_one (L : Layout) : ∀ (n : Nat) (s : Kmem) (j : Nat), s.ref j = 1 →
    (kallocN L n s).2.ref j = 1
  | 0, _, _, h => h
  | n + 1, s, j, h => kallocN_keeps_one L n (kalloc L s).2 j (kalloc_keeps_one L s j h)

/-- As many `kalloc` calls as the free list is long hand out the list, head
first, and leave it empty with every page handed out at count 1. -/
theorem kallocN_drains (L : Layout) (hL : L.Sane) : ∀ (l : List Nat) (s : Kmem), FreeList L s l →
    (kallocN L l.length s).1 = l ∧ FreeList L (kallocN L l.length s).2 [] ∧
      ∀ q ∈ l, (kallocN L l.length s).2.ref (pa2index L q) = 1
  | [], _, hl => ⟨rfl, hl, fun _ hq => by cases hq⟩
  | p :: ps, s, hl => by
    obtain ⟨hret, hfl, href, _⟩ := kalloc_head L s p ps hl
    obtain ⟨h1, h2, h3⟩ := kallocN_drains L hL ps (kalloc L s).2 hfl
    refine ⟨?_, h2, ?_⟩
    · show (kalloc L s).1 :: (kallocN L ps.length (kalloc L s).2).1 = p :: ps
      rw [hret, h1]
    · intro q hq
      rcases List.mem_cons.mp hq with e | hm
      · rw [e]
        exact kallocN_keeps_one L ps.length (kalloc L s).2 _ href
      · exact h3 q hm

/-- C8: from an empty free list and all counts zero, `freerange` over a
page-aligned range of exactly `n` pages inside the managed memory returns;
then `n` calls of `kalloc` return `n` non-null, pairwise distinct pages of the
range, one more call returns 0 and changes nothing, and after `kfree` of any
one of the `n` pages the next `kalloc` succeeds (it returns that page). -/
theorem freerange_then_kalloc (L : Layout) (s0 : Kmem) (start n : Nat) (hL : L.Sane)
    (hfl : FreeList L s0 []) (href : ∀ j, s0.ref j = 0)
    (hal : start % PGSIZE = 0) (h64 : start < U64) (hlo : L.kend ≤ start)
    (hhi : start + n * PGSIZE ≤ L.PHYSTOP) :
    ∃ s1, freerange L start (start + n * PGSIZE) s0 = some (.ok () s1) ∧
      (kallocN L n s1).1 = pagesDown start n ∧
      (kallocN L n s1).1.length = n ∧
      (∀ p ∈ (kallocN L n s1).1,
        p ≠ 0 ∧ InRange L p ∧ start ≤ p ∧ p + PGSIZE ≤ start + n * PGSIZE) ∧
      (kallocN L n s1).1.Nodup ∧
      kalloc L (kallocN L n s1).2 = (0, (kallocN L n s1).2) ∧
      ∀ p ∈ (kallocN L n s1).1,
        ∃ s3, kfree L p (kalloc L (kallocN L n s1).2).2 = .ok () s3 ∧
          (kalloc L s3).1 = p ∧ (kalloc L s3).1 ≠ 0 := by
  obtain ⟨s1, he, hl1, _⟩ := freerangeLoop_pushes L hL (start + n * PGSIZE) n
    ((start + n * PGSIZE) / PGSIZE + 1) start s0 [] (by simp only [PGSIZE]; omega) hal hlo
    (le_refl _) (by simp only [PGSIZE]; omega) hhi hfl (fun _ hq => by cases hq)
    (fun j => by rw [href j])
  rw [List.append_nil] at hl1
  obtain ⟨hd1, hd2, hd3⟩ := kallocN_drains L hL (pagesDown start n) s1 hl1
  rw [length_pagesDown] at hd1 hd2 hd3
  have hempty : (kallocN L n s1).2.freelist = 0 := hd2.1
  have hpages : ∀ p ∈ pagesDown start n,
      p ≠ 0 ∧ InRange L p ∧ start ≤ p ∧ p + PGSIZE ≤ start + n * PGSIZE := by
    intro p hp
    have hin := hl1.2 p hp
    obtain ⟨i, hi, e⟩ := mem_pagesDown start n p hp
    have hmul : i * PGSIZE + PGSIZE ≤ n * PGSIZE := by
      have : (i + 1) * PGSIZE ≤ n * PGSIZE := Nat.mul_le_mul_right _ hi
      rw [Nat.add_mul, Nat.one_mul] at this
      exact this
    refine ⟨?_, hin, by omega, by omega⟩
    have := hL.1
    have := hin.2.1
    omega
  refine ⟨s1, ?_, hd1, ?_, ?_, ?_, kalloc_null L _ hempty, ?_⟩
  · simp only [freerange, PGROUNDUP_aligned start hal h64]
    exact he
  · rw [hd1, length_pagesDown]
  · rw [hd1]; exact hpages
  · rw [hd1]; exact IsFreeList_nodup s1.mem _ s1.freelist hl1.1
  · rw [hd1, kalloc_null L _ hempty]
    intro p hp
    obtain ⟨hne, hin, _, _⟩ := hpages p hp
    have hle : (kallocN L n s1).2.ref (pa2index L p) - 1 ≤ 0 := by rw [hd3 p hp]; decide
    refine ⟨_, kfree_last_ref L p _ hin hle, ?_⟩
    rw [kalloc_nonempty L _ (show p ≠ 0 from hne)]
    exact ⟨rfl, hne⟩

/-- C8 at three pages: on `tiny`, whose managed range is the three pages
`pageA`, `pageB`, `pageC`, three `kalloc` calls return them, the fourth
returns 0, and after `kfree pageB` the fifth returns `pageB`. -/
theorem freerange_then_kalloc_witness :
    ∃ s1, freerange tiny pageA (pageA + 3 * PGSIZE) (boot fun _ => 0) = some (.ok () s1) ∧
      (kallocN tiny 3 s1).1 = [pageC, pageB, pageA] ∧
      kalloc tiny (kallocN tiny 3 s1).2 = (0, (kallocN tiny 3 s1).2) ∧
      ∃ s3, kfree tiny pageB (kalloc tiny (kallocN tiny 3 s1).2).2 = .ok () s3 ∧
        (kalloc tiny s3).1 = pageB ∧ (kalloc tiny s3).1 ≠ 0 :=
  have ⟨s1, h1, h2, _, _, _, h6, h7⟩ :=
    freerange_then_kalloc tiny (boot fun _ => 0) pageA 3 (by decide) (by decide) (fun _ => rfl)
      (by decide) (by decide) (by decide) (by decide)
  ⟨s1, h1, h2, h6, h7 pageB (by rw [h2]; decide)⟩

/-! ## No double allocation -/

theorem Inv_kalloc (L : Layout) (hL : L.Sane) (s : Kmem) (h : Inv L s) : Inv L (kalloc L s).2 := by
  obtain ⟨l, hl, hr⟩ := h
  cases l with
  | nil =>
    rw [kalloc_null L s hl.1]
    exact ⟨[], hl, hr⟩
  | cons p ps =>
    obtain ⟨_, hfl, _, hother⟩ := kalloc_head L s p ps hl
    refine ⟨ps, hfl, ?_⟩
    intro q hq
    have hnm : p ∉ ps := IsFreeList_head_not_mem s.mem s.freelist p ps hl.1
    have hp := hl.2 p (List.mem_cons_self p ps)
    have hqr := hl.2 q (List.mem_cons_of_mem p hq)
    have hne : pa2index L q ≠ pa2index L p := fun e =>
      hnm ((pa2index_inj L q p hqr.1 hp.1 (lt_of_lt_of_le hqr.2.2 hL.2)
        (lt_of_lt_of_le hp.2.2 hL.2) e) ▸ hq)
    rw [hother _ hne]
    exact hr q (List.mem_cons_of_mem p hq)

theorem Inv_kfree (L : Layout) (hL : L.Sane) (s : Kmem) (pa : Nat) (s' : Kmem) (h : Inv L s)
    (hc : 1 ≤ s.ref (pa2index L pa)) (hk : kfree L pa s = .ok () s') : Inv L s' := by
  obtain ⟨l, hl, hr⟩ := h
  by_cases hg : pa % PGSIZE ≠ 0 ∨ pa < L.kend ∨ L.PHYSTOP ≤ pa
  · rw [kfree_out_of_range L pa s hg] at hk
    cases hk
  · have hin : InRange L pa := by unfold InRange; omega
    have hidx : ∀ q ∈ l, pa2index L q ≠ pa2index L pa := by
      intro q hq e
      have := hr q hq
      rw [e] at this
      omega
    by_cases hle : s.ref (pa2index L pa) - 1 ≤ 0
    · rw [kfree_last_ref L pa s hin hle] at hk
      cases hk
      have hnot : pa ∉ l := fun hm => hidx pa hm rfl
      refine ⟨pa :: l, FreeList_push L s l pa _ hL hl hin hnot, ?_⟩
      intro q hq
      show Function.update s.ref (pa2index L pa) (s.ref (pa2index L pa) - 1) (pa2index L q) ≤ 0
      rcases List.mem_cons.mp hq with e | hm
      · rw [e, Function.update_same]; exact hle
      · rw [Function.update_noteq (hidx q hm)]; exact hr q hm
    · rw [kfree_still_shared L pa s hin hle] at hk
      cases hk
      refine ⟨l, hl, ?_⟩
      intro q hq
      show Function.update s.ref (pa2index L pa) (s.ref (pa2index L pa) - 1) (pa2index L q) ≤ 0
      rw [Function.update_noteq (hidx q hq)]; exact hr q hq

theorem Inv_cowcopy_pa (L : Layout) (hL : L.Sane) (s : Kmem) (pa q : Nat) (s' : Kmem)
    (h : Inv L s) (_hc : 1 ≤ s.ref (pa2index L pa)) (hk : cowcopy_pa L pa s = .ok q s') :
    Inv L s' := by
  by_cases h1 : s.ref (pa2index L pa) ≤ 1
  · simp only [cowcopy_pa, if_pos h1, Outcome.ok.injEq] at hk
    rw [← hk.2]; exact h
  · obtain ⟨l, hl, hr⟩ := h
    have hidx : ∀ x ∈ l, pa2index L x ≠ pa2index L pa := by
      intro x hx e
      have := hr x hx
      rw [e] at this
      omega
    cases l with
    | nil =>
      simp [cowcopy_pa, if_neg h1, kalloc_null L s hl.1] at hk
    | cons p ps =>
      have hh : s.freelist = p := hl.1.1
      have hne : p ≠ 0 := hl.1.2.1
      have hp := hl.2 p (List.mem_cons_self p ps)
      have hnm : p ∉ ps := IsFreeList_head_not_mem s.mem s.freelist p ps hl.1
      simp only [cowcopy_pa, if_neg h1, kalloc_nonempty L s (by rw [hh]; exact hne), hh,
        if_neg hne, Outcome.ok.injEq] at hk
      rw [← hk.2]
      refine ⟨ps, FreeList_pop L s p ps _ _ hl ?_, ?_⟩
      · intro a ha
        rw [memmove_outside _ _ _ _ _ ha]
        exact memset_outside _ _ _ _ _ ha
      · intro x hx
        have hxr := hl.2 x (List.mem_cons_of_mem p hx)
        have hxp : pa2index L x ≠ pa2index L p := fun e =>
          hnm ((pa2index_inj L x p hxr.1 hp.1 (lt_of_lt_of_le hxr.2.2 hL.2)
            (lt_of_lt_of_le hp.2.2 hL.2) e) ▸ hx)
        show Function.update (Function.update s.ref (pa2index L p) 1) (pa2index L pa) _
          (pa2index L x) ≤ 0
        rw [Function.update_noteq (hidx x (List.mem_cons_of_mem p hx)),
          Function.update_noteq hxp]
        exact hr x (List.mem_cons_of_mem p hx)

theorem Inv_freerange (L : Layout) (hL : L.Sane) (s0 : Kmem) (pa_start pa_end : Nat) (s : Kmem)
    (hf : s0.freelist = 0) (hr : ∀ j, s0.ref j = 0)
    (h : freerange L pa_start pa_end s0 = some (.ok () s)) : Inv L s := by
  have h0 : FreeList L s0 [] := ⟨hf, fun _ hq => by cases hq⟩
  have hle0 : ∀ j, s0.ref j ≤ 0 := fun j => by rw [hr j]
  obtain ⟨l, hl, hle⟩ := freerangeLoop_inv L hL pa_end (pa_end / PGSIZE + 1)
    (PGROUNDUP pa_start) s0 s
    (Exists.intro [] (And.intro h0 (And.intro (fun _ hq => absurd hq (List.not_mem_nil _)) hle0)))
    h
  exact ⟨l, hl, fun q _ => hle _⟩

theorem Inv_step (L : Layout) (hL : L.Sane) (s s' : Kmem) (h : Inv L s) (hs : Step L s s') :
    Inv L s' := by
  cases hs
  · exact Inv_kalloc L hL s h
  · rename_i pa hc hk
    exact Inv_kfree L hL s pa s' h hc hk
  · rename_i pa q hc hk
    exact Inv_cowcopy_pa L hL s pa q s' h hc hk

theorem Inv_reachable (L : Layout) (hL : L.Sane) (s : Kmem) (h : Reachable L s) : Inv L s := by
  induction h with
  | init s0 a b s hf hr he => exact Inv_freerange L hL s0 a b s hf hr he
  | step s s' _ hs ih => exact Inv_step L hL s s' ih hs

theorem Reachable_steps (L : Layout) (s s' : Kmem) (h : Reachable L s)
    (hs : Relation.ReflTransGen (Step L) s s') : Reachable L s' := by
  induction hs with
  | refl => exact h
  | tail _ hstep ih => exact Reachable.step _ _ ih hstep

/-- In a state that satisfies the invariant `kalloc` returns no page in use. -/
theorem Inv_kalloc_fresh (L : Layout) (s : Kmem) (h : Inv L s) (hne : (kalloc L s).1 ≠ 0) :
    s.ref (pa2index L (kalloc L s).1) ≤ 0 := by
  obtain ⟨l, hl, hr⟩ := h
  cases l with
  | nil =>
    rw [kalloc_null L s hl.1] at hne
    exact absurd rfl hne
  | cons p ps =>
    have hh : s.freelist = p := hl.1.1
    rw [kalloc_nonempty L s (by rw [hh]; exact hl.1.2.1), hh]
    exact hr p (List.mem_cons_self p ps)

/-- C10: in every state reachable from `freerange`/`kinit` by `kalloc`, and
by `kfree` and `cowcopy_pa` applied to pages of count at least 1, the free
list holds no page twice and no page whose count is at least 1; so a page
returned by `kalloc` was not in use, and a later `kalloc` does not return the
same page again while its count is still at least 1. -/
theorem no_double_allocation (L : Layout) (s : Kmem) (hL : L.Sane) (hr : Reachable L s) :
    (∃ l, FreeList L s l ∧ l.Nodup ∧ ∀ q ∈ l, ¬ 1 ≤ s.ref (pa2index L q)) ∧
    ((kalloc L s).1 ≠ 0 → ¬ 1 ≤ s.ref (pa2index L (kalloc L s).1)) ∧
    (∀ s', Relation.ReflTransGen (Step L) (kalloc L s).2 s' → (kalloc L s).1 ≠ 0 →
      1 ≤ s'.ref (pa2index L (kalloc L s).1) → (kalloc L s').1 ≠ (kalloc L s).1) := by
  have hinv := Inv_reachable L hL s hr
  refine ⟨?_, ?_, ?_⟩
  · obtain ⟨l, hl, hle⟩ := hinv
    exact ⟨l, hl, IsFreeList_nodup s.mem l s.freelist hl.1, fun q hq => by have := hle q hq; omega⟩
  · intro hne
    have := Inv_kalloc_fresh L s hinv hne
    omega
  · intro s' hs hne hc e
    have hr' : Reachable L s' :=
      Reachable_steps L _ s' (Reachable.step s _ hr (Step.kalloc s)) hs
    have := Inv_kalloc_fresh L s' (Inv_reachable L hL s' hr') (by rw [e]; exact hne)
    rw [e] at this
    omega

/-- C10 on `tiny` right after `kinit`: the three pages of the free list are
distinct and unused, and the first `kalloc` returns `pageC`. -/
theorem no_double_allocation_witness :
    (∃ l, FreeList tiny tinyBooted l ∧ l.Nodup ∧
      ∀ q ∈ l, ¬ 1 ≤ tinyBooted.ref (pa2index tiny q)) ∧
    (kalloc tiny tinyBooted).1 = pageC ∧
    ¬ 1 ≤ tinyBooted.ref (pa2index tiny (kalloc tiny tinyBooted).1) :=
  have h := no_double_allocation tiny tinyBooted (by decide)
    (Reachable.init (boot fun _ => 0) tiny.kend tiny.PHYSTOP tinyBooted rfl (fun _ => rfl) rfl)
  ⟨h.1, by decide, h.2.1 (by decide)⟩

/-! ## The page invariant -/

/-- When the loop of `kinit` returns, every page it was asked to free is on
the free list with count -1 and every other count is still 0. -/
theorem freerangeLoop_pageinv (L : Layout) (hL : L.Sane) (pa_end p0 : Nat) :
    ∀ (fuel p : Nat) (s s1 : Kmem), p % PGSIZE = 0 →
      (∃ l, FreeList L s l ∧ (∀ q ∈ l, q < p) ∧
        (∀ j, s.ref j = 0 ∨ (s.ref j = -1 ∧ ∃ q ∈ l, j = pa2index L q)) ∧
        (∀ q, q % PGSIZE = 0 → p0 ≤ q → q < p → q ∈ l)) →
      freerangeLoop L pa_end fuel p s = some (.ok () s1) →
      ∃ l, FreeList L s1 l ∧ (∀ q ∈ l, s1.ref (pa2index L q) ≤ 0) ∧ (∀ j, -1 ≤ s1.ref j) ∧
        (∀ q, q % PGSIZE = 0 → p0 ≤ q → q + PGSIZE ≤ pa_end → q ∈ l)
  | 0, _, _, _, _, _, h => by simp [freerangeLoop] at h
  | fuel + 1, p, s, s1, hal, ⟨l, hl, hlt, hr, hall⟩, h => by
    by_cases hstep : p + PGSIZE ≤ pa_end
    · by_cases hg : p % PGSIZE ≠ 0 ∨ p < L.kend ∨ L.PHYSTOP ≤ p
      · simp [freerangeLoop, if_pos hstep, kfree_out_of_range L p s hg] at h
      · have hin : InRange L p := by unfold InRange; omega
        have hnot : p ∉ l := fun hm => by have := hlt p hm; omega
        have hzero : s.ref (pa2index L p) = 0 := by
          rcases hr (pa2index L p) with h0 | ⟨_, q, hq, e⟩
          · exact h0
          · have hqr := hl.2 q hq
            have : p = q := pa2index_inj L p q hin.1 hqr.1 (lt_of_lt_of_le hin.2.2 hL.2)
              (lt_of_lt_of_le hqr.2.2 hL.2) e
            exact absurd (this ▸ hq) hnot
        have hle : s.ref (pa2index L p) - 1 ≤ 0 := by rw [hzero]; decide
        simp only [freerangeLoop, if_pos hstep, kfree_last_ref L p s hin hle] at h
        refine freerangeLoop_pageinv L hL pa_end p0 fuel (p + PGSIZE) _ s1
          (by simp only [PGSIZE] at hal ⊢; omega) ⟨p :: l, ?_, ?_, ?_, ?_⟩ h
        · exact FreeList_push L s l p _ hL hl hin hnot
        · intro q hq
          rcases List.mem_cons.mp hq with e | hm
          · rw [e]; simp only [PGSIZE]; omega
          · have := hlt q hm; omega
        · intro j
          show Function.update s.ref (pa2index L p) (s.ref (pa2index L p) - 1) j = 0 ∨
            (Function.update s.ref (pa2index L p) (s.ref (pa2index L p) - 1) j = -1 ∧
              ∃ q ∈ p :: l, j = pa2index L q)
          by_cases hj : j = pa2index L p
          · right
            rw [hj, Function.update_same, hzero]
            exact ⟨rfl, p, List.mem_cons_self p l, rfl⟩
          · rw [Function.update_noteq hj]
            rcases hr j with h0 | ⟨h1, q, hq, e⟩
            · exact Or.inl h0
            · exact Or.inr ⟨h1, q, List.mem_cons_of_mem p hq, e⟩
        · intro q hq h0 hq2
          by_cases hqp : q < p
          · exact List.mem_cons_of_mem p (hall q hq h0 hqp)
          · have : q = p := by simp only [PGSIZE] at hq hal hq2; omega
            rw [this]; exact List.mem_cons_self p l
    · simp only [freerangeLoop, if_neg hstep, Option.some.injEq, Outcome.ok.injEq, true_and] at h
      rw [← h]
      refine ⟨l, hl, ?_, ?_, ?_⟩
      · intro q _
        rcases hr (pa2index L q) with h0 | ⟨h1, _⟩
        · rw [h0]
        · rw [h1]; decide
      · intro j
        rcases hr j with h0 | ⟨h1, _⟩
        · rw [h0]; decide
        · rw [h1]
      · intro q hq h0 hq2
        exact hall q hq h0 (by omega)

theorem PGROUNDUP_mod (a : Nat) : PGROUNDUP a % PGSIZE = 0 := by
  simp only [PGROUNDUP, PGSIZE, U64]
  omega

theorem PageInv_kinit (L : Layout) (hL : L.Sane) (s0 s : Kmem) (hf : s0.freelist = 0)
    (hr : ∀ j, s0.ref j = 0) (h : kinit L s0 = some (.ok () s)) : ∃ l, PageInv L s l := by
  have h0 : FreeList L s0 [] := ⟨hf, fun _ hq => absurd hq (List.not_mem_nil _)⟩
  obtain ⟨l, hl, hle, hge, hall⟩ := freerangeLoop_pageinv L hL L.PHYSTOP (PGROUNDUP L.kend)
    (L.PHYSTOP / PGSIZE + 1) (PGROUNDUP L.kend) s0 s (PGROUNDUP_mod L.kend)
    (Exists.intro [] (And.intro h0 (And.intro (fun _ hq => absurd hq (List.not_mem_nil _))
      (And.intro (fun j => Or.inl (hr j)) (fun q _ h1 h2 => absurd h2 (by omega)))))) h
  exact ⟨l, hl, hle, hge, fun p hp _ => hall p hp.1 hp.2.1 hp.2.2⟩

theorem PageInv_kalloc (L : Layout) (hL : L.Sane) (s : Kmem) (l : List Nat)
    (h : PageInv L s l) : ∃ l', PageInv L (kalloc L s).2 l' := by
  obtain ⟨hl, hr, hge, hall⟩ := h
  cases l with
  | nil =>
    rw [kalloc_null L s hl.1]
    exact ⟨[], hl, hr, hge, hall⟩
  | cons p ps =>
    obtain ⟨_, hfl, href, hother⟩ := kalloc_head L s p ps hl
    have hnm : p ∉ ps := IsFreeList_head_not_mem s.mem s.freelist p ps hl.1
    have hp := hl.2 p (List.mem_cons_self p ps)
    refine ⟨ps, hfl, ?_, ?_, ?_⟩
    · intro q hq
      have hqr := hl.2 q (List.mem_cons_of_mem p hq)
      have hne : pa2index L q ≠ pa2index L p := fun e =>
        hnm ((pa2index_inj L q p hqr.1 hp.1 (lt_of_lt_of_le hqr.2.2 hL.2)
          (lt_of_lt_of_le hp.2.2 hL.2) e) ▸ hq)
      rw [hother _ hne]
      exact hr q (List.mem_cons_of_mem p hq)
    · intro j
      by_cases hj : j = pa2index L p
      · rw [hj, href]; decide
      · rw [hother j hj]; exact hge j
    · intro q hq hle
      have hne : pa2index L q ≠ pa2index L p := by
        intro e
        rw [e, href] at hle
        exact absurd hle (by decide)
      rw [hother _ hne] at hle
      rcases List.mem_cons.mp (hall q hq hle) with e | hm
      · exact absurd (by rw [e]) hne
      · exact hm

theorem PageInv_kfree (L : Layout) (hL : L.Sane) (s : Kmem) (l : List Nat) (pa : Nat) (s' : Kmem)
    (h : PageInv L s l) (hc : 1 ≤ s.ref (pa2index L pa)) (hk : kfree L pa s = .ok () s') :
    ∃ l', PageInv L s' l' := by
  obtain ⟨hl, hr, hge, hall⟩ := h
  by_cases hg : pa % PGSIZE ≠ 0 ∨ pa < L.kend ∨ L.PHYSTOP ≤ pa
  · rw [kfree_out_of_range L pa s hg] at hk
    cases hk
  · have hin : InRange L pa := by unfold InRange; omega
    have hidx : ∀ q ∈ l, pa2index L q ≠ pa2index L pa := by
      intro q hq e
      have := hr q hq
      rw [e] at this
      omega
    by_cases hle : s.ref (pa2index L pa) - 1 ≤ 0
    · rw [kfree_last_ref L pa s hin hle] at hk
      cases hk
      have hnot : pa ∉ l := fun hm => hidx pa hm rfl
      refine ⟨pa :: l, FreeList_push L s l pa _ hL hl hin hnot, ?_, ?_, ?_⟩
      · intro q hq
        show Function.update s.ref (pa2index L pa) (s.ref (pa2index L pa) - 1) (pa2index L q) ≤ 0
        rcases List.mem_cons.mp hq with e | hm
        · rw [e, Function.update_same]; exact hle
        · rw [Function.update_noteq (hidx q hm)]; exact hr q hm
      · intro j
        show -1 ≤ Function.update s.ref (pa2index L pa) (s.ref (pa2index L pa) - 1) j
        by_cases hj : j = pa2index L pa
        · rw [hj, Function.update_same]; omega
        · rw [Function.update_noteq hj]; exact hge j
      · intro q hq hq0
        by_cases hj : pa2index L q = pa2index L pa
        · have : q = pa := pa2index_inj L q pa hq.1 hin.1
            (lt_of_lt_of_le (by have := hq.2.2; simp only [PGSIZE] at this; omega) hL.2)
            (lt_of_lt_of_le hin.2.2 hL.2) hj
          rw [this]; exact List.mem_cons_self pa l
        · have hq1 : Function.update s.ref (pa2index L pa) (s.ref (pa2index L pa) - 1)
              (pa2index L q) ≤ 0 := hq0
          rw [Function.update_noteq hj] at hq1
          exact List.mem_cons_of_mem pa (hall q hq hq1)
    · rw [kfree_still_shared L pa s hin hle] at hk
      cases hk
      refine ⟨l, hl, ?_, ?_, ?_⟩
      · intro q hq
        show Function.update s.ref (pa2index L pa) (s.ref (pa2index L pa) - 1) (pa2index L q) ≤ 0
        rw [Function.update_noteq (hidx q hq)]; exact hr q hq
      · intro j
        show -1 ≤ Function.update s.ref (pa2index L pa) (s.ref (pa2index L pa) - 1) j
        by_cases hj : j = pa2index L pa
        · rw [hj, Function.update_same]; omega
        · rw [Function.update_noteq hj]; exact hge j
      · intro q hq hq0
        have hq1 : Function.update s.ref (pa2index L pa) (s.ref (pa2index L pa) - 1)
            (pa2index L q) ≤ 0 := hq0
        by_cases hj : pa2index L q = pa2index L pa
        · rw [hj, Function.update_same] at hq1
          exact absurd hq1 hle
        · rw [Function.update_noteq hj] at hq1
          exact hall q hq hq1

theorem PageInv_cowcopy_pa (L : Layout) (hL : L.Sane) (s : Kmem) (l : List Nat) (pa q : Nat)
    (s' : Kmem) (h : PageInv L s l) (hk : cowcopy_pa L pa s = .ok q s') :
    ∃ l', PageInv L s' l' := by
  by_cases h1 : s.ref (pa2index L pa) ≤ 1
  · simp only [cowcopy_pa, if_pos h1, Outcome.ok.injEq] at hk
    rw [← hk.2]; exact ⟨l, h⟩
  · obtain ⟨hl, hr, hge, hall⟩ := h
    have hidx : ∀ x ∈ l, pa2index L x ≠ pa2index L pa := by
      intro x hx e
      have := hr x hx
      rw [e] at this
      omega
    cases l with
    | nil =>
      simp [cowcopy_pa, if_neg h1, kalloc_null L s hl.1] at hk
    | cons p ps =>
      have hh : s.freelist = p := hl.1.1
      have hne : p ≠ 0 := hl.1.2.1
      have hp := hl.2 p (List.mem_cons_self p ps)
      have hnm : p ∉ ps := IsFreeList_head_not_mem s.mem s.freelist p ps hl.1
      have hppa : pa2index L p ≠ pa2index L pa := hidx p (List.mem_cons_self p ps)
      simp only [cowcopy_pa, if_neg h1, kalloc_nonempty L s (by rw [hh]; exact hne), hh,
        if_neg hne, Outcome.ok.injEq] at hk
      rw [← hk.2]
      refine ⟨ps, FreeList_pop L s p ps _ _ hl ?_, ?_, ?_, ?_⟩
      · intro a ha
        rw [memmove_outside _ _ _ _ _ ha]
        exact memset_outside _ _ _ _ _ ha
      · intro x hx
        have hxr := hl.2 x (List.mem_cons_of_mem p hx)
        have hxp : pa2index L x ≠ pa2index L p := fun e =>
          hnm ((pa2index_inj L x p hxr.1 hp.1 (lt_of_lt_of_le hxr.2.2 hL.2)
            (lt_of_lt_of_le hp.2.2 hL.2) e) ▸ hx)
        show Function.update (Function.update s.ref (pa2index L p) 1) (pa2index L pa) _
          (pa2index L x) ≤ 0
        rw [Function.update_noteq (hidx x (List.mem_cons_of_mem p hx)),
          Function.update_noteq hxp]
        exact hr x (List.mem_cons_of_mem p hx)
      · intro j
        show -1 ≤ Function.update (Function.update s.ref (pa2index L p) 1) (pa2index L pa)
          (Function.update s.ref (pa2index L p) 1 (pa2index L pa) - 1) j
        by_cases hj : j = pa2index L pa
        · rw [hj, Function.update_same, Function.update_noteq (Ne.symm hppa)]; omega
        · rw [Function.update_noteq hj]
          by_cases hj2 : j = pa2index L p
          · rw [hj2, Function.update_same]; decide
          · rw [Function.update_noteq hj2]; exact hge j
      · intro x hx hx0
        have hx1 : Function.update (Function.update s.ref (pa2index L p) 1) (pa2index L pa)
          (Function.update s.ref (pa2index L p) 1 (pa2index L pa) - 1) (pa2index L x) ≤ 0 := hx0
        by_cases hj : pa2index L x = pa2index L pa
        · rw [hj, Function.update_same, Function.update_noteq (Ne.symm hppa)] at hx1
          omega
        · rw [Function.update_noteq hj] at hx1
          by_cases hj2 : pa2index L x = pa2index L p
          · rw [hj2, Function.update_same] at hx1
            exact absurd hx1 (by decide)
          · rw [Function.update_noteq hj2] at hx1
            rcases List.mem_cons.mp (hall x hx hx1) with e | hm
            · exact absurd (by rw [e]) hj2
            · exact hm

theorem PageInv_reachable (L : Layout) (hL : L.Sane) (s : Kmem) (h : ReachableFromKinit L s) :
    ∃ l, PageInv L s l := by
  induction h with
  | init s0 s hf hr he => exact PageInv_kinit L hL s0 s hf hr he
  | step s s' _ hs ih =>
    obtain ⟨l, hinv⟩ := ih
    cases hs
    · exact PageInv_kalloc L hL s l hinv
    · rename_i pa hc hk
      exact PageInv_kfree L hL s l pa s' hinv hc hk
    · rename_i pa q hc hk
      exact PageInv_cowcopy_pa L hL s l pa q s' hinv hk

/-- C11 (as the code has it): in every state reachable from `kinit` by
`kalloc`, and by `kfree` and `cowcopy_pa` applied to pages of count at least
1, the free list is well formed, every entry of `ref[]` (so the count of every
managed page) is at least -1, every managed page whose count is 0 or less is
on the free list, and no page whose count is 1 or more is on the free list. -/
theorem page_invariant (L : Layout) (s : Kmem) (hL : L.Sane) (hr : ReachableFromKinit L s) :
    ∃ l, FreeList L s l ∧
      (∀ p, Managed L p → -1 ≤ s.ref (pa2index L p)) ∧
      (∀ p, Managed L p → s.ref (pa2index L p) ≤ 0 → p ∈ l) ∧
      (∀ p, 1 ≤ s.ref (pa2index L p) → p ∉ l) := by
  obtain ⟨l, hl, hle, hge, hall⟩ := PageInv_reachable L hL s hr
  refine ⟨l, hl, fun p _ => hge _, hall, ?_⟩
  intro p hp hm
  have := hle p hm
  omega

/-- C11 on `tiny` right after `kinit`: the free list is well formed and the
free page `pageA`, with count -1, is on it. -/
theorem page_invariant_witness :
    ∃ l, FreeList tiny tinyBooted l ∧ -1 ≤ tinyBooted.ref (pa2index tiny pageA) ∧ pageA ∈ l :=
  have ⟨l, h1, h2, h3, _⟩ := page_invariant tiny tinyBooted (by decide)
    (ReachableFromKinit.init (boot fun _ => 0) tinyBooted rfl (fun _ => rfl) rfl)
  ⟨l, h1, h2 pageA (by decide), h3 pageA (by decide) (by decide)⟩

/-- C11 fails as stated.  Right after `kinit` on `tiny` the managed page
`pageA` is on the free list with count -1: `kfree` decremented the zero count
it found, so the count is below 0, and a free page does not have count 0. -/
theorem page_invariant_counterexample :
    kinit tiny (boot fun _ => 0) = some (.ok () tinyBooted) ∧ Managed tiny pageA ∧
      FreeList tiny tinyBooted [pageC, pageB, pageA] ∧
      tinyBooted.ref (pa2index tiny pageA) = -1 ∧
      ¬ (0 ≤ tinyBooted.ref (pa2index tiny pageA)) :=
  ⟨rfl, by decide, by decide, by decide, by decide⟩

end Kalloc

namespace Bio

/-! ## Updates of the cache -/

@[simp] theorem setBuf_buf_same (c : Bcache) (b : Nat) (x : Buf) : (c.setBuf b x).buf b = x := by
  simp [Bcache.setBuf]

theorem setBuf_buf_other (c : Bcache) (b b' : Nat) (x : Buf) (h : b' ≠ b) :
    (c.setBuf b x).buf b' = c.buf b' := by
  simp [Bcache.setBuf, Function.update, h]

@[simp] theorem setBuf_head (c : Bcache) (b : Nat) (x : Buf) : (c.setBuf b x).head = c.head := rfl

@[simp] theorem setBuf_disk (c : Bcache) (b : Nat) (x : Buf) : (c.setBuf b x).disk = c.disk := rfl

@[simp] theorem setBuf_io (c : Bcache) (b : Nat) (x : Buf) : (c.setBuf b x).io = c.io := rfl

@[simp] theorem setHead_buf (c : Bcache) (i : Nat) (h : Option Nat) : (c.setHead i h).buf = c.buf :=
  rfl

@[simp] theorem setHead_head_same (c : Bcache) (i : Nat) (h : Option Nat) :
    (c.setHead i h).head i = h := by
  simp [Bcache.setHead]

theorem setHead_head_other (c : Bcache) (i j : Nat) (h : Option Nat) (hj : j ≠ i) :
    (c.setHead i h).head j = c.head j := by
  simp [Bcache.setHead, Function.update, hj]

@[simp] theorem setHead_disk (c : Bcache) (i : Nat) (h : Option Nat) :
    (c.setHead i h).disk = c.disk := rfl

@[simp] theorem setHead_io (c : Bcache) (i : Nat) (h : Option Nat) : (c.setHead i h).io = c.io :=
  rfl

/-- The `next` field of buffer `x` after buffer `b` got new contents that keep
its `next`. -/
theorem setBuf_next (c : Bcache) (b : Nat) (y : Buf) (hy : y.next = (c.buf b).next) (x : Nat) :
    ((c.setBuf b y).buf x).next = (c.buf x).next := by
  by_cases hx : x = b
  · rw [hx, setBuf_buf_same, hy]
  · rw [setBuf_buf_other c b x y hx]

/-! ## Chains -/

theorem IsChain_congr (c c' : Bcache) :
    ∀ (l : List Nat) (h : Option Nat), IsChain c h l →
      (∀ b ∈ l, (c'.buf b).next = (c.buf b).next) → IsChain c' h l
  | [], _, hl, _ => hl
  | b :: l, h, hl, hn => by
    refine ⟨hl.1, ?_⟩
    rw [hn b (List.mem_cons_self b l)]
    exact IsChain_congr c c' l _ hl.2 (fun x hx => hn x (List.mem_cons_of_mem b hx))

/-- The chain from a pointer determines its list of buffers. -/
theorem IsChain_unique (c : Bcache) :
    ∀ (l1 l2 : List Nat) (h : Option Nat), IsChain c h l1 → IsChain c h l2 → l1 = l2
  | [], [], _, _, _ => rfl
  | [], b :: l, h, h1, h2 => by
    have e1 : h = none := h1
    have e2 : h = some b := h2.1
    rw [e1] at e2
    cases e2
  | b :: l, [], h, h1, h2 => by
    have e1 : h = none := h2
    have e2 : h = some b := h1.1
    rw [e1] at e2
    cases e2
  | a :: l1, b :: l2, h, h1, h2 => by
    have e1 : h = some a := h1.1
    have e2 : h = some b := h2.1
    rw [e1] at e2
    cases e2
    rw [IsChain_unique c l1 l2 _ h1.2 h2.2]

/-- From any buffer of a chain the rest of the chain is again a chain. -/
theorem IsChain_suffix (c : Bcache) :
    ∀ (l : List Nat) (h : Option Nat) (b : Nat), IsChain c h l → b ∈ l →
      ∃ l2, IsChain c (some b) (b :: l2) ∧ l2.length < l.length
  | [], _, _, _, hb => absurd hb (List.not_mem_nil _)
  | a :: l, h, b, hl, hb => by
    rcases List.mem_cons.mp hb with e | hm
    · subst e
      exact ⟨l, ⟨rfl, hl.2⟩, by simp⟩
    · obtain ⟨l2, h2, hlen⟩ := IsChain_suffix c l _ b hl.2 hm
      exact ⟨l2, h2, by simp only [List.length_cons]; omega⟩

theorem IsChain_head_not_mem (c : Bcache) (h : Option Nat) (b : Nat) (l : List Nat)
    (hl : IsChain c h (b :: l)) : b ∉ l := by
  intro hm
  obtain ⟨l2, h2, hlen⟩ := IsChain_suffix c l _ b hl.2 hm
  have hb : IsChain c (some b) (b :: l) := ⟨rfl, hl.2⟩
  have := IsChain_unique c _ _ _ h2 hb
  simp only [List.cons.injEq, true_and] at this
  subst this
  omega

/-- A chain is finite and acyclic: no buffer occurs in it twice. -/
theorem IsChain_nodup (c : Bcache) :
    ∀ (l : List Nat) (h : Option Nat), IsChain c h l → l.Nodup
  | [], _, _ => List.nodup_nil
  | b :: l, h, hl =>
    List.nodup_cons.mpr ⟨IsChain_head_not_mem c h b l hl, IsChain_nodup c l _ hl.2⟩

/-- A list of distinct numbers below `n` has at most `n` entries. -/
theorem length_le_of_nodup_lt (n : Nat) (l : List Nat) (hn : l.Nodup) (hlt : ∀ b ∈ l, b < n) :
    l.length ≤ n := by
  have hsub : l ⊆ List.range n := fun b hb => List.mem_range.mpr (hlt b hb)
  have := (List.subperm_of_subset hn hsub).length_le
  rwa [List.length_range] at this

theorem Chains_length (P : Params) (c : Bcache) (ch : Nat → List Nat) (hc : Chains P c ch)
    (i : Nat) (hi : i < P.NBUCKET) : (ch i).length < P.NBUF + 1 :=
  Nat.lt_succ_of_le
    (length_le_of_nodup_lt P.NBUF (ch i) (IsChain_nodup c _ _ (hc.1 i hi)) (hc.2.1 i hi))

/-- On a chain the scan loop returns the first buffer that passes the test,
provided its bound exceeds the length of the chain. -/
theorem findChain_spec (c : Bcache) (test : Buf → Bool) :
    ∀ (l : List Nat) (fuel : Nat) (h : Option Nat), IsChain c h l → l.length < fuel →
      findChain c test fuel h = some (l.find? (fun b => test (c.buf b)))
  | [], fuel + 1, h, hl, _ => by
    have e : h = none := hl
    rw [e]
    rfl
  | b :: l, fuel + 1, h, hl, hf => by
    have e : h = some b := hl.1
    rw [e]
    by_cases ht : test (c.buf b) = true
    · simp [findChain, ht, List.find?]
    · simp only [findChain, ht, List.find?]
      exact findChain_spec c test l fuel _ hl.2 (by simp only [List.length_cons] at hf; omega)

end Bio

namespace Bio

/-! ## The scans of `bget` on well-formed chains -/

theorem findChain_cached (P : Params) (c : Bcache) (ch : Nat → List Nat) (hc : Chains P c ch)
    (dev blockno i : Nat) (hi : i < P.NBUCKET) :
    findChain c (fun x => x.dev == dev && x.blockno == blockno) (P.NBUF + 1) (c.head i)
      = some (firstCached c (ch i) dev blockno) :=
  findChain_spec c _ (ch i) _ _ (hc.1 i hi) (Chains_length P c ch hc i hi)

theorem findChain_free (P : Params) (c : Bcache) (ch : Nat → List Nat) (hc : Chains P c ch)
    (i : Nat) (hi : i < P.NBUCKET) :
    findChain c (fun x => x.refcnt == 0) (P.NBUF + 1) (c.head i) = some (firstFree c (ch i)) :=
  findChain_spec c _ (ch i) _ _ (hc.1 i hi) (Chains_length P c ch hc i hi)

/-- The scan of the other buckets ends: either no bucket but `id` has an
unused buffer, or it returns the first unused buffer of the first such
bucket. -/
theorem findVictim_spec (P : Params) (c : Bcache) (ch : Nat → List Nat) (id : Nat)
    (hc : Chains P c ch) :
    ∀ (k i : Nat), i + k = P.NBUCKET →
      (findVictim P c id k i = some none ∧
        ∀ j, i ≤ j → j < P.NBUCKET → j ≠ id → firstFree c (ch j) = none) ∨
      (∃ i' b, findVictim P c id k i = some (some (i', b)) ∧ i ≤ i' ∧ i' < P.NBUCKET ∧ i' ≠ id ∧
        firstFree c (ch i') = some b ∧
        ∀ j, i ≤ j → j < i' → j ≠ id → firstFree c (ch j) = none)
  | 0, i, hk => Or.inl ⟨rfl, fun j h1 h2 _ => absurd h2 (by omega)⟩
  | k + 1, i, hk => by
    have hi : i < P.NBUCKET := by omega
    have ih := findVictim_spec P c ch id hc k (i + 1) (by omega)
    by_cases hid : i = id
    · simp only [findVictim, if_pos hid]
      rcases ih with ⟨h1, h2⟩ | ⟨i', b, h1, h2, h3, h4, h5, h6⟩
      · refine Or.inl ⟨h1, fun j hj1 hj2 hj3 => h2 j ?_ hj2 hj3⟩
        rcases Nat.eq_or_lt_of_le hj1 with e | hlt
        · exact absurd (e ▸ hid) hj3
        · exact hlt
      · refine Or.inr ⟨i', b, h1, by omega, h3, h4, h5, fun j hj1 hj2 hj3 => h6 j ?_ hj2 hj3⟩
        rcases Nat.eq_or_lt_of_le hj1 with e | hlt
        · exact absurd (e ▸ hid) hj3
        · exact hlt
    · simp only [findVictim, if_neg hid, findChain_free P c ch hc i hi]
      cases hff : firstFree c (ch i) with
      | some b =>
        exact Or.inr ⟨i, b, rfl, le_refl _, hi, hid, hff, fun j hj1 hj2 _ => absurd hj2 (by omega)⟩
      | none =>
        simp only []
        rcases ih with ⟨h1, h2⟩ | ⟨i', b, h1, h2, h3, h4, h5, h6⟩
        · refine Or.inl ⟨h1, fun j hj1 hj2 hj3 => ?_⟩
          rcases Nat.eq_or_lt_of_le hj1 with e | hlt
          · rw [← e]; exact hff
          · exact h2 j hlt hj2 hj3
        · refine Or.inr ⟨i', b, h1, by omega, h3, h4, h5, fun j hj1 hj2 hj3 => ?_⟩
          rcases Nat.eq_or_lt_of_le hj1 with e | hlt
          · rw [← e]; exact hff
          · exact h6 j hlt hj2 hj3

/-- The unlink loop ends at the predecessor of `b`, and redirecting the
predecessor past `b` leaves the chain without `b`, in the same order. -/
theorem findPrev_spec (c : Bcache) (b : Nat) :
    ∀ (l : List Nat) (p fuel : Nat), IsChain c (some p) (p :: l) → b ∈ l → l.length < fuel →
      ∃ prev, findPrev c b fuel p = some prev ∧ prev ∈ p :: l ∧ prev ≠ b ∧
        IsChain (c.setBuf prev { c.buf prev with next := (c.buf b).next }) (some p)
          (p :: l.erase b)
  | [], _, _, _, hb, _ => absurd hb (List.not_mem_nil _)
  | n :: l, p, 0, _, _, hf => absurd hf (by omega)
  | n :: l, p, fuel + 1, hl, hb, hf => by
    have hpn : p ∉ n :: l := IsChain_head_not_mem c _ p _ hl
    have hnext : (c.buf p).next = some n := hl.2.1
    have htail : IsChain c (c.buf n).next l := hl.2.2
    by_cases hnb : n = b
    · subst hnb
      refine ⟨p, ?_, List.mem_cons_self _ _, ?_, ?_⟩
      · simp [findPrev, hnext]
      · intro e
        exact hpn (e ▸ List.mem_cons_self _ _)
      · rw [List.erase_cons_head]
        refine ⟨rfl, ?_⟩
        rw [setBuf_buf_same]
        refine IsChain_congr c _ l _ htail ?_
        intro x hx
        have hxp : x ≠ p := fun e => hpn (e ▸ List.mem_cons_of_mem _ hx)
        rw [setBuf_buf_other c p x _ hxp]
    · have hbl : b ∈ l := by
        rcases List.mem_cons.mp hb with e | hm
        · exact absurd e.symm hnb
        · exact hm
      obtain ⟨prev, h1, h2, h3, h4⟩ := findPrev_spec c b l n fuel ⟨rfl, htail⟩ hbl
        (by simp only [List.length_cons] at hf; omega)
      have hprevp : prev ≠ p := fun e => hpn (e ▸ h2)
      refine ⟨prev, ?_, List.mem_cons_of_mem _ h2, h3, ?_⟩
      · simp [findPrev, hnext, hnb, h1]
      · have herase : (n :: l).erase b = n :: l.erase b := by
          rw [List.erase_cons_tail]
          simpa using hnb
        rw [herase]
        refine ⟨rfl, ?_⟩
        rw [setBuf_buf_other c prev p _ (Ne.symm hprevp), hnext]
        exact h4

/-- Unlinking a buffer of the chain of bucket `i` never runs into the bound
or a null pointer; it removes exactly that buffer, keeps the order of the
others, and touches nothing but one `next` field or `head[i]`. -/
theorem unlink_spec (P : Params) (c : Bcache) (i b : Nat) (l : List Nat)
    (hl : IsChain c (c.head i) l) (hb : b ∈ l) (hlen : l.length < P.NBUF + 1) :
    ∃ c2, unlink P c i b = some c2 ∧ IsChain c2 (c2.head i) (l.erase b) ∧
      (∀ j, j ≠ i → c2.head j = c.head j) ∧
      (∀ x, x ∉ l → c2.buf x = c.buf x) ∧
      (∀ x, c2.buf x = { c.buf x with next := (c2.buf x).next }) ∧
      c2.buf b = c.buf b ∧ c2.disk = c.disk ∧ c2.io = c.io := by
  cases l with
  | nil => exact absurd hb (List.not_mem_nil _)
  | cons p l =>
    have hh : c.head i = some p := hl.1
    have htail : IsChain c (c.buf p).next l := hl.2
    by_cases hpb : p = b
    · subst hpb
      refine ⟨c.setHead i (c.buf p).next, ?_, ?_, ?_, ?_, ?_, rfl, rfl, rfl⟩
      · simp [unlink, hh]
      · rw [List.erase_cons_head, setHead_head_same]
        exact IsChain_congr c _ l _ htail (fun x _ => rfl)
      · intro j hj
        exact setHead_head_other c i j _ hj
      · intro x _
        rfl
      · intro x
        rfl
    · have hbl : b ∈ l := by
        rcases List.mem_cons.mp hb with e | hm
        · exact absurd e.symm hpb
        · exact hm
      obtain ⟨prev, h1, h2, h3, h4⟩ := findPrev_spec c b l p (P.NBUF + 1) ⟨rfl, htail⟩ hbl
        (by simp only [List.length_cons] at hlen; omega)
      refine ⟨c.setBuf prev { c.buf prev with next := (c.buf b).next }, ?_, ?_, ?_, ?_, ?_, ?_,
        rfl, rfl⟩
      · simp [unlink, hh, hpb, h1]
      · have herase : (p :: l).erase b = p :: l.erase b := by
          rw [List.erase_cons_tail]
          simpa using hpb
        rw [herase, setBuf_head, hh]
        exact h4
      · intro j _
        rfl
      · intro x hx
        have : x ≠ prev := fun e => hx (e ▸ h2)
        exact setBuf_buf_other c prev x _ this
      · intro x
        by_cases hx : x = prev
        · rw [hx, setBuf_buf_same]
        · rw [setBuf_buf_other c prev x _ hx]
      · exact setBuf_buf_other c prev b _ (Ne.symm h3)

end Bio

namespace Bio

/-! ## Chains under the updates of `bget` -/

/-- Chains depend on the heads and the `next` fields only. -/
theorem Chains_meta (P : Params) (c c' : Bcache) (ch : Nat → List Nat) (hh : c'.head = c.head)
    (hn : ∀ x, (c'.buf x).next = (c.buf x).next) (hc : Chains P c ch) : Chains P c' ch := by
  refine ⟨fun i hi => ?_, hc.2.1, hc.2.2.1, hc.2.2.2⟩
  rw [hh]
  exact IsChain_congr c c' _ _ (hc.1 i hi) (fun x _ => hn x)

theorem Chains_setBuf (P : Params) (c : Bcache) (ch : Nat → List Nat) (b : Nat) (y : Buf)
    (hy : y.next = (c.buf b).next) (hc : Chains P c ch) : Chains P (c.setBuf b y) ch :=
  Chains_meta P c _ ch rfl (setBuf_next c b y hy) hc

theorem mem_moved (P : Params) (c : Bcache) (ch : Nat → List Nat) (hc : Chains P c ch)
    (i id b : Nat) (hi : i < P.NBUCKET) (hne : i ≠ id) (hb : b ∈ ch i)
    (j x : Nat) (hj : j < P.NBUCKET) :
    x ∈ moved ch i id b j ↔ (x = b ∧ j = id) ∨ (x ≠ b ∧ x ∈ ch j) := by
  have hnd : (ch i).Nodup := IsChain_nodup c _ _ (hc.1 i hi)
  by_cases hjid : j = id
  · subst hjid
    have hm : moved ch i j b j = b :: ch j := by simp [moved]
    rw [hm, List.mem_cons]
    constructor
    · rintro (e | hm)
      · exact Or.inl ⟨e, rfl⟩
      · refine Or.inr ⟨?_, hm⟩
        intro e
        exact hne (hc.2.2.2 i hi j hj b hb (e ▸ hm))
    · rintro (⟨e, _⟩ | ⟨_, hm⟩)
      · exact Or.inl e
      · exact Or.inr hm
  · by_cases hji : j = i
    · subst hji
      have hm : moved ch j id b j = (ch j).erase b := by simp [moved, hjid]
      rw [hm, hnd.mem_erase_iff]
      constructor
      · rintro ⟨h1, h2⟩
        exact Or.inr ⟨h1, h2⟩
      · rintro (⟨_, e⟩ | ⟨h1, h2⟩)
        · exact absurd e hjid
        · exact ⟨h1, h2⟩
    · have hm : moved ch i id b j = ch j := by simp [moved, hjid, hji]
      rw [hm]
      constructor
      · intro hm
        refine Or.inr ⟨?_, hm⟩
        intro e
        exact hji (hc.2.2.2 j hj i hi b (e ▸ hm) hb)
      · rintro (⟨_, e⟩ | ⟨_, hm⟩)
        · exact absurd e hjid
        · exact hm

/-- Moving a buffer of bucket `i` to the head of another bucket `id`, as the
global eviction path does: the unlink loop ends, the chains are the old ones
with `b` taken out of `ch i` and put in front of `ch id`, and no field but
`next` of any buffer changes. -/
theorem move_spec (P : Params) (c : Bcache) (ch : Nat → List Nat) (hc : Chains P c ch)
    (i id b : Nat) (hi : i < P.NBUCKET) (hid : id < P.NBUCKET) (hne : i ≠ id) (hb : b ∈ ch i) :
    ∃ c2, unlink P c i b = some c2 ∧
      Chains P ((c2.setBuf b { c2.buf b with next := c2.head id }).setHead id (some b))
        (moved ch i id b) ∧
      (∀ x, ((c2.setBuf b { c2.buf b with next := c2.head id }).setHead id (some b)).buf x
        = { c.buf x with next :=
            (((c2.setBuf b { c2.buf b with next := c2.head id }).setHead id (some b)).buf x).next }) ∧
      c2.disk = c.disk ∧ c2.io = c.io := by
  obtain ⟨c2, hu, hchain, hhead, hout, hfld, hbb, hd, hio⟩ :=
    unlink_spec P c i b (ch i) (hc.1 i hi) hb (Chains_length P c ch hc i hi)
  have hnd : (ch i).Nodup := IsChain_nodup c _ _ (hc.1 i hi)
  refine ⟨c2, hu, ⟨?_, ?_, ?_, ?_⟩, ?_, hd, hio⟩
  · intro j hj
    by_cases hjid : j = id
    · subst hjid
      rw [setHead_head_same]
      have hm : moved ch i j b j = b :: ch j := by simp [moved]
      rw [hm]
      refine ⟨rfl, ?_⟩
      rw [setHead_buf, setBuf_buf_same]
      show IsChain _ (c2.head j) (ch j)
      rw [hhead j (Ne.symm hne)]
      refine IsChain_congr c _ _ _ (hc.1 j hj) ?_
      intro x hx
      have hxi : x ∉ ch i := fun h => hne (hc.2.2.2 i hi j hj x h hx)
      have hxb : x ≠ b := fun e => hxi (e ▸ hb)
      rw [setHead_buf, setBuf_buf_other c2 b x _ hxb, hout x hxi]
    · rw [setHead_head_other _ id j _ hjid, setBuf_head]
      by_cases hji : j = i
      · subst hji
        have hm : moved ch j id b j = (ch j).erase b := by simp [moved, hjid]
        rw [hm]
        refine IsChain_congr c2 _ _ _ hchain ?_
        intro x hx
        have hxb : x ≠ b := (hnd.mem_erase_iff.mp hx).1
        rw [setHead_buf, setBuf_buf_other c2 b x _ hxb]
      · have hm : moved ch i id b j = ch j := by simp [moved, hjid, hji]
        rw [hm, hhead j hji]
        refine IsChain_congr c _ _ _ (hc.1 j hj) ?_
        intro x hx
        have hxi : x ∉ ch i := fun h => hji (hc.2.2.2 j hj i hi x hx h)
        have hxb : x ≠ b := fun e => hxi (e ▸ hb)
        rw [setHead_buf, setBuf_buf_other c2 b x _ hxb, hout x hxi]
  · intro j hj x hx
    rcases (mem_moved P c ch hc i id b hi hne hb j x hj).mp hx with ⟨e, _⟩ | ⟨_, hm⟩
    · rw [e]; exact hc.2.1 i hi b hb
    · exact hc.2.1 j hj x hm
  · intro x hx
    by_cases hxb : x = b
    · exact ⟨id, hid, (mem_moved P c ch hc i id b hi hne hb id x hid).mpr (Or.inl ⟨hxb, rfl⟩)⟩
    · obtain ⟨j, hj, hm⟩ := hc.2.2.1 x hx
      exact ⟨j, hj, (mem_moved P c ch hc i id b hi hne hb j x hj).mpr (Or.inr ⟨hxb, hm⟩)⟩
  · intro j1 hj1 j2 hj2 x hx1 hx2
    rcases (mem_moved P c ch hc i id b hi hne hb j1 x hj1).mp hx1 with ⟨e1, f1⟩ | ⟨n1, m1⟩
    · rcases (mem_moved P c ch hc i id b hi hne hb j2 x hj2).mp hx2 with ⟨_, f2⟩ | ⟨n2, _⟩
      · rw [f1, f2]
      · exact absurd e1 n2
    · rcases (mem_moved P c ch hc i id b hi hne hb j2 x hj2).mp hx2 with ⟨e2, _⟩ | ⟨_, m2⟩
      · exact absurd e2 n1
      · exact hc.2.2.2 j1 hj1 j2 hj2 x m1 m2
  · intro x
    rw [setHead_buf]
    by_cases hxb : x = b
    · rw [hxb, setBuf_buf_same, hbb]
    · rw [setBuf_buf_other c2 b x _ hxb]
      exact hfld x

/-! ## The paths of `bget` -/

theorem finish_free (pid b : Nat) (c : Bcache) (h : (c.buf b).lock = none) :
    finish pid b c = .ok b (c.setBuf b { c.buf b with lock := some pid }) := by
  simp [finish, acquiresleep, h]

theorem finish_taken (pid b : Nat) (c : Bcache) (q : Nat) (h : (c.buf b).lock = some q) :
    finish pid b c = .sleep b c := by
  simp [finish, acquiresleep, h]

/-- The state `finish` leaves behind keeps the chains and all fields but the
lock of `b`. -/
theorem finish_after (pid b : Nat) (c : Bcache) :
    ∃ c', (finish pid b c).after = some c' ∧ (finish pid b c).chosen = some b ∧
      c'.head = c.head ∧ c'.disk = c.disk ∧ c'.io = c.io ∧
      (∀ x, x ≠ b → c'.buf x = c.buf x) ∧
      c'.buf b = { c.buf b with lock := (c'.buf b).lock } := by
  cases hlk : (c.buf b).lock with
  | none =>
    rw [finish_free pid b c hlk]
    exact ⟨_, rfl, rfl, rfl, rfl, rfl, fun x hx => setBuf_buf_other c b x _ hx,
      by rw [setBuf_buf_same]⟩
  | some q =>
    rw [finish_taken pid b c q hlk]
    exact ⟨c, rfl, rfl, rfl, rfl, rfl, fun _ _ => rfl, rfl⟩

theorem bget_hit (P : Params) (c : Bcache) (ch : Nat → List Nat) (hc : Chains P c ch)
    (hP : 0 < P.NBUCKET) (pid dev blockno b : Nat)
    (hf : firstCached c (ch (blockno % P.NBUCKET)) dev blockno = some b) :
    bget P pid dev blockno c
      = finish pid b (c.setBuf b { c.buf b with refcnt := (c.buf b).refcnt + 1 }) := by
  simp only [bget, bgetLocal,
    findChain_cached P c ch hc dev blockno _ (Nat.mod_lt blockno hP), hf]

theorem bget_local (P : Params) (c : Bcache) (ch : Nat → List Nat) (hc : Chains P c ch)
    (hP : 0 < P.NBUCKET) (pid dev blockno b : Nat)
    (hf : firstCached c (ch (blockno % P.NBUCKET)) dev blockno = none)
    (hv : firstFree c (ch (blockno % P.NBUCKET)) = some b) :
    bget P pid dev blockno c = finish pid b (rebind c b dev blockno) := by
  simp only [bget, bgetLocal,
    findChain_cached P c ch hc dev blockno _ (Nat.mod_lt blockno hP), hf,
    findChain_free P c ch hc _ (Nat.mod_lt blockno hP), hv]

theorem bget_miss (P : Params) (c : Bcache) (ch : Nat → List Nat) (hc : Chains P c ch)
    (hP : 0 < P.NBUCKET) (pid dev blockno : Nat)
    (hf : firstCached c (ch (blockno % P.NBUCKET)) dev blockno = none)
    (hv : firstFree c (ch (blockno % P.NBUCKET)) = none) :
    bgetLocal P pid dev blockno c = none ∧
      bget P pid dev blockno c = bgetGlobal P pid dev blockno c := by
  simp only [bget, bgetLocal,
    findChain_cached P c ch hc dev blockno _ (Nat.mod_lt blockno hP), hf,
    findChain_free P c ch hc _ (Nat.mod_lt blockno hP), hv, and_self]

theorem rebind_next (c : Bcache) (b dev blockno x : Nat) :
    ((rebind c b dev blockno).buf x).next = (c.buf x).next := by
  unfold rebind
  exact setBuf_next c b
    { c.buf b with dev := dev, blockno := blockno, valid := false, refcnt := 1 } rfl x

theorem Chains_rebind (P : Params) (c : Bcache) (ch : Nat → List Nat) (b dev blockno : Nat)
    (hc : Chains P c ch) : Chains P (rebind c b dev blockno) ch :=
  Chains_meta P c _ ch rfl (rebind_next c b dev blockno) hc

theorem mem_of_firstFree (c : Bcache) (l : List Nat) (b : Nat) (h : firstFree c l = some b) :
    b ∈ l ∧ (c.buf b).refcnt = 0 := by
  refine ⟨List.mem_of_find?_eq_some h, ?_⟩
  have := List.find?_some h
  simpa using this

theorem mem_of_firstCached (c : Bcache) (l : List Nat) (dev blockno b : Nat)
    (h : firstCached c l dev blockno = some b) :
    b ∈ l ∧ (c.buf b).dev = dev ∧ (c.buf b).blockno = blockno := by
  refine ⟨List.mem_of_find?_eq_some h, ?_⟩
  have := List.find?_some h
  simpa using this

/-- The global eviction path on well-formed chains: it panics when no other
bucket has an unused buffer, and otherwise moves the first unused buffer of
the first such bucket to the head of the target bucket, rebound to the
request. -/
theorem bgetGlobal_spec (P : Params) (c : Bcache) (ch : Nat → List Nat) (hc : Chains P c ch)
    (hP : 0 < P.NBUCKET) (pid dev blockno : Nat) :
    (bgetGlobal P pid dev blockno c = .panic "bget: no buffers" c ∧
      ∀ j, j < P.NBUCKET → j ≠ blockno % P.NBUCKET → firstFree c (ch j) = none) ∨
    (∃ i b c4, bgetGlobal P pid dev blockno c = finish pid b c4 ∧
      i < P.NBUCKET ∧ i ≠ blockno % P.NBUCKET ∧ firstFree c (ch i) = some b ∧
      (∀ j, j < i → j ≠ blockno % P.NBUCKET → firstFree c (ch j) = none) ∧
      Chains P c4 (moved ch i (blockno % P.NBUCKET) b) ∧
      (∀ x, c4.buf x = { (rebind c b dev blockno).buf x with next := (c4.buf x).next }) ∧
      c4.head (blockno % P.NBUCKET) = some b ∧ c4.disk = c.disk ∧ c4.io = c.io) := by
  have hid : blockno % P.NBUCKET < P.NBUCKET := Nat.mod_lt blockno hP
  rcases findVictim_spec P c ch (blockno % P.NBUCKET) hc P.NBUCKET 0 (by omega) with
    ⟨h1, h2⟩ | ⟨i, b, h1, _, h3, h4, h5, h6⟩
  · left
    refine ⟨?_, fun j hj hne => h2 j (Nat.zero_le _) hj hne⟩
    simp only [bgetGlobal, h1]
  · right
    have hb := (mem_of_firstFree c (ch i) b h5).1
    obtain ⟨c2, hu, hch, hfld, hd, hio⟩ := move_spec P (rebind c b dev blockno) ch
      (Chains_rebind P c ch b dev blockno hc) i (blockno % P.NBUCKET) b h3 hid h4 hb
    refine ⟨i, b, _, ?_, h3, h4, h5, fun j hj hne => h6 j (Nat.zero_le _) hj hne, hch, hfld,
      setHead_head_same _ _ _, ?_, ?_⟩
    · simp only [bgetGlobal, h1, hu]
    · rw [setHead_disk, setBuf_disk, hd]; rfl
    · rw [setHead_io, setBuf_io, hio]; rfl

end Bio

namespace Bio

/-- The four ways a call of `bget` can go on well-formed chains: a hit, an
eviction within the bucket, the panic, an eviction from another bucket. -/
theorem bget_cases (P : Params) (c : Bcache) (ch : Nat → List Nat) (hc : Chains P c ch)
    (hP : 0 < P.NBUCKET) (pid dev blockno : Nat) :
    (∃ b, firstCached c (ch (blockno % P.NBUCKET)) dev blockno = some b ∧
      bget P pid dev blockno c
        = finish pid b (c.setBuf b { c.buf b with refcnt := (c.buf b).refcnt + 1 })) ∨
    (∃ b, firstCached c (ch (blockno % P.NBUCKET)) dev blockno = none ∧
      firstFree c (ch (blockno % P.NBUCKET)) = some b ∧
      bget P pid dev blockno c = finish pid b (rebind c b dev blockno)) ∨
    (firstCached c (ch (blockno % P.NBUCKET)) dev blockno = none ∧
      (∀ j, j < P.NBUCKET → firstFree c (ch j) = none) ∧
      bget P pid dev blockno c = .panic "bget: no buffers" c) ∨
    (∃ i b c4, firstCached c (ch (blockno % P.NBUCKET)) dev blockno = none ∧
      firstFree c (ch (blockno % P.NBUCKET)) = none ∧
      i < P.NBUCKET ∧ i ≠ blockno % P.NBUCKET ∧ firstFree c (ch i) = some b ∧
      (∀ j, j < i → j ≠ blockno % P.NBUCKET → firstFree c (ch j) = none) ∧
      bget P pid dev blockno c = finish pid b c4 ∧
      Chains P c4 (moved ch i (blockno % P.NBUCKET) b) ∧
      (∀ x, c4.buf x = { (rebind c b dev blockno).buf x with next := (c4.buf x).next }) ∧
      c4.head (blockno % P.NBUCKET) = some b ∧ c4.disk = c.disk ∧ c4.io = c.io) := by
  cases hf : firstCached c (ch (blockno % P.NBUCKET)) dev blockno with
  | some b => exact Or.inl ⟨b, rfl, bget_hit P c ch hc hP pid dev blockno b hf⟩
  | none =>
    cases hv : firstFree c (ch (blockno % P.NBUCKET)) with
    | some b => exact Or.inr (Or.inl ⟨b, rfl, rfl, bget_local P c ch hc hP pid dev blockno b hf hv⟩)
    | none =>
      have hm := (bget_miss P c ch hc hP pid dev blockno hf hv).2
      rcases bgetGlobal_spec P c ch hc hP pid dev blockno with ⟨h1, h2⟩ | ⟨i, b, c4, h1, h2, h3, h4, h5, h6, h7, h8, h9, h10⟩
      · refine Or.inr (Or.inr (Or.inl ⟨rfl, ?_, hm.trans h1⟩))
        intro j hj
        by_cases hjid : j = blockno % P.NBUCKET
        · rw [hjid]; exact hv
        · exact h2 j hj hjid
      · exact Or.inr (Or.inr (Or.inr ⟨i, b, c4, rfl, rfl, h2, h3, h4, h5, hm.trans h1, h6, h7, h8,
          h9, h10⟩))

/-! ## The first cached buffer of a chain under updates -/

theorem firstCached_cons (c : Bcache) (b : Nat) (l : List Nat) (dev blockno : Nat) :
    firstCached c (b :: l) dev blockno
      = if (c.buf b).dev = dev ∧ (c.buf b).blockno = blockno then some b
        else firstCached c l dev blockno := by
  by_cases h : (c.buf b).dev = dev ∧ (c.buf b).blockno = blockno
  · simp [firstCached, List.find?, h.1, h.2]
  · rw [if_neg h]
    have : ((c.buf b).dev == dev && (c.buf b).blockno == blockno) = false := by
      simpa using h
    simp only [firstCached, List.find?, this]

theorem firstCached_congr (c c' : Bcache) (dev blockno : Nat) :
    ∀ l : List Nat, (∀ x ∈ l, (c'.buf x).dev = (c.buf x).dev ∧
      (c'.buf x).blockno = (c.buf x).blockno) →
      firstCached c' l dev blockno = firstCached c l dev blockno
  | [], _ => rfl
  | b :: l, h => by
    have hb := h b (List.mem_cons_self b l)
    rw [firstCached_cons, firstCached_cons, hb.1, hb.2,
      firstCached_congr c c' dev blockno l (fun x hx => h x (List.mem_cons_of_mem b hx))]

/-- A buffer found for a block stays the one found when another buffer
changes to something that does not cache that block. -/
theorem firstCached_keep (c c' : Bcache) (dev blockno x b : Nat) (hxb : x ≠ b)
    (hsame : ∀ y, y ≠ b → (c'.buf y).dev = (c.buf y).dev ∧ (c'.buf y).blockno = (c.buf y).blockno)
    (hb : ¬ ((c'.buf b).dev = dev ∧ (c'.buf b).blockno = blockno)) :
    ∀ l : List Nat, firstCached c l dev blockno = some x → firstCached c' l dev blockno = some x
  | [], h => by simp [firstCached] at h
  | y :: l, h => by
    rw [firstCached_cons] at h ⊢
    by_cases hy : (c.buf y).dev = dev ∧ (c.buf y).blockno = blockno
    · rw [if_pos hy] at h
      have e : y = x := Option.some.inj h
      have hyb : y ≠ b := by rw [e]; exact hxb
      have := hsame y hyb
      rw [if_pos (by rw [this.1, this.2]; exact hy)]
      exact h
    · rw [if_neg hy] at h
      have hy' : ¬ ((c'.buf y).dev = dev ∧ (c'.buf y).blockno = blockno) := by
        by_cases hyb : y = b
        · rw [hyb]; exact hb
        · have := hsame y hyb
          rw [this.1, this.2]; exact hy
      rw [if_neg hy']
      exact firstCached_keep c c' dev blockno x b hxb hsame hb l h

theorem firstCached_erase (c : Bcache) (dev blockno x b : Nat) (hxb : x ≠ b) :
    ∀ l : List Nat, firstCached c l dev blockno = some x →
      firstCached c (l.erase b) dev blockno = some x
  | [], h => by simp [firstCached] at h
  | y :: l, h => by
    rw [firstCached_cons] at h
    by_cases hyb : y = b
    · rw [hyb, List.erase_cons_head]
      by_cases hy : (c.buf y).dev = dev ∧ (c.buf y).blockno = blockno
      · rw [if_pos hy] at h
        exact absurd ((Option.some.inj h).symm.trans hyb) hxb
      · rw [if_neg hy] at h
        exact h
    · have herase : (y :: l).erase b = y :: l.erase b := by
        rw [List.erase_cons_tail]
        simpa using hyb
      rw [herase, firstCached_cons]
      by_cases hy : (c.buf y).dev = dev ∧ (c.buf y).blockno = blockno
      · rw [if_pos hy] at h ⊢
        exact h
      · rw [if_neg hy] at h ⊢
        exact firstCached_erase c dev blockno x b hxb l h

/-- After a buffer of a chain that cached nothing of the kind is bound to a
block, it is the buffer found for that block. -/
theorem firstCached_bind (c c' : Bcache) (dev blockno b : Nat)
    (hsame : ∀ y, y ≠ b → (c'.buf y).dev = (c.buf y).dev ∧ (c'.buf y).blockno = (c.buf y).blockno)
    (hb : (c'.buf b).dev = dev ∧ (c'.buf b).blockno = blockno) :
    ∀ l : List Nat, b ∈ l → firstCached c l dev blockno = none →
      firstCached c' l dev blockno = some b
  | [], hm, _ => absurd hm (List.not_mem_nil _)
  | y :: l, hm, h => by
    rw [firstCached_cons] at h ⊢
    by_cases hy : (c.buf y).dev = dev ∧ (c.buf y).blockno = blockno
    · rw [if_pos hy] at h
      cases h
    · rw [if_neg hy] at h
      by_cases hyb : y = b
      · rw [hyb, if_pos hb]
      · have := hsame y hyb
        rw [if_neg (by rw [this.1, this.2]; exact hy)]
        rcases List.mem_cons.mp hm with e | hml
        · exact absurd e.symm hyb
        · exact firstCached_bind c c' dev blockno b hsame hb l hml h

theorem firstFree_none (c : Bcache) (l : List Nat) (h : firstFree c l = none) :
    ∀ x ∈ l, (c.buf x).refcnt ≠ 0 := by
  intro x hx
  have := List.find?_eq_none.mp h x hx
  simpa using this

theorem firstFree_none_of (c : Bcache) (l : List Nat) (h : ∀ x ∈ l, (c.buf x).refcnt ≠ 0) :
    firstFree c l = none := by
  apply List.find?_eq_none.mpr
  intro x hx
  simpa using h x hx

theorem firstCached_none (c : Bcache) (l : List Nat) (dev blockno : Nat)
    (h : firstCached c l dev blockno = none) :
    ∀ x ∈ l, ¬ ((c.buf x).dev = dev ∧ (c.buf x).blockno = blockno) := by
  intro x hx
  have := List.find?_eq_none.mp h x hx
  simpa using this

end Bio

namespace Bio

/-! ## What a call of `bget` leaves behind -/

theorem rebind_buf_same (c : Bcache) (b dev blockno : Nat) :
    (rebind c b dev blockno).buf b
      = { c.buf b with dev := dev, blockno := blockno, valid := false, refcnt := 1 } := by
  simp [rebind]

theorem rebind_buf_other (c : Bcache) (b dev blockno x : Nat) (h : x ≠ b) :
    (rebind c b dev blockno).buf x = c.buf x := by
  unfold rebind
  exact setBuf_buf_other c b x _ h

/-- Up to the final `acquiresleep`, a call of `bget` on well-formed chains
either panics, with nothing cached for the block and no unused buffer in any
bucket, or settles on a buffer `b`: the chains stay well formed, `b` is the
buffer found for the block, its lock and payload are untouched, and `b` was
either the buffer found before the call (count one more) or unused and is now
bound to the block with count 1 and not valid. -/
theorem bget_bound (P : Params) (c : Bcache) (ch : Nat → List Nat) (hc : Chains P c ch)
    (hP : 0 < P.NBUCKET) (pid dev blockno : Nat) :
    (bget P pid dev blockno c = .panic "bget: no buffers" c ∧
      firstCached c (ch (blockno % P.NBUCKET)) dev blockno = none ∧
      ∀ j, j < P.NBUCKET → firstFree c (ch j) = none) ∨
    (∃ b cm ch1, bget P pid dev blockno c = finish pid b cm ∧ b < P.NBUF ∧ Chains P cm ch1 ∧
      firstCached cm (ch1 (blockno % P.NBUCKET)) dev blockno = some b ∧
      cm.disk = c.disk ∧ cm.io = c.io ∧
      (cm.buf b).lock = (c.buf b).lock ∧ (cm.buf b).data = (c.buf b).data ∧
      (∀ x, x ≠ b → cm.buf x = { c.buf x with next := (cm.buf x).next }) ∧
      ((firstCached c (ch (blockno % P.NBUCKET)) dev blockno = some b ∧
          (cm.buf b).refcnt = (c.buf b).refcnt + 1 ∧ (cm.buf b).valid = (c.buf b).valid) ∨
        (firstCached c (ch (blockno % P.NBUCKET)) dev blockno = none ∧
          (c.buf b).refcnt = 0 ∧ (cm.buf b).refcnt = 1 ∧ (cm.buf b).valid = false))) := by
  have hid : blockno % P.NBUCKET < P.NBUCKET := Nat.mod_lt blockno hP
  rcases bget_cases P c ch hc hP pid dev blockno with
    ⟨b, hf, he⟩ | ⟨b, hf, hv, he⟩ | ⟨hf, hv, he⟩ | ⟨i, b, c4, hf, hv, hi, hne, hvi, _, he, hch, hfld, _, hd, hio⟩
  · right
    have hb := mem_of_firstCached c _ dev blockno b hf
    refine ⟨b, _, ch, he, hc.2.1 _ hid b hb.1, Chains_setBuf P c ch b _ rfl hc, ?_, rfl, rfl,
      by rw [setBuf_buf_same], by rw [setBuf_buf_same], ?_, Or.inl ⟨hf, ?_, ?_⟩⟩
    · rw [← hf]
      refine firstCached_congr c _ dev blockno _ (fun x _ => ?_)
      by_cases hx : x = b
      · rw [hx, setBuf_buf_same]; exact ⟨rfl, rfl⟩
      · rw [setBuf_buf_other c b x _ hx]; exact ⟨rfl, rfl⟩
    · intro x hx
      rw [setBuf_buf_other c b x _ hx]
    · rw [setBuf_buf_same]
    · rw [setBuf_buf_same]
  · right
    have hb := mem_of_firstFree c _ b hv
    refine ⟨b, _, ch, he, hc.2.1 _ hid b hb.1, Chains_rebind P c ch b dev blockno hc, ?_, rfl, rfl,
      by rw [rebind_buf_same], by rw [rebind_buf_same], ?_, Or.inr ⟨hf, hb.2, ?_, ?_⟩⟩
    · refine firstCached_bind c _ dev blockno b (fun y hy => ?_) ?_ _ hb.1 hf
      · rw [rebind_buf_other c b dev blockno y hy]; exact ⟨rfl, rfl⟩
      · rw [rebind_buf_same]; exact ⟨rfl, rfl⟩
    · intro x hx
      rw [rebind_buf_other c b dev blockno x hx]
    · rw [rebind_buf_same]
    · rw [rebind_buf_same]
  · exact Or.inl ⟨he, hf, hv⟩
  · right
    have hb := mem_of_firstFree c _ b hvi
    have hfb := hfld b
    rw [rebind_buf_same] at hfb
    refine ⟨b, c4, moved ch i (blockno % P.NBUCKET) b, he, hc.2.1 i hi b hb.1, hch, ?_, hd, hio,
      ?_, ?_, ?_, Or.inr ⟨hf, hb.2, ?_, ?_⟩⟩
    · have hm : moved ch i (blockno % P.NBUCKET) b (blockno % P.NBUCKET)
          = b :: ch (blockno % P.NBUCKET) := by simp [moved]
      rw [hm, firstCached_cons, if_pos]
      rw [hfb]
      exact ⟨rfl, rfl⟩
    · rw [hfb]
    · rw [hfb]
    · intro x hx
      have := hfld x
      rw [rebind_buf_other c b dev blockno x hx] at this
      exact this
    · rw [hfb]
    · rw [hfb]

/-- The final `acquiresleep` keeps the chains and what every chain scan finds. -/
theorem finish_keeps (P : Params) (pid b : Nat) (cm : Bcache) (ch : Nat → List Nat)
    (hc : Chains P cm ch) (c1 : Bcache) (h : (finish pid b cm).after = some c1) :
    Chains P c1 ch ∧ c1.disk = cm.disk ∧ c1.io = cm.io ∧ c1.head = cm.head ∧
      (∀ x, x ≠ b → c1.buf x = cm.buf x) ∧
      c1.buf b = { cm.buf b with lock := (c1.buf b).lock } ∧
      (c1.buf b).lock ≠ none ∧
      (∀ l dev blockno, firstCached c1 l dev blockno = firstCached cm l dev blockno) ∧
      ((cm.buf b).lock = none → finish pid b cm = .ok b c1 ∧ (c1.buf b).lock = some pid) ∧
      ((cm.buf b).lock ≠ none → finish pid b cm = .sleep b c1 ∧ c1 = cm) := by
  have hgen : ∀ c', c'.head = cm.head → (∀ x, x ≠ b → c'.buf x = cm.buf x) →
      c'.buf b = { cm.buf b with lock := (c'.buf b).lock } →
      Chains P c' ch ∧ ∀ l dev blockno, firstCached c' l dev blockno = firstCached cm l dev blockno := by
    intro c' hh ho hb
    have hfield : ∀ x, (c'.buf x).next = (cm.buf x).next ∧ (c'.buf x).dev = (cm.buf x).dev ∧
        (c'.buf x).blockno = (cm.buf x).blockno := by
      intro x
      by_cases hx : x = b
      · rw [hx, hb]; exact ⟨rfl, rfl, rfl⟩
      · rw [ho x hx]; exact ⟨rfl, rfl, rfl⟩
    exact ⟨Chains_meta P cm c' ch hh (fun x => (hfield x).1) hc,
      fun l dev blockno => firstCached_congr cm c' dev blockno l (fun x _ => (hfield x).2)⟩
  cases hlk : (cm.buf b).lock with
  | none =>
    rw [finish_free pid b cm hlk] at h ⊢
    have e : cm.setBuf b { cm.buf b with lock := some pid } = c1 := Option.some.inj h
    subst e
    have ho : ∀ x, x ≠ b → (cm.setBuf b { cm.buf b with lock := some pid }).buf x = cm.buf x :=
      fun x hx => setBuf_buf_other cm b x _ hx
    have hb : (cm.setBuf b { cm.buf b with lock := some pid }).buf b
        = { cm.buf b with lock := ((cm.setBuf b { cm.buf b with lock := some pid }).buf b).lock } := by
      rw [setBuf_buf_same]
    obtain ⟨h1, h2⟩ := hgen (cm.setBuf b { cm.buf b with lock := some pid }) rfl ho hb
    refine ⟨h1, rfl, rfl, rfl, ho, hb, ?_, h2, fun _ => ⟨rfl, ?_⟩, fun hn => absurd rfl hn⟩
    · rw [setBuf_buf_same]; simp
    · rw [setBuf_buf_same]
  | some q =>
    rw [finish_taken pid b cm q hlk] at h ⊢
    have e : cm = c1 := Option.some.inj h
    subst e
    obtain ⟨h1, h2⟩ := hgen cm rfl (fun _ _ => rfl) rfl
    refine ⟨h1, rfl, rfl, rfl, fun _ _ => rfl, rfl, ?_, h2, ?_, fun _ => ⟨rfl, rfl⟩⟩
    · rw [hlk]; simp
    · intro hn
      cases hn

/-- What `bread` adds to a call of `bget` that returned. -/
theorem bread_of_ok (P : Params) (pid dev blockno : Nat) (c : Bcache) (b : Nat) (c1 : Bcache)
    (h : bget P pid dev blockno c = .ok b c1) :
    ((c1.buf b).valid = true → bread P pid dev blockno c = .ok b c1) ∧
    ((c1.buf b).valid = false → ∃ c2, bread P pid dev blockno c = .ok b c2 ∧
      c2.head = c1.head ∧ c2.disk = c1.disk ∧
      c2.io = (false, (c1.buf b).dev, (c1.buf b).blockno) :: c1.io ∧
      (∀ x, x ≠ b → c2.buf x = c1.buf x) ∧
      c2.buf b = { c1.buf b with data := c1.disk (c1.buf b).dev (c1.buf b).blockno,
                                 valid := true }) := by
  constructor
  · intro hv
    simp [bread, h, hv]
  · intro hv
    refine ⟨(virtio_disk_rw b false c1).setBuf b
      { (virtio_disk_rw b false c1).buf b with valid := true }, by simp [bread, h, hv],
      rfl, rfl, ?_, ?_, ?_⟩
    · simp [virtio_disk_rw]
    · intro x hx
      rw [setBuf_buf_other _ b x _ hx]
      simp only [virtio_disk_rw]
      exact setBuf_buf_other c1 b x _ hx
    · rw [setBuf_buf_same]
      simp [virtio_disk_rw]

theorem bread_of_not_ok (P : Params) (pid dev blockno : Nat) (c : Bcache)
    (h : ∀ b c1, bget P pid dev blockno c ≠ .ok b c1) :
    bread P pid dev blockno c = bget P pid dev blockno c := by
  cases hb : bget P pid dev blockno c with
  | ok b c1 => exact absurd hb (h b c1)
  | panic msg c1 => simp [bread, hb]
  | sleep b c1 => simp [bread, hb]
  | undef c1 => simp [bread, hb]

end Bio

namespace Bio

/-! ## `binit` -/

theorem mem_initialChains (P : Params) : ∀ (n id x : Nat),
    x ∈ initialChains P n id ↔ x < n ∧ x % P.NBUCKET = id
  | 0, _, _ => by simp [initialChains]
  | n + 1, id, x => by
    by_cases h : n % P.NBUCKET = id
    · simp only [initialChains, if_pos h, List.mem_cons, mem_initialChains P n id x]
      constructor
      · rintro (e | ⟨h1, h2⟩)
        · rw [e]; exact ⟨Nat.lt_succ_self n, h⟩
        · exact ⟨Nat.lt_succ_of_lt h1, h2⟩
      · rintro ⟨h1, h2⟩
        rcases Nat.eq_or_lt_of_le (Nat.le_of_lt_succ h1) with e | hlt
        · exact Or.inl e
        · exact Or.inr ⟨hlt, h2⟩
    · simp only [initialChains, if_neg h, mem_initialChains P n id x]
      constructor
      · rintro ⟨h1, h2⟩
        exact ⟨Nat.lt_succ_of_lt h1, h2⟩
      · rintro ⟨h1, h2⟩
        rcases Nat.eq_or_lt_of_le (Nat.le_of_lt_succ h1) with e | hlt
        · rw [e] at h2; exact absurd h2 h
        · exact ⟨hlt, h2⟩

/-- The second loop of `binit` after its first `n` iterations: every bucket
that started empty heads the chain of the buffers put into it so far, and
only the lock and the `next` field of a buffer have been written. -/
theorem binit_loop (P : Params) (c1 : Bcache) :
    ∀ n : Nat,
      (∀ id, c1.head id = none →
        IsChain ((List.range n).foldl (binitStep P) c1)
          (((List.range n).foldl (binitStep P) c1).head id) (initialChains P n id)) ∧
      (∀ x, (((List.range n).foldl (binitStep P) c1).buf x).refcnt = (c1.buf x).refcnt)
  | 0 => ⟨fun id h => h, fun _ => rfl⟩
  | n + 1 => by
    obtain ⟨ih1, ih2⟩ := binit_loop P c1 n
    rw [List.range_succ, List.foldl_append]
    simp only [List.foldl_cons, List.foldl_nil]
    generalize (List.range n).foldl (binitStep P) c1 = cn at ih1 ih2 ⊢
    have hother : ∀ x, x ≠ n → (binitStep P cn n).buf x = cn.buf x := by
      intro x hx
      unfold binitStep
      rw [setHead_buf, setBuf_buf_other cn n x _ hx]
    constructor
    · intro id hid
      have hold := ih1 id hid
      have hcongr : ∀ l : List Nat, (∀ x ∈ l, x < n) → ∀ h, IsChain cn h l →
          IsChain (binitStep P cn n) h l := by
        intro l hl h hch
        refine IsChain_congr cn _ l h hch ?_
        intro x hx
        have : x ≠ n := by have := hl x hx; omega
        rw [hother x this]
      have hlt : ∀ x ∈ initialChains P n id, x < n :=
        fun x hx => ((mem_initialChains P n id x).mp hx).1
      by_cases h : n % P.NBUCKET = id
      · simp only [initialChains, if_pos h]
        have hhead : (binitStep P cn n).head id = some n := by
          unfold binitStep
          rw [h, setHead_head_same]
        have hnext : ((binitStep P cn n).buf n).next = cn.head id := by
          unfold binitStep
          rw [setHead_buf, setBuf_buf_same, h]
        rw [hhead]
        refine ⟨rfl, ?_⟩
        rw [hnext]
        exact hcongr _ hlt _ hold
      · simp only [initialChains, if_neg h]
        have hhead : (binitStep P cn n).head id = cn.head id := by
          unfold binitStep
          rw [setHead_head_other _ _ id _ (Ne.symm h), setBuf_head]
        rw [hhead]
        exact hcongr _ hlt _ hold
    · intro x
      rw [← ih2 x]
      by_cases hx : x = n
      · rw [hx]
        unfold binitStep
        rw [setHead_buf, setBuf_buf_same]
      · rw [hother x hx]

/-- After `binit` the chains are well formed and buffer `i` is in the chain of
bucket `i % NBUCKET`; no count has been written. -/
theorem binit_spec (P : Params) (hP : 0 < P.NBUCKET) (c0 : Bcache) :
    Chains P (binit P c0) (initialChains P P.NBUF) ∧
      (∀ i, i < P.NBUF → i ∈ initialChains P P.NBUF (i % P.NBUCKET)) ∧
      (∀ x, ((binit P c0).buf x).refcnt = (c0.buf x).refcnt) := by
  obtain ⟨h1, h2⟩ := binit_loop P
    { c0 with head := fun i => if i < P.NBUCKET then none else c0.head i } P.NBUF
  refine ⟨⟨?_, ?_, ?_, ?_⟩, ?_, h2⟩
  · intro i hi
    exact h1 i (by simp [hi])
  · intro i _ b hb
    exact ((mem_initialChains P P.NBUF i b).mp hb).1
  · intro b hb
    exact ⟨b % P.NBUCKET, Nat.mod_lt b hP, (mem_initialChains P P.NBUF _ b).mpr ⟨hb, rfl⟩⟩
  · intro i _ j _ b hbi hbj
    rw [← ((mem_initialChains P P.NBUF i b).mp hbi).2, ← ((mem_initialChains P P.NBUF j b).mp hbj).2]
  · intro i hi
    exact (mem_initialChains P P.NBUF _ i).mpr ⟨hi, rfl⟩

/-! ## Chains are kept by every call -/

theorem Chains_bget (P : Params) (c : Bcache) (ch : Nat → List Nat) (hc : Chains P c ch)
    (hP : 0 < P.NBUCKET) (pid dev blockno : Nat) (c1 : Bcache)
    (h : (bget P pid dev blockno c).after = some c1) : ∃ ch1, Chains P c1 ch1 := by
  rcases bget_bound P c ch hc hP pid dev blockno with ⟨he, _⟩ | ⟨b, cm, ch1, he, _, hch, _⟩
  · rw [he] at h
    cases h
  · rw [he] at h
    exact ⟨ch1, (finish_keeps P pid b cm ch1 hch c1 h).1⟩

theorem Chains_bread (P : Params) (c : Bcache) (ch : Nat → List Nat) (hc : Chains P c ch)
    (hP : 0 < P.NBUCKET) (pid dev blockno : Nat) (c1 : Bcache)
    (h : (bread P pid dev blockno c).after = some c1) : ∃ ch1, Chains P c1 ch1 := by
  cases hb : bget P pid dev blockno c with
  | ok b cb =>
    obtain ⟨chb, hcb⟩ := Chains_bget P c ch hc hP pid dev blockno cb (by rw [hb]; rfl)
    obtain ⟨hv1, hv2⟩ := bread_of_ok P pid dev blockno c b cb hb
    cases hv : (cb.buf b).valid with
    | true =>
      rw [hv1 hv] at h
      have e : cb = c1 := Option.some.inj h
      exact ⟨chb, e ▸ hcb⟩
    | false =>
      obtain ⟨c2, he, hh, _, _, ho, hbb⟩ := hv2 hv
      rw [he] at h
      have e : c2 = c1 := Option.some.inj h
      refine ⟨chb, e ▸ Chains_meta P cb c2 chb hh ?_ hcb⟩
      intro x
      by_cases hx : x = b
      · rw [hx, hbb]
      · rw [ho x hx]
  | panic msg cb =>
    rw [bread_of_not_ok P pid dev blockno c (by rw [hb]; intro b c1 e; cases e), hb] at h
    cases h
  | sleep b cb =>
    have hs : (bget P pid dev blockno c).after = some cb := by rw [hb]; rfl
    rw [bread_of_not_ok P pid dev blockno c (by rw [hb]; intro b c1 e; cases e), hb] at h
    have e : cb = c1 := Option.some.inj h
    rw [← e]
    exact Chains_bget P c ch hc hP pid dev blockno cb hs
  | undef cb =>
    rw [bread_of_not_ok P pid dev blockno c (by rw [hb]; intro b c1 e; cases e), hb] at h
    cases h

theorem brelse_held (pid b : Nat) (c : Bcache) (h : (c.buf b).lock = some pid) :
    brelse pid b c = .ok ()
      ((releasesleep b c).setBuf b
        { (releasesleep b c).buf b with refcnt := ((releasesleep b c).buf b).refcnt - 1 }) := by
  simp [brelse, holdingsleep, h]

theorem brelse_not_held (pid b : Nat) (c : Bcache) (h : (c.buf b).lock ≠ some pid) :
    brelse pid b c = .panic "brelse" c := by
  simp [brelse, holdingsleep, h]

/-- The state `brelse` produces when the caller holds the lock: buffer `b`
with its lock free and its count one less, nothing else. -/
theorem brelse_buf (b : Nat) (c : Bcache) :
    ((releasesleep b c).setBuf b
        { (releasesleep b c).buf b with refcnt := ((releasesleep b c).buf b).refcnt - 1 }).buf b
      = { c.buf b with lock := none, refcnt := (c.buf b).refcnt - 1 } := by
  simp [releasesleep]

theorem brelse_other (b x : Nat) (c : Bcache) (hx : x ≠ b) :
    ((releasesleep b c).setBuf b
        { (releasesleep b c).buf b with refcnt := ((releasesleep b c).buf b).refcnt - 1 }).buf x
      = c.buf x := by
  rw [setBuf_buf_other _ b x _ hx]
  unfold releasesleep
  exact setBuf_buf_other c b x _ hx

theorem Chains_run (P : Params) (c : Bcache) (ch : Nat → List Nat) (hc : Chains P c ch)
    (hP : 0 < P.NBUCKET) (call : Call) (c1 : Bcache) (h : call.run P c = some c1) :
    ∃ ch1, Chains P c1 ch1 := by
  cases call with
  | bget pid dev blockno => exact Chains_bget P c ch hc hP pid dev blockno c1 h
  | bread pid dev blockno => exact Chains_bread P c ch hc hP pid dev blockno c1 h
  | brelse pid b =>
    by_cases hh : (c.buf b).lock = some pid
    · simp only [Call.run, brelse_held pid b c hh, Result.after, Option.some.injEq] at h
      refine ⟨ch, h ▸ Chains_meta P c _ ch rfl ?_ hc⟩
      intro x
      by_cases hx : x = b
      · rw [hx, brelse_buf]
      · rw [brelse_other b x c hx]
    · simp [Call.run, brelse_not_held pid b c hh, Result.after] at h
  | bpin b =>
    simp only [Call.run, Option.some.injEq] at h
    exact ⟨ch, h ▸ Chains_setBuf P c ch b _ rfl hc⟩
  | bunpin b =>
    simp only [Call.run, Option.some.injEq] at h
    exact ⟨ch, h ▸ Chains_setBuf P c ch b _ rfl hc⟩

theorem Chains_reach (P : Params) (hP : 0 < P.NBUCKET) (allowed : Bcache → Call → Prop)
    (c : Bcache) (h : Reach P allowed c) : ∃ ch, Chains P c ch := by
  induction h with
  | init c0 _ => exact ⟨_, (binit_spec P hP c0).1⟩
  | step c call c' _ _ hrun ih =>
    obtain ⟨ch, hc⟩ := ih
    exact Chains_run P c ch hc hP call c' hrun

end Bio

namespace Bio

/-! ## The chain structure -/

/-- C20: after `binit` buffer `i` is in the chain of bucket `i % NBUCKET`; in
every state reachable from `binit` by `bget`, `bread`, `brelse`, `bpin` and
`bunpin` the bucket chains are finite, acyclic chains of pool buffers, every
pool buffer is in one of them, in no two of them, and in it once; and when
`bget` takes the global eviction path with victim `b` of bucket `i`, the
unlink loop ends, the old chain is the chain it was without `b`, in the same
order, `b` is the head of the chain of the target bucket in front of what was
there, and the other chains are as before. -/
theorem chain_structure (P : Params) (hP : 0 < P.NBUCKET) :
    (∀ c0, ∃ ch, Chains P (binit P c0) ch ∧ ∀ i, i < P.NBUF → i ∈ ch (i % P.NBUCKET)) ∧
    (∀ c, Reach P (fun _ _ => True) c →
      ∃ ch, Chains P c ch ∧ ∀ i, i < P.NBUCKET → (ch i).Nodup) ∧
    (∀ (c : Bcache) (ch : Nat → List Nat) (pid dev blockno i b : Nat), Chains P c ch →
      firstCached c (ch (blockno % P.NBUCKET)) dev blockno = none →
      firstFree c (ch (blockno % P.NBUCKET)) = none →
      i < P.NBUCKET → i ≠ blockno % P.NBUCKET → firstFree c (ch i) = some b →
      (∀ j, j < i → j ≠ blockno % P.NBUCKET → firstFree c (ch j) = none) →
      (∃ c2, unlink P (rebind c b dev blockno) i b = some c2) ∧
      ∃ c1 ch1, (bget P pid dev blockno c).after = some c1 ∧
        (bget P pid dev blockno c).chosen = some b ∧ Chains P c1 ch1 ∧
        ch1 (blockno % P.NBUCKET) = b :: ch (blockno % P.NBUCKET) ∧
        ch1 i = (ch i).erase b ∧
        ∀ j, j ≠ blockno % P.NBUCKET → j ≠ i → ch1 j = ch j) := by
  refine ⟨?_, ?_, ?_⟩
  · intro c0
    exact ⟨_, (binit_spec P hP c0).1, (binit_spec P hP c0).2.1⟩
  · intro c hr
    obtain ⟨ch, hc⟩ := Chains_reach P hP _ c hr
    exact ⟨ch, hc, fun i hi => IsChain_nodup c _ _ (hc.1 i hi)⟩
  · intro c ch pid dev blockno i b hc hf hv hi hne hvi hbefore
    have hid : blockno % P.NBUCKET < P.NBUCKET := Nat.mod_lt blockno hP
    have hb := (mem_of_firstFree c (ch i) b hvi).1
    constructor
    · obtain ⟨c2, hu, _⟩ := move_spec P (rebind c b dev blockno) ch
        (Chains_rebind P c ch b dev blockno hc) i (blockno % P.NBUCKET) b hi hid hne hb
      exact ⟨c2, hu⟩
    · rcases bget_cases P c ch hc hP pid dev blockno with
        ⟨b', hf', _⟩ | ⟨b', _, hv', _⟩ | ⟨_, hv', _⟩ |
        ⟨i', b', c4, _, _, hi', hne', hvi', hbefore', he, hch, _, _, _, _⟩
      · rw [hf] at hf'
        cases hf'
      · rw [hv] at hv'
        cases hv'
      · rw [hv' i hi] at hvi
        cases hvi
      · have hii : i' = i := by
          rcases Nat.lt_trichotomy i' i with h | h | h
          · have := hbefore i' h hne'
            rw [this] at hvi'
            cases hvi'
          · exact h
          · have := hbefore' i h hne
            rw [this] at hvi
            cases hvi
        subst hii
        have hbb : b' = b := by
          rw [hvi] at hvi'
          exact (Option.some.inj hvi').symm
        subst hbb
        obtain ⟨c1, hc1, hchosen, _⟩ := finish_after pid b' c4
        have hk := finish_keeps P pid b' c4 _ hch c1 hc1
        refine ⟨c1, moved ch i' (blockno % P.NBUCKET) b', by rw [he]; exact hc1,
          by rw [he]; exact hchosen, hk.1, by simp [moved], by simp [moved, hne], ?_⟩
        intro j h1 h2
        simp [moved, h1, h2]

/-- C20 on the pool `three`: after `binit` buffers 0 and 2 are in the chain of
bucket 0 and buffer 1 is in the chain of bucket 1. -/
theorem chain_structure_witness :
    ∃ ch, Chains three (binit three zeroed) ch ∧ ∀ i, i < three.NBUF → i ∈ ch (i % three.NBUCKET) :=
  (chain_structure three (by decide)).1 zeroed

/-! ## `brelse` -/

/-- C17: when the caller holds the exclusive lock of `b`, `brelse b` returns,
the lock is free, the count of `b` is one less, and nothing else has changed:
the heads and every `next` field (so every chain, in membership and order),
the device, block number, validity flag and payload of `b`, every other
buffer, and the device. -/
theorem brelse_frame (pid b : Nat) (c : Bcache) (hh : (c.buf b).lock = some pid) :
    ∃ c', brelse pid b c = .ok () c' ∧
      (c'.buf b).lock = none ∧ (c'.buf b).refcnt = (c.buf b).refcnt - 1 ∧
      c'.head = c.head ∧ (∀ x, (c'.buf x).next = (c.buf x).next) ∧
      (∀ P ch, Chains P c ch → Chains P c' ch) ∧
      (c'.buf b).dev = (c.buf b).dev ∧ (c'.buf b).blockno = (c.buf b).blockno ∧
      (c'.buf b).valid = (c.buf b).valid ∧ (c'.buf b).data = (c.buf b).data ∧
      (∀ x, x ≠ b → c'.buf x = c.buf x) ∧ c'.disk = c.disk ∧ c'.io = c.io := by
  have hnext : ∀ x, (((releasesleep b c).setBuf b
      { (releasesleep b c).buf b with refcnt := ((releasesleep b c).buf b).refcnt - 1 }).buf x).next
      = (c.buf x).next := by
    intro x
    by_cases hx : x = b
    · rw [hx, brelse_buf]
    · rw [brelse_other b x c hx]
  refine ⟨_, brelse_held pid b c hh, ?_, ?_, rfl, hnext,
    fun P ch hc => Chains_meta P c _ ch rfl hnext hc, ?_, ?_, ?_, ?_,
    fun x hx => brelse_other b x c hx, rfl, rfl⟩
  all_goals rw [brelse_buf]

/-- C17 on `twoHeld`: process 7 releases buffer 1, whose count drops from 1
to 0, and buffer 1 stays at the head of its chain in front of buffer 0. -/
theorem brelse_frame_witness :
    ∃ c', brelse 7 1 twoHeld = .ok () c' ∧ (c'.buf 1).lock = none ∧
      (c'.buf 1).refcnt = 1 - 1 ∧ c'.head = twoHeld.head ∧
      Chains two c' (fun _ => [1, 0]) :=
  have ⟨c', h1, h2, h3, h4, _, h6, _⟩ := brelse_frame 7 1 twoHeld (by decide)
  ⟨c', h1, h2, h3, h4, h6 two (fun _ => [1, 0]) (by decide)⟩

end Bio

namespace Bio

/-! ## The miss path and exhaustion -/

theorem firstCached_none_of (c : Bcache) (l : List Nat) (dev blockno : Nat)
    (h : ∀ x ∈ l, ¬ ((c.buf x).dev = dev ∧ (c.buf x).blockno = blockno)) :
    firstCached c l dev blockno = none := by
  apply List.find?_eq_none.mpr
  intro x hx
  simpa using h x hx

/-- C14: when `bget` finds no buffer caching the block in the target bucket
and does not panic, it rebinds exactly one buffer `b`; the count of `b` was 0;
`b` is the first unused buffer of the chain of the target bucket if there is
one, and then no head and no `next` field changes, and otherwise the first
unused buffer of the first other bucket, in ascending order, that has one;
afterwards `b` has the requested device and block number, is not valid and has
count 1, and every other buffer, so every buffer whose count was positive,
keeps its device, block number, validity flag, count, payload and lock. -/
theorem bget_miss_path (P : Params) (c : Bcache) (ch : Nat → List Nat) (pid dev blockno : Nat)
    (hc : Chains P c ch) (hP : 0 < P.NBUCKET)
    (hmiss : ∀ x ∈ ch (blockno % P.NBUCKET),
      ¬ ((c.buf x).dev = dev ∧ (c.buf x).blockno = blockno))
    (hnp : ∀ msg c', bget P pid dev blockno c ≠ .panic msg c') :
    ∃ b c1, (bget P pid dev blockno c).after = some c1 ∧
      (bget P pid dev blockno c).chosen = some b ∧ b < P.NBUF ∧ (c.buf b).refcnt = 0 ∧
      (∀ v, firstFree c (ch (blockno % P.NBUCKET)) = some v →
        b = v ∧ c1.head = c.head ∧ (∀ x, (c1.buf x).next = (c.buf x).next) ∧ Chains P c1 ch) ∧
      (firstFree c (ch (blockno % P.NBUCKET)) = none →
        ∃ i, i < P.NBUCKET ∧ i ≠ blockno % P.NBUCKET ∧ firstFree c (ch i) = some b ∧
          (∀ j, j < i → j ≠ blockno % P.NBUCKET → firstFree c (ch j) = none) ∧
          Chains P c1 (moved ch i (blockno % P.NBUCKET) b)) ∧
      (c1.buf b).dev = dev ∧ (c1.buf b).blockno = blockno ∧ (c1.buf b).valid = false ∧
      (c1.buf b).refcnt = 1 ∧
      (∀ x, x ≠ b → (c1.buf x).dev = (c.buf x).dev ∧ (c1.buf x).blockno = (c.buf x).blockno ∧
        (c1.buf x).valid = (c.buf x).valid ∧ (c1.buf x).refcnt = (c.buf x).refcnt ∧
        (c1.buf x).data = (c.buf x).data ∧ (c1.buf x).lock = (c.buf x).lock) ∧
      (∀ x, 0 < (c.buf x).refcnt → (c1.buf x).dev = (c.buf x).dev ∧
        (c1.buf x).blockno = (c.buf x).blockno ∧ (c1.buf x).valid = (c.buf x).valid ∧
        (c1.buf x).refcnt = (c.buf x).refcnt ∧ (c1.buf x).data = (c.buf x).data) := by
  have hid : blockno % P.NBUCKET < P.NBUCKET := Nat.mod_lt blockno hP
  have hf0 := firstCached_none_of c _ dev blockno hmiss
  have hpos : ∀ (b : Nat) (c1 : Bcache), (c.buf b).refcnt = 0 →
      (∀ x, x ≠ b → (c1.buf x).dev = (c.buf x).dev ∧ (c1.buf x).blockno = (c.buf x).blockno ∧
        (c1.buf x).valid = (c.buf x).valid ∧ (c1.buf x).refcnt = (c.buf x).refcnt ∧
        (c1.buf x).data = (c.buf x).data ∧ (c1.buf x).lock = (c.buf x).lock) →
      ∀ x, 0 < (c.buf x).refcnt → (c1.buf x).dev = (c.buf x).dev ∧
        (c1.buf x).blockno = (c.buf x).blockno ∧ (c1.buf x).valid = (c.buf x).valid ∧
        (c1.buf x).refcnt = (c.buf x).refcnt ∧ (c1.buf x).data = (c.buf x).data := by
    intro b c1 hb0 ho x hx
    have hxb : x ≠ b := by
      intro e
      rw [e, hb0] at hx
      exact absurd hx (by decide)
    obtain ⟨h1, h2, h3, h4, h5, _⟩ := ho x hxb
    exact ⟨h1, h2, h3, h4, h5⟩
  rcases bget_cases P c ch hc hP pid dev blockno with
    ⟨b, hf, _⟩ | ⟨b, _, hv, he⟩ | ⟨_, _, he⟩ |
    ⟨i, b, c4, _, hv, hi, hne, hvi, hbefore, he, hch, hfld, _, _, _⟩
  · rw [hf0] at hf
    cases hf
  · have hb := mem_of_firstFree c _ b hv
    obtain ⟨c1, hc1, hchosen, _⟩ := finish_after pid b (rebind c b dev blockno)
    obtain ⟨hk1, _, _, hk4, hk5, hk6, _⟩ := finish_keeps P pid b _ ch
      (Chains_rebind P c ch b dev blockno hc) c1 hc1
    have hother : ∀ x, x ≠ b → c1.buf x = c.buf x := by
      intro x hx
      rw [hk5 x hx, rebind_buf_other c b dev blockno x hx]
    have hfields : ∀ x, x ≠ b →
        (c1.buf x).dev = (c.buf x).dev ∧ (c1.buf x).blockno = (c.buf x).blockno ∧
        (c1.buf x).valid = (c.buf x).valid ∧ (c1.buf x).refcnt = (c.buf x).refcnt ∧
        (c1.buf x).data = (c.buf x).data ∧ (c1.buf x).lock = (c.buf x).lock := by
      intro x hx
      rw [hother x hx]
      exact ⟨rfl, rfl, rfl, rfl, rfl, rfl⟩
    rw [rebind_buf_same] at hk6
    refine ⟨b, c1, by rw [he]; exact hc1, by rw [he]; exact hchosen, hc.2.1 _ hid b hb.1, hb.2,
      ?_, ?_, by rw [hk6], by rw [hk6], by rw [hk6], by rw [hk6], hfields,
      hpos b c1 hb.2 hfields⟩
    · intro v hv'
      rw [hv] at hv'
      refine ⟨Option.some.inj hv', hk4, ?_, hk1⟩
      intro x
      by_cases hx : x = b
      · rw [hx, hk6]
      · rw [hother x hx]
    · intro hn
      rw [hv] at hn
      cases hn
  · exact absurd he (hnp _ _)
  · have hb := mem_of_firstFree c _ b hvi
    obtain ⟨c1, hc1, hchosen, _⟩ := finish_after pid b c4
    obtain ⟨hk1, _, _, _, hk5, hk6, _⟩ := finish_keeps P pid b c4 _ hch c1 hc1
    have hfb := hfld b
    rw [rebind_buf_same] at hfb
    rw [hfb] at hk6
    have hfields : ∀ x, x ≠ b →
        (c1.buf x).dev = (c.buf x).dev ∧ (c1.buf x).blockno = (c.buf x).blockno ∧
        (c1.buf x).valid = (c.buf x).valid ∧ (c1.buf x).refcnt = (c.buf x).refcnt ∧
        (c1.buf x).data = (c.buf x).data ∧ (c1.buf x).lock = (c.buf x).lock := by
      intro x hx
      have := hfld x
      rw [rebind_buf_other c b dev blockno x hx] at this
      rw [hk5 x hx, this]
      exact ⟨rfl, rfl, rfl, rfl, rfl, rfl⟩
    refine ⟨b, c1, by rw [he]; exact hc1, by rw [he]; exact hchosen, hc.2.1 i hi b hb.1, hb.2,
      ?_, ?_, by rw [hk6], by rw [hk6], by rw [hk6], by rw [hk6], hfields,
      hpos b c1 hb.2 hfields⟩
    · intro v hv'
      rw [hv] at hv'
      cases hv'
    · intro _
      exact ⟨i, hi, hne, hvi, hbefore, hk1⟩

/-- C14 on `twoReleased`: `bget(1, 30)` finds nothing cached and rebinds
buffer 1, the first unused buffer of the bucket, in place; buffer 0, in use,
keeps block 20. -/
theorem bget_miss_path_witness :
    ∃ b c1, (bget two 7 1 30 twoReleased).after = some c1 ∧
      (bget two 7 1 30 twoReleased).chosen = some b ∧ b = 1 ∧
      (c1.buf b).dev = 1 ∧ (c1.buf b).blockno = 30 ∧ (c1.buf b).valid = false ∧
      (c1.buf b).refcnt = 1 ∧ (c1.buf 0).blockno = 20 ∧ Chains two c1 (fun _ => [1, 0]) :=
  have ⟨b, c1, h1, h2, _, _, h5, _, h7, h8, h9, h10, _, h12⟩ :=
    bget_miss_path two twoReleased (fun _ => [1, 0]) 7 1 30 (by decide) (by decide) (by decide)
      (fun msg c' h =>
        absurd (show (bget two 7 1 30 twoReleased).returned = false by rw [h]; rfl) (by decide))
  have hb := (h5 1 (by decide)).1
  ⟨b, c1, h1, h2, hb, h7, h8, h9, h10, (h12 0 (by decide)).2.1, (h5 1 (by decide)).2.2.2⟩

/-- C15 (as the code has it): `bget` panics exactly when no buffer of the
target bucket caches the block and no pool buffer has count 0; the message is
then "bget: no buffers" and nothing has changed.  Whenever some pool buffer has
count 0, `bget` settles on a buffer bound to the requested block: it returns
that buffer when its exclusive lock was free, and otherwise sleeps on the lock
without returning. -/
theorem bget_panics_iff (P : Params) (c : Bcache) (ch : Nat → List Nat) (pid dev blockno : Nat)
    (hc : Chains P c ch) (hP : 0 < P.NBUCKET) :
    ((∃ msg c', bget P pid dev blockno c = .panic msg c') ↔
      ((∀ x ∈ ch (blockno % P.NBUCKET),
          ¬ ((c.buf x).dev = dev ∧ (c.buf x).blockno = blockno)) ∧
        ∀ x, x < P.NBUF → (c.buf x).refcnt ≠ 0)) ∧
    (∀ msg c', bget P pid dev blockno c = .panic msg c' → msg = "bget: no buffers" ∧ c' = c) ∧
    ((∃ x, x < P.NBUF ∧ (c.buf x).refcnt = 0) →
      ∃ b c1, (bget P pid dev blockno c).after = some c1 ∧
        (bget P pid dev blockno c).chosen = some b ∧
        (c1.buf b).dev = dev ∧ (c1.buf b).blockno = blockno ∧
        ((c.buf b).lock = none → bget P pid dev blockno c = .ok b c1) ∧
        ((c.buf b).lock ≠ none → bget P pid dev blockno c = .sleep b c1)) := by
  have hfree : (∀ j, j < P.NBUCKET → firstFree c (ch j) = none) ↔
      ∀ x, x < P.NBUF → (c.buf x).refcnt ≠ 0 := by
    constructor
    · intro h x hx
      obtain ⟨j, hj, hm⟩ := hc.2.2.1 x hx
      exact firstFree_none c _ (h j hj) x hm
    · intro h j hj
      exact firstFree_none_of c _ (fun x hx => h x (hc.2.1 j hj x hx))
  have hfin : ∀ b cm, bget P pid dev blockno c = finish pid b cm →
      ∀ msg c', bget P pid dev blockno c ≠ .panic msg c' := by
    intro b cm he msg c' h
    rw [he] at h
    obtain ⟨c1, h1, _⟩ := finish_after pid b cm
    rw [h] at h1
    cases h1
  rcases bget_bound P c ch hc hP pid dev blockno with
    ⟨he, hf, hv⟩ | ⟨b, cm, ch1, he, _, hch, hfc, _, _, hlk, _, _, _⟩
  · refine ⟨⟨fun _ => ⟨firstCached_none c _ dev blockno hf, hfree.mp hv⟩, fun _ => ⟨_, _, he⟩⟩,
      ?_, ?_⟩
    · intro msg c' h
      rw [he] at h
      cases h
      exact ⟨rfl, rfl⟩
    · rintro ⟨x, hx, hx0⟩
      exact absurd hx0 (hfree.mp hv x hx)
  · have hno := hfin b cm he
    have hbm := mem_of_firstCached cm _ dev blockno b hfc
    refine ⟨⟨fun ⟨msg, c', h⟩ => absurd h (hno msg c'), ?_⟩,
      fun msg c' h => absurd h (hno msg c'), ?_⟩
    · rintro ⟨hm, hall⟩
      exfalso
      rcases bget_bound P c ch hc hP pid dev blockno with ⟨he', _⟩ | ⟨b', _, _, _, hb', _, _, _, _, _, _, _, hor⟩
      · exact hno _ _ he'
      · rcases hor with ⟨hf', _⟩ | ⟨_, h0, _⟩
        · exact firstCached_none c _ dev blockno (firstCached_none_of c _ dev blockno hm) b'
            (mem_of_firstCached c _ dev blockno b' hf').1 (mem_of_firstCached c _ dev blockno b' hf').2
        · exact hall b' hb' h0
    · intro _
      obtain ⟨c1, hc1, hchosen, _⟩ := finish_after pid b cm
      obtain ⟨_, _, _, _, _, hk6, _, _, hk9, hk10⟩ := finish_keeps P pid b cm ch1 hch c1 hc1
      refine ⟨b, c1, by rw [he]; exact hc1, by rw [he]; exact hchosen, ?_, ?_, ?_, ?_⟩
      · rw [hk6]; exact hbm.2.1
      · rw [hk6]; exact hbm.2.2
      · intro h
        rw [he]
        exact (hk9 (by rw [hlk]; exact h)).1
      · intro h
        rw [he]
        exact (hk10 (by rw [hlk]; exact h)).1

/-- C15 on the scenario of the spec: two buffers, one bucket; after
`bget(1, 10)`, `bget(1, 20)` and the release of the first buffer, `bget(1, 30)`
does not panic and returns the first buffer, bound to block 30. -/
theorem bget_panics_iff_witness :
    ∃ b c1, (bget two 7 1 30 twoReleased).after = some c1 ∧
      (bget two 7 1 30 twoReleased).chosen = some b ∧
      (c1.buf b).dev = 1 ∧ (c1.buf b).blockno = 30 ∧
      (bget two 7 1 10 (binit two zeroed)).chosen = some 1 ∧
      (bget two 7 1 30 twoReleased).chosen = some 1 ∧
      (bget two 7 1 30 twoReleased).returned = true :=
  have ⟨b, c1, h1, h2, h3, h4, _⟩ :=
    (bget_panics_iff two twoReleased (fun _ => [1, 0]) 7 1 30 (by decide) (by decide)).2.2
      ⟨1, by decide, by decide⟩
  ⟨b, c1, h1, h2, h3, h4, by decide, by decide, by decide⟩

/-- C15 fails as stated.  In `twoHeld` buffer 0 has count 0, yet `bget(1, 10)`
by process 8 does not return: it settles on buffer 1, which process 7 holds,
raises its count to 2 and sleeps on its lock. -/
theorem bget_panics_iff_counterexample :
    Chains two twoHeld (fun _ => [1, 0]) ∧ (twoHeld.buf 0).refcnt = 0 ∧
      (twoHeld.buf 1).lock = some 7 ∧
      (bget two 8 1 10 twoHeld).chosen = some 1 ∧
      (bget two 8 1 10 twoHeld).returned = false ∧
      ((bget two 8 1 10 twoHeld).next.buf 1).refcnt = 2 := by
  decide

end Bio

namespace Bio

/-! ## The hit path -/

/-- The hit path in full: the state after the call is the old one with the
count of `b` one higher and, if the lock of `b` was free, the lock taken. -/
theorem bget_hit_after (P : Params) (c : Bcache) (ch : Nat → List Nat) (hc : Chains P c ch)
    (hP : 0 < P.NBUCKET) (pid dev blockno b : Nat)
    (hf : firstCached c (ch (blockno % P.NBUCKET)) dev blockno = some b) :
    ∃ c1, (bget P pid dev blockno c).after = some c1 ∧
      (bget P pid dev blockno c).chosen = some b ∧
      (c1.buf b).refcnt = (c.buf b).refcnt + 1 ∧
      (c1.buf b).dev = (c.buf b).dev ∧ (c1.buf b).blockno = (c.buf b).blockno ∧
      (c1.buf b).valid = (c.buf b).valid ∧ (c1.buf b).data = (c.buf b).data ∧
      (∀ x, x ≠ b → c1.buf x = c.buf x) ∧
      c1.head = c.head ∧ (∀ x, (c1.buf x).next = (c.buf x).next) ∧ Chains P c1 ch ∧
      c1.disk = c.disk ∧ c1.io = c.io ∧
      firstCached c1 (ch (blockno % P.NBUCKET)) dev blockno = some b ∧
      ((c.buf b).lock = none →
        bget P pid dev blockno c = .ok b c1 ∧ (c1.buf b).lock = some pid) ∧
      ((c.buf b).lock ≠ none →
        bget P pid dev blockno c = .sleep b c1 ∧ (c1.buf b).lock = (c.buf b).lock) := by
  have he := bget_hit P c ch hc hP pid dev blockno b hf
  obtain ⟨c1, hc1, hchosen, _⟩ :=
    finish_after pid b (c.setBuf b { c.buf b with refcnt := (c.buf b).refcnt + 1 })
  have hcm : Chains P (c.setBuf b { c.buf b with refcnt := (c.buf b).refcnt + 1 }) ch :=
    Chains_setBuf P c ch b _ rfl hc
  obtain ⟨hk1, hk2, hk3, hk4, hk5, hk6, _, hk8, hk9, hk10⟩ := finish_keeps P pid b _ ch hcm c1 hc1
  rw [setBuf_buf_same] at hk6 hk9 hk10
  have hother : ∀ x, x ≠ b → c1.buf x = c.buf x := by
    intro x hx
    rw [hk5 x hx, setBuf_buf_other c b x _ hx]
  refine ⟨c1, by rw [he]; exact hc1, by rw [he]; exact hchosen, by rw [hk6], by rw [hk6],
    by rw [hk6], by rw [hk6], by rw [hk6], hother, hk4, ?_, hk1, hk2, hk3, ?_, ?_, ?_⟩
  · intro x
    by_cases hx : x = b
    · rw [hx, hk6]
    · rw [hother x hx]
  · rw [hk8, ← hf]
    refine firstCached_congr c _ dev blockno _ (fun x _ => ?_)
    by_cases hx : x = b
    · rw [hx, setBuf_buf_same]; exact ⟨rfl, rfl⟩
    · rw [setBuf_buf_other c b x _ hx]; exact ⟨rfl, rfl⟩
  · intro h
    rw [he]
    exact hk9 h
  · intro h
    rw [he]
    obtain ⟨h1, h2⟩ := hk10 h
    refine ⟨h1, ?_⟩
    rw [h2, setBuf_buf_same]

/-- Calls of `bget` for a block whose buffer `b` is locked: every one of them
settles on `b`, raises its count by one and sleeps. -/
theorem bgetN_locked (P : Params) (hP : 0 < P.NBUCKET) (dev blockno b : Nat)
    (ch : Nat → List Nat) :
    ∀ (pids : List Nat) (c : Bcache), Chains P c ch →
      firstCached c (ch (blockno % P.NBUCKET)) dev blockno = some b → (c.buf b).lock ≠ none →
      (∀ r ∈ (bgetN P dev blockno pids c).1, r.chosen = some b ∧ r.returned = false) ∧
      (bgetN P dev blockno pids c).1.length = pids.length ∧
      ((bgetN P dev blockno pids c).2.buf b).refcnt = (c.buf b).refcnt + pids.length
  | [], c, _, _, _ => ⟨fun r hr => absurd hr (List.not_mem_nil _), rfl, by simp [bgetN]⟩
  | pid :: pids, c, hc, hf, hl => by
    obtain ⟨c1, h1, h2, h3, _, _, _, _, _, _, _, h11, _, _, h14, _, h16⟩ :=
      bget_hit_after P c ch hc hP pid dev blockno b hf
    obtain ⟨hs, hlk⟩ := h16 hl
    obtain ⟨ih1, ih2, ih3⟩ := bgetN_locked P hP dev blockno b ch pids c1 h11 h14
      (by rw [hlk]; exact hl)
    simp only [bgetN, h1]
    refine ⟨?_, by simp [ih2], ?_⟩
    · intro r hr
      rcases List.mem_cons.mp hr with e | hm
      · rw [e]
        exact ⟨h2, by rw [hs]; rfl⟩
      · exact ih1 r hm
    · rw [ih3, h3]
      simp only [List.length_cons]
      push_cast
      ring

/-- C13 (as the code has it): when the chain of the target bucket holds a
buffer caching the block, `bget` settles on the first such buffer `b`, raises
its count by exactly 1, keeps its device, block number and validity flag, and
changes no other buffer, no head and no `next` field; it returns `b`, locked
by the caller, when the lock of `b` was free, and sleeps on the lock without
returning when it was taken.  Hence `N` successive calls for a block that was
not cached, the first of which does not panic, all settle on one buffer, whose
count ends at exactly `N`; every call after the first sleeps on its lock. -/
theorem bget_hit_path (P : Params) (c : Bcache) (ch : Nat → List Nat) (pid dev blockno : Nat)
    (hc : Chains P c ch) (hP : 0 < P.NBUCKET) :
    (∀ b, firstCached c (ch (blockno % P.NBUCKET)) dev blockno = some b →
      ∃ c1, (bget P pid dev blockno c).after = some c1 ∧
        (bget P pid dev blockno c).chosen = some b ∧
        (c1.buf b).refcnt = (c.buf b).refcnt + 1 ∧
        (c1.buf b).dev = (c.buf b).dev ∧ (c1.buf b).blockno = (c.buf b).blockno ∧
        (c1.buf b).valid = (c.buf b).valid ∧
        (∀ x, x ≠ b → c1.buf x = c.buf x) ∧
        c1.head = c.head ∧ (∀ x, (c1.buf x).next = (c.buf x).next) ∧ Chains P c1 ch ∧
        ((c.buf b).lock = none →
          bget P pid dev blockno c = .ok b c1 ∧ (c1.buf b).lock = some pid) ∧
        ((c.buf b).lock ≠ none →
          bget P pid dev blockno c = .sleep b c1 ∧ (c1.buf b).lock = (c.buf b).lock)) ∧
    ((∀ x ∈ ch (blockno % P.NBUCKET), ¬ ((c.buf x).dev = dev ∧ (c.buf x).blockno = blockno)) →
      (∀ msg c', bget P pid dev blockno c ≠ .panic msg c') →
      ∀ pids : List Nat, ∃ b,
        (∀ r ∈ (bgetN P dev blockno (pid :: pids) c).1, r.chosen = some b) ∧
        (bgetN P dev blockno (pid :: pids) c).1.length = 1 + pids.length ∧
        ((bgetN P dev blockno (pid :: pids) c).2.buf b).refcnt = 1 + pids.length ∧
        (∀ r ∈ (bgetN P dev blockno (pid :: pids) c).1.tail, r.returned = false)) := by
  constructor
  · intro b hf
    obtain ⟨c1, h1, h2, h3, h4, h5, h6, _, h8, h9, h10, h11, _, _, _, h15, h16⟩ :=
      bget_hit_after P c ch hc hP pid dev blockno b hf
    exact ⟨c1, h1, h2, h3, h4, h5, h6, h8, h9, h10, h11, h15, h16⟩
  · intro hmiss hnp pids
    have hf0 := firstCached_none_of c _ dev blockno hmiss
    rcases bget_bound P c ch hc hP pid dev blockno with
      ⟨he, _⟩ | ⟨b, cm, ch1, he, _, hch, hfc, _, _, _, _, _, hor⟩
    · exact absurd he (hnp _ _)
    · obtain ⟨c1, hc1, hchosen, _⟩ := finish_after pid b cm
      obtain ⟨hk1, _, _, _, _, hk6, hk7, hk8, _⟩ := finish_keeps P pid b cm ch1 hch c1 hc1
      have hcnt : (c1.buf b).refcnt = 1 := by
        rcases hor with ⟨hf', _⟩ | ⟨_, _, h1, _⟩
        · rw [hf0] at hf'
          cases hf'
        · rw [hk6]; exact h1
      obtain ⟨ih1, ih2, ih3⟩ := bgetN_locked P hP dev blockno b ch1 pids c1 hk1
        (by rw [hk8]; exact hfc) hk7
      have hafter : (bget P pid dev blockno c).after = some c1 := by rw [he]; exact hc1
      simp only [bgetN, hafter, List.tail_cons]
      refine ⟨b, ?_, by simp [ih2, Nat.add_comm], ?_, fun r hr => (ih1 r hr).2⟩
      · intro r hr
        rcases List.mem_cons.mp hr with e | hm
        · rw [e, he]; exact hchosen
        · exact (ih1 r hm).1
      · rw [ih3, hcnt]

/-- C13 on `twoHeld`: buffer 1 caches block 10 and is held by process 7, so
`bget(1, 10)` by process 8 settles on buffer 1, raises its count from 1 to 2
and sleeps. -/
theorem bget_hit_path_witness :
    ∃ c1, (bget two 8 1 10 twoHeld).after = some c1 ∧
      (bget two 8 1 10 twoHeld).chosen = some 1 ∧ (c1.buf 1).refcnt = 1 + 1 ∧
      bget two 8 1 10 twoHeld = .sleep 1 c1 :=
  have ⟨c1, h1, h2, h3, _, _, _, _, _, _, _, _, h12⟩ :=
    (bget_hit_path two twoHeld (fun _ => [1, 0]) 8 1 10 (by decide) (by decide)).1 1 (by decide)
  ⟨c1, h1, h2, h3, (h12 (by decide)).1⟩

/-- C13 fails as stated.  In `twoHeld` the chain of the target bucket holds
buffer 1, which caches block 10, yet `bget(1, 10)` does not return it: the
buffer is locked and the call sleeps.  And of two successive calls for the
uncached block 10 on the pool `two` only the first returns; the second
settles on the same buffer, raises its count to 2 and sleeps. -/
theorem bget_hit_path_counterexample :
    (firstCached twoHeld [1, 0] 1 10 = some 1 ∧ Chains two twoHeld (fun _ => [1, 0]) ∧
      (bget two 8 1 10 twoHeld).returned = false) ∧
    ((bgetN two 1 10 [7, 8] (binit two zeroed)).1.map Result.chosen = [some 1, some 1] ∧
      (bgetN two 1 10 [7, 8] (binit two zeroed)).1.map Result.returned = [true, false] ∧
      ((bgetN two 1 10 [7, 8] (binit two zeroed)).2.buf 1).refcnt = 2) := by
  decide

end Bio

namespace Bio

/-! ## `bread` -/

/-- A call of `bget` that returned: the chains are well formed, the buffer
returned is the one found for the block, the caller holds its lock, and the
device has not been touched. -/
theorem bget_ok_spec (P : Params) (c : Bcache) (ch : Nat → List Nat) (hc : Chains P c ch)
    (hP : 0 < P.NBUCKET) (pid dev blockno b : Nat) (c1 : Bcache)
    (h : bget P pid dev blockno c = .ok b c1) :
    ∃ ch1, Chains P c1 ch1 ∧ firstCached c1 (ch1 (blockno % P.NBUCKET)) dev blockno = some b ∧
      (c1.buf b).lock = some pid ∧ c1.io = c.io ∧ c1.disk = c.disk := by
  rcases bget_bound P c ch hc hP pid dev blockno with
    ⟨he, _⟩ | ⟨b', cm, ch1, he, _, hch, hfc, hd, hio, _⟩
  · rw [he] at h
    cases h
  · rw [he] at h
    have hbb : b' = b := by
      have h1 := (finish_after pid b' cm).choose_spec.2.1
      rw [h] at h1
      exact (Option.some.inj h1).symm
    subst hbb
    have hafter : (finish pid b' cm).after = some c1 := by rw [h]; rfl
    obtain ⟨hk1, hk2, hk3, _, _, _, _, hk8, hk9, hk10⟩ := finish_keeps P pid b' cm ch1 hch c1 hafter
    refine ⟨ch1, hk1, by rw [hk8]; exact hfc, ?_, by rw [hk3, hio], by rw [hk2, hd]⟩
    cases hlk : (cm.buf b').lock with
    | none => exact (hk9 hlk).2
    | some q =>
      have := (hk10 (by rw [hlk]; simp)).1
      rw [h] at this
      cases this

/-- A call of `bread` that returned: as for `bget`, and the buffer is valid;
the device has been read at most once, for the block asked for. -/
theorem bread_ok_spec (P : Params) (c : Bcache) (ch : Nat → List Nat) (hc : Chains P c ch)
    (hP : 0 < P.NBUCKET) (pid dev blockno b : Nat) (c2 : Bcache)
    (h : bread P pid dev blockno c = .ok b c2) :
    ∃ ch1 c1, bget P pid dev blockno c = .ok b c1 ∧ Chains P c2 ch1 ∧
      firstCached c2 (ch1 (blockno % P.NBUCKET)) dev blockno = some b ∧
      (c2.buf b).lock = some pid ∧ (c2.buf b).valid = true ∧
      ((c1.buf b).valid = true → c2.io = c.io) ∧
      ((c1.buf b).valid = false → c2.io = (false, dev, blockno) :: c.io) := by
  cases hb : bget P pid dev blockno c with
  | ok b' c1 =>
    obtain ⟨ch1, hch, hfc, hlk, hio, _⟩ := bget_ok_spec P c ch hc hP pid dev blockno b' c1 hb
    obtain ⟨hv1, hv2⟩ := bread_of_ok P pid dev blockno c b' c1 hb
    have hbm := mem_of_firstCached c1 _ dev blockno b' hfc
    cases hv : (c1.buf b').valid with
    | true =>
      rw [hv1 hv] at h
      simp only [Result.ok.injEq] at h
      obtain ⟨e1, e2⟩ := h
      subst e1
      subst e2
      refine ⟨ch1, c1, rfl, hch, hfc, hlk, hv, ?_, ?_⟩
      · intro _
        exact hio
      · intro hn
        rw [hv] at hn
        cases hn
    | false =>
      obtain ⟨c2', he, hh, _, hio2, ho, hbb⟩ := hv2 hv
      rw [he] at h
      simp only [Result.ok.injEq] at h
      obtain ⟨e1, e2⟩ := h
      subst e1
      subst e2
      have hfield : ∀ x, (c2'.buf x).next = (c1.buf x).next ∧
          (c2'.buf x).dev = (c1.buf x).dev ∧ (c2'.buf x).blockno = (c1.buf x).blockno := by
        intro x
        by_cases hx : x = b'
        · rw [hx, hbb]; exact ⟨rfl, rfl, rfl⟩
        · rw [ho x hx]; exact ⟨rfl, rfl, rfl⟩
      refine ⟨ch1, c1, rfl, Chains_meta P c1 c2' ch1 hh (fun x => (hfield x).1) hch, ?_, ?_, ?_,
        ?_, ?_⟩
      · rw [← hfc]
        exact firstCached_congr c1 c2' dev blockno _ (fun x _ => (hfield x).2)
      · rw [hbb]; exact hlk
      · rw [hbb]
      · intro hn
        rw [hv] at hn
        cases hn
      · intro _
        rw [hio2, hbm.2.1, hbm.2.2, hio]
  | panic msg c1 =>
    rw [bread_of_not_ok P pid dev blockno c (by rw [hb]; intro b c1 e; cases e), hb] at h
    cases h
  | sleep b' c1 =>
    rw [bread_of_not_ok P pid dev blockno c (by rw [hb]; intro b c1 e; cases e), hb] at h
    cases h
  | undef c1 =>
    rw [bread_of_not_ok P pid dev blockno c (by rw [hb]; intro b c1 e; cases e), hb] at h
    cases h

/-- C16 (as the code has it): `bread` returns exactly when `bget` does, and
then returns the same buffer, valid, having read the device once if the buffer
`bget` returned was not valid and not at all if it was.  Hence in the sequence
`bread`, `brelse`, `bread` for one block, when the first `bread` returns, the
`brelse` and the second `bread` return too, both `bread` calls return the same
buffer, the second reads nothing, and the first reads the device once exactly
when the buffer it got from `bget` was not valid. -/
theorem bread_read_through (P : Params) (c : Bcache) (ch : Nat → List Nat) (pid dev blockno : Nat)
    (hc : Chains P c ch) (hP : 0 < P.NBUCKET) :
    (∀ b c1, bget P pid dev blockno c = .ok b c1 →
      ∃ c2, bread P pid dev blockno c = .ok b c2 ∧ (c2.buf b).valid = true ∧
        ((c1.buf b).valid = false → c2.io = (false, dev, blockno) :: c.io) ∧
        ((c1.buf b).valid = true → c2.io = c.io)) ∧
    ((∀ b c1, bget P pid dev blockno c ≠ .ok b c1) →
      bread P pid dev blockno c = bget P pid dev blockno c) ∧
    (∀ b c2, bread P pid dev blockno c = .ok b c2 →
      ∃ c1 c3 c4, bget P pid dev blockno c = .ok b c1 ∧ brelse pid b c2 = .ok () c3 ∧
        bread P pid dev blockno c3 = .ok b c4 ∧ (c4.buf b).valid = true ∧
        c4.io = c2.io ∧
        ((c1.buf b).valid = false → c4.io = (false, dev, blockno) :: c.io) ∧
        ((c1.buf b).valid = true → c4.io = c.io)) := by
  refine ⟨?_, bread_of_not_ok P pid dev blockno c, ?_⟩
  · intro b c1 hb
    obtain ⟨hv1, hv2⟩ := bread_of_ok P pid dev blockno c b c1 hb
    cases hv : (c1.buf b).valid with
    | true =>
      obtain ⟨_, c1', hb', _, _, _, hvalid, hio, _⟩ :=
        bread_ok_spec P c ch hc hP pid dev blockno b c1 (hv1 hv)
      rw [hb] at hb'
      cases hb'
      exact ⟨c1, hv1 hv, hvalid, fun hn => Bool.noConfusion hn, fun _ => hio hv⟩
    | false =>
      obtain ⟨c2, he, _⟩ := hv2 hv
      obtain ⟨_, c1', hb', _, _, _, hvalid, _, hio⟩ :=
        bread_ok_spec P c ch hc hP pid dev blockno b c2 he
      rw [hb] at hb'
      cases hb'
      exact ⟨c2, he, hvalid, fun _ => hio hv, fun hn => Bool.noConfusion hn⟩
  · intro b c2 h
    obtain ⟨ch1, c1, hb, hch, hfc, hlk, hvalid, hio1, hio2⟩ :=
      bread_ok_spec P c ch hc hP pid dev blockno b c2 h
    -- the release
    have hrel := brelse_held pid b c2 hlk
    generalize hc3 : (releasesleep b c2).setBuf b
      { (releasesleep b c2).buf b with refcnt := ((releasesleep b c2).buf b).refcnt - 1 } = c3
      at hrel
    have hc3b : c3.buf b = { c2.buf b with lock := none, refcnt := (c2.buf b).refcnt - 1 } := by
      rw [← hc3]; exact brelse_buf b c2
    have hc3o : ∀ x, x ≠ b → c3.buf x = c2.buf x := by
      intro x hx
      rw [← hc3]; exact brelse_other b x c2 hx
    have hc3h : c3.head = c2.head := by rw [← hc3]; rfl
    have hc3io : c3.io = c2.io := by rw [← hc3]; rfl
    have hfield : ∀ x, (c3.buf x).next = (c2.buf x).next ∧ (c3.buf x).dev = (c2.buf x).dev ∧
        (c3.buf x).blockno = (c2.buf x).blockno := by
      intro x
      by_cases hx : x = b
      · rw [hx, hc3b]; exact ⟨rfl, rfl, rfl⟩
      · rw [hc3o x hx]; exact ⟨rfl, rfl, rfl⟩
    have hch3 : Chains P c3 ch1 := Chains_meta P c2 c3 ch1 hc3h (fun x => (hfield x).1) hch
    have hfc3 : firstCached c3 (ch1 (blockno % P.NBUCKET)) dev blockno = some b := by
      rw [← hfc]
      exact firstCached_congr c2 c3 dev blockno _ (fun x _ => (hfield x).2)
    -- the second call
    obtain ⟨c4, _, _, _, _, _, hv4, _, _, _, _, _, _, hio4, _, hok, _⟩ :=
      bget_hit_after P c3 ch1 hch3 hP pid dev blockno b hfc3
    have hget : bget P pid dev blockno c3 = .ok b c4 := (hok (by rw [hc3b])).1
    have hvalid4 : (c4.buf b).valid = true := by rw [hv4, hc3b]; exact hvalid
    have hread : bread P pid dev blockno c3 = .ok b c4 :=
      (bread_of_ok P pid dev blockno c3 b c4 hget).1 hvalid4
    have hio42 : c4.io = c2.io := by rw [hio4, hc3io]
    exact ⟨c1, c3, c4, hb, hrel, hread, hvalid4, hio42,
      fun hv => by rw [hio42]; exact hio2 hv, fun hv => by rw [hio42]; exact hio1 hv⟩

/-- C16 on the pool `two` after `binit`: `bread(1, 10)` by process 7 returns
buffer 1, valid, after one read of block 10; after `brelse` the second
`bread(1, 10)` returns buffer 1 again and the log still holds that one read. -/
theorem bread_read_through_witness :
    (bread two 7 1 10 (binit two zeroed)).chosen = some 1 ∧
    ∃ c1 c3 c4, bget two 7 1 10 (binit two zeroed) = .ok 1 c1 ∧
      brelse 7 1 (bread two 7 1 10 (binit two zeroed)).next = .ok () c3 ∧
      bread two 7 1 10 c3 = .ok 1 c4 ∧ (c4.buf 1).valid = true ∧
      c4.io = [(false, 1, 10)] :=
  have hr : bread two 7 1 10 (binit two zeroed)
      = .ok 1 (bread two 7 1 10 (binit two zeroed)).next := by
    simp only [bread]
    rfl
  have ⟨c1, c3, c4, h1, h2, h3, h4, _, h6, _⟩ :=
    (bread_read_through two (binit two zeroed) (fun _ => [1, 0]) 7 1 10 (by decide)
      (by decide)).2.2 1 _ hr
  have hv : (c1.buf 1).valid = false := by
    have e : c1 = (bget two 7 1 10 (binit two zeroed)).next := by
      rw [h1]; rfl
    rw [e]
    decide
  ⟨by decide, c1, c3, c4, h1, h2, h3, h4, h6 hv⟩

/-- C16 fails as stated.  In `twoCached` block 10 is cached and valid, and in
the sequence `bread(1, 10)`, `brelse`, `bread(1, 10)` by process 8 both calls
return buffer 1 but the device is not read at all: the log is the one the
sequence started with.  And in `twoHeld`, where process 7 holds the buffer of
block 10, `bread(1, 10)` by process 8 does not return. -/
theorem bread_read_through_counterexample :
    (Chains two twoCached (fun _ => [1, 0]) ∧
      (bread two 8 1 10 twoCached).chosen = some 1 ∧
      (bread two 8 1 10 twoCached).returned = true ∧
      (brelse 8 1 (bread two 8 1 10 twoCached).next).returned = true ∧
      (bread two 8 1 10 (brelse 8 1 (bread two 8 1 10 twoCached).next).next).chosen = some 1 ∧
      (bread two 8 1 10 (brelse 8 1 (bread two 8 1 10 twoCached).next).next).next.io
        = twoCached.io) ∧
    (Chains two twoHeld (fun _ => [1, 0]) ∧ (bread two 8 1 10 twoHeld).returned = false) := by
  decide

end Bio

namespace Bio

/-! ## One buffer per block -/

theorem Uniq_meta (P : Params) (c c' : Bcache) (ch : Nat → List Nat)
    (hsame : ∀ x, (c'.buf x).dev = (c.buf x).dev ∧ (c'.buf x).blockno = (c.buf x).blockno)
    (hpos : ∀ x, 0 < (c'.buf x).refcnt → 0 < (c.buf x).refcnt) (hu : Uniq P c ch) :
    Uniq P c' ch := by
  intro b hb hr
  rw [(hsame b).1, (hsame b).2, ← hu b hb (hpos b hr)]
  exact firstCached_congr c c' _ _ _ (fun x _ => hsame x)

/-- Up to the final `acquiresleep`, a call of `bget` keeps the chains well
formed and every buffer in use the one found for its block. -/
theorem Uniq_bget_bound (P : Params) (c : Bcache) (ch : Nat → List Nat) (hc : Chains P c ch)
    (hu : Uniq P c ch) (hP : 0 < P.NBUCKET) (pid dev blockno : Nat) :
    bget P pid dev blockno c = .panic "bget: no buffers" c ∨
    ∃ b cm ch1, bget P pid dev blockno c = finish pid b cm ∧ Chains P cm ch1 ∧ Uniq P cm ch1 := by
  have hid : blockno % P.NBUCKET < P.NBUCKET := Nat.mod_lt blockno hP
  -- a buffer in use that is not the one being rebound keeps being found
  have hkeep : ∀ (b : Nat) (cm : Bcache),
      firstCached c (ch (blockno % P.NBUCKET)) dev blockno = none →
      (∀ y, y ≠ b → (cm.buf y).dev = (c.buf y).dev ∧ (cm.buf y).blockno = (c.buf y).blockno ∧
        (cm.buf y).refcnt = (c.buf y).refcnt) →
      (cm.buf b).dev = dev ∧ (cm.buf b).blockno = blockno →
      ∀ x, x < P.NBUF → x ≠ b → 0 < (cm.buf x).refcnt →
        ¬ ((cm.buf x).dev = dev ∧ (cm.buf x).blockno = blockno) ∧
        firstCached cm (ch ((cm.buf x).blockno % P.NBUCKET)) (cm.buf x).dev (cm.buf x).blockno
          = some x := by
    intro b cm hf hsame hb x hx hxb hr
    obtain ⟨h1, h2, h3⟩ := hsame x hxb
    rw [h3] at hr
    have hold := hu x hx hr
    have hne : ¬ ((c.buf x).dev = dev ∧ (c.buf x).blockno = blockno) := by
      intro e
      rw [e.1, e.2, hf] at hold
      cases hold
    rw [h1, h2]
    refine ⟨hne, firstCached_keep c cm _ _ x b hxb (fun y hy => ⟨(hsame y hy).1, (hsame y hy).2.1⟩)
      ?_ _ hold⟩
    intro e
    exact hne ⟨by rw [← e.1, hb.1], by rw [← e.2, hb.2]⟩
  rcases bget_cases P c ch hc hP pid dev blockno with
    ⟨b, hf, he⟩ | ⟨b, hf, hv, he⟩ | ⟨_, _, he⟩ |
    ⟨i, b, c4, hf, _, hi, hne, hvi, _, he, hch, hfld, _, _, _⟩
  · right
    have hb := mem_of_firstCached c _ dev blockno b hf
    have hsame : ∀ x, ((c.setBuf b { c.buf b with refcnt := (c.buf b).refcnt + 1 }).buf x).dev
        = (c.buf x).dev ∧
        ((c.setBuf b { c.buf b with refcnt := (c.buf b).refcnt + 1 }).buf x).blockno
        = (c.buf x).blockno := by
      intro x
      by_cases hx : x = b
      · rw [hx, setBuf_buf_same]; exact ⟨rfl, rfl⟩
      · rw [setBuf_buf_other c b x _ hx]; exact ⟨rfl, rfl⟩
    refine ⟨b, _, ch, he, Chains_setBuf P c ch b _ rfl hc, ?_⟩
    intro x hx hr
    rw [(hsame x).1, (hsame x).2, firstCached_congr c _ _ _ _ (fun y _ => hsame y)]
    by_cases hxb : x = b
    · rw [hxb, hb.2.1, hb.2.2]; exact hf
    · rw [setBuf_buf_other c b x _ hxb] at hr
      exact hu x hx hr
  · right
    have hb := mem_of_firstFree c _ b hv
    have hbnew : ((rebind c b dev blockno).buf b).dev = dev ∧
        ((rebind c b dev blockno).buf b).blockno = blockno := by
      rw [rebind_buf_same]; exact ⟨rfl, rfl⟩
    have hsame : ∀ y, y ≠ b → ((rebind c b dev blockno).buf y).dev = (c.buf y).dev ∧
        ((rebind c b dev blockno).buf y).blockno = (c.buf y).blockno ∧
        ((rebind c b dev blockno).buf y).refcnt = (c.buf y).refcnt := by
      intro y hy
      rw [rebind_buf_other c b dev blockno y hy]; exact ⟨rfl, rfl, rfl⟩
    refine ⟨b, _, ch, he, Chains_rebind P c ch b dev blockno hc, ?_⟩
    intro x hx hr
    by_cases hxb : x = b
    · rw [hxb, hbnew.1, hbnew.2]
      exact firstCached_bind c _ dev blockno b
        (fun y hy => ⟨(hsame y hy).1, (hsame y hy).2.1⟩) hbnew _ hb.1 hf
    · exact (hkeep b _ hf hsame hbnew x hx hxb hr).2
  · exact Or.inl he
  · right
    have hb := mem_of_firstFree c _ b hvi
    have hfb := hfld b
    rw [rebind_buf_same] at hfb
    have hbnew : (c4.buf b).dev = dev ∧ (c4.buf b).blockno = blockno := by
      rw [hfb]; exact ⟨rfl, rfl⟩
    have hsame : ∀ y, y ≠ b → (c4.buf y).dev = (c.buf y).dev ∧
        (c4.buf y).blockno = (c.buf y).blockno ∧ (c4.buf y).refcnt = (c.buf y).refcnt := by
      intro y hy
      have := hfld y
      rw [rebind_buf_other c b dev blockno y hy] at this
      rw [this]; exact ⟨rfl, rfl, rfl⟩
    refine ⟨b, c4, _, he, hch, ?_⟩
    intro x hx hr
    by_cases hxb : x = b
    · have hm : moved ch i (blockno % P.NBUCKET) b (blockno % P.NBUCKET)
          = b :: ch (blockno % P.NBUCKET) := by simp [moved]
      rw [hxb, hbnew.1, hbnew.2, hm, firstCached_cons, if_pos hbnew]
    · obtain ⟨hnot, hfound⟩ := hkeep b c4 hf hsame hbnew x hx hxb hr
      by_cases h1 : (c4.buf x).blockno % P.NBUCKET = blockno % P.NBUCKET
      · have hm : moved ch i (blockno % P.NBUCKET) b ((c4.buf x).blockno % P.NBUCKET)
            = b :: ch ((c4.buf x).blockno % P.NBUCKET) := by simp [moved, h1]
        rw [hm, firstCached_cons, if_neg]
        · exact hfound
        · intro e
          exact hnot ⟨by rw [← e.1, hbnew.1], by rw [← e.2, hbnew.2]⟩
      · by_cases h2 : (c4.buf x).blockno % P.NBUCKET = i
        · have hm : moved ch i (blockno % P.NBUCKET) b ((c4.buf x).blockno % P.NBUCKET)
              = (ch i).erase b := by
            simp only [moved, if_neg h1, if_pos h2]
          rw [hm]
          rw [h2] at hfound
          exact firstCached_erase c4 _ _ x b hxb _ hfound
        · have hm : moved ch i (blockno % P.NBUCKET) b ((c4.buf x).blockno % P.NBUCKET)
              = ch ((c4.buf x).blockno % P.NBUCKET) := by
            simp only [moved, if_neg h1, if_neg h2]
          rw [hm]
          exact hfound

theorem Uniq_finish (P : Params) (pid b : Nat) (cm : Bcache) (ch : Nat → List Nat)
    (hc : Chains P cm ch) (hu : Uniq P cm ch) (c1 : Bcache)
    (h : (finish pid b cm).after = some c1) : Chains P c1 ch ∧ Uniq P c1 ch := by
  obtain ⟨hk1, _, _, _, hk5, hk6, _⟩ := finish_keeps P pid b cm ch hc c1 h
  have hfield : ∀ x, (c1.buf x).dev = (cm.buf x).dev ∧ (c1.buf x).blockno = (cm.buf x).blockno ∧
      (c1.buf x).refcnt = (cm.buf x).refcnt := by
    intro x
    by_cases hx : x = b
    · rw [hx, hk6]; exact ⟨rfl, rfl, rfl⟩
    · rw [hk5 x hx]; exact ⟨rfl, rfl, rfl⟩
  exact ⟨hk1, Uniq_meta P cm c1 ch (fun x => ⟨(hfield x).1, (hfield x).2.1⟩)
    (fun x hx => by rw [← (hfield x).2.2]; exact hx) hu⟩

theorem Uniq_bget (P : Params) (c : Bcache) (ch : Nat → List Nat) (hc : Chains P c ch)
    (hu : Uniq P c ch) (hP : 0 < P.NBUCKET) (pid dev blockno : Nat) (c1 : Bcache)
    (h : (bget P pid dev blockno c).after = some c1) :
    ∃ ch1, Chains P c1 ch1 ∧ Uniq P c1 ch1 := by
  rcases Uniq_bget_bound P c ch hc hu hP pid dev blockno with he | ⟨b, cm, ch1, he, hch, hu1⟩
  · rw [he] at h
    cases h
  · rw [he] at h
    exact ⟨ch1, Uniq_finish P pid b cm ch1 hch hu1 c1 h⟩

theorem Uniq_bread (P : Params) (c : Bcache) (ch : Nat → List Nat) (hc : Chains P c ch)
    (hu : Uniq P c ch) (hP : 0 < P.NBUCKET) (pid dev blockno : Nat) (c1 : Bcache)
    (h : (bread P pid dev blockno c).after = some c1) :
    ∃ ch1, Chains P c1 ch1 ∧ Uniq P c1 ch1 := by
  cases hb : bget P pid dev blockno c with
  | ok b cb =>
    obtain ⟨chb, hcb, hub⟩ := Uniq_bget P c ch hc hu hP pid dev blockno cb (by rw [hb]; rfl)
    obtain ⟨hv1, hv2⟩ := bread_of_ok P pid dev blockno c b cb hb
    cases hv : (cb.buf b).valid with
    | true =>
      rw [hv1 hv] at h
      have e : cb = c1 := Option.some.inj h
      rw [← e]
      exact ⟨chb, hcb, hub⟩
    | false =>
      obtain ⟨c2, he, hh, _, _, ho, hbb⟩ := hv2 hv
      rw [he] at h
      have e : c2 = c1 := Option.some.inj h
      rw [← e]
      have hfield : ∀ x, (c2.buf x).next = (cb.buf x).next ∧ (c2.buf x).dev = (cb.buf x).dev ∧
          (c2.buf x).blockno = (cb.buf x).blockno ∧ (c2.buf x).refcnt = (cb.buf x).refcnt := by
        intro x
        by_cases hx : x = b
        · rw [hx, hbb]; exact ⟨rfl, rfl, rfl, rfl⟩
        · rw [ho x hx]; exact ⟨rfl, rfl, rfl, rfl⟩
      exact ⟨chb, Chains_meta P cb c2 chb hh (fun x => (hfield x).1) hcb,
        Uniq_meta P cb c2 chb (fun x => ⟨(hfield x).2.1, (hfield x).2.2.1⟩)
          (fun x hx => by rw [← (hfield x).2.2.2]; exact hx) hub⟩
  | panic msg cb =>
    rw [bread_of_not_ok P pid dev blockno c (by rw [hb]; intro b c1 e; cases e), hb] at h
    cases h
  | sleep b cb =>
    have hs : (bget P pid dev blockno c).after = some cb := by rw [hb]; rfl
    rw [bread_of_not_ok P pid dev blockno c (by rw [hb]; intro b c1 e; cases e), hb] at h
    have e : cb = c1 := Option.some.inj h
    rw [← e]
    exact Uniq_bget P c ch hc hu hP pid dev blockno cb hs
  | undef cb =>
    rw [bread_of_not_ok P pid dev blockno c (by rw [hb]; intro b c1 e; cases e), hb] at h
    cases h

/-- A buffer keeps caching its block and the chains stay as they are when
only its count moves, and no count becomes positive that was not. -/
theorem Uniq_count (P : Params) (c : Bcache) (ch : Nat → List Nat) (hc : Chains P c ch)
    (hu : Uniq P c ch) (b : Nat) (y : Buf) (hn : y.next = (c.buf b).next)
    (hd : y.dev = (c.buf b).dev) (hb : y.blockno = (c.buf b).blockno)
    (hr : 0 < y.refcnt → 0 < (c.buf b).refcnt) :
    Chains P (c.setBuf b y) ch ∧ Uniq P (c.setBuf b y) ch := by
  refine ⟨Chains_setBuf P c ch b y hn hc, Uniq_meta P c _ ch ?_ ?_ hu⟩
  · intro x
    by_cases hx : x = b
    · rw [hx, setBuf_buf_same]; exact ⟨hd, hb⟩
    · rw [setBuf_buf_other c b x y hx]; exact ⟨rfl, rfl⟩
  · intro x
    by_cases hx : x = b
    · rw [hx, setBuf_buf_same]; exact hr
    · rw [setBuf_buf_other c b x y hx]; exact id

theorem Uniq_run (P : Params) (c : Bcache) (ch : Nat → List Nat) (hc : Chains P c ch)
    (hu : Uniq P c ch) (hP : 0 < P.NBUCKET) (call : Call) (ho : Owned P c call) (c1 : Bcache)
    (h : call.run P c = some c1) : ∃ ch1, Chains P c1 ch1 ∧ Uniq P c1 ch1 := by
  cases call with
  | bget pid dev blockno => exact Uniq_bget P c ch hc hu hP pid dev blockno c1 h
  | bread pid dev blockno => exact Uniq_bread P c ch hc hu hP pid dev blockno c1 h
  | brelse pid b =>
    by_cases hh : (c.buf b).lock = some pid
    · simp only [Call.run, brelse_held pid b c hh, Result.after, Option.some.injEq] at h
      rw [← h]
      have hfield : ∀ x, (((releasesleep b c).setBuf b { (releasesleep b c).buf b with
          refcnt := ((releasesleep b c).buf b).refcnt - 1 }).buf x).next = (c.buf x).next ∧
          (((releasesleep b c).setBuf b { (releasesleep b c).buf b with
          refcnt := ((releasesleep b c).buf b).refcnt - 1 }).buf x).dev = (c.buf x).dev ∧
          (((releasesleep b c).setBuf b { (releasesleep b c).buf b with
          refcnt := ((releasesleep b c).buf b).refcnt - 1 }).buf x).blockno = (c.buf x).blockno ∧
          (0 < (((releasesleep b c).setBuf b { (releasesleep b c).buf b with
          refcnt := ((releasesleep b c).buf b).refcnt - 1 }).buf x).refcnt →
            0 < (c.buf x).refcnt) := by
        intro x
        by_cases hx : x = b
        · rw [hx, brelse_buf]
          exact ⟨rfl, rfl, rfl, fun hpos => by
            have : 0 < (c.buf b).refcnt - 1 := hpos
            omega⟩
        · rw [brelse_other b x c hx]; exact ⟨rfl, rfl, rfl, id⟩
      exact ⟨ch, Chains_meta P c _ ch rfl (fun x => (hfield x).1) hc,
        Uniq_meta P c _ ch (fun x => ⟨(hfield x).2.1, (hfield x).2.2.1⟩)
          (fun x => (hfield x).2.2.2) hu⟩
    · simp [Call.run, brelse_not_held pid b c hh, Result.after] at h
  | bpin b =>
    simp only [Call.run, Option.some.injEq] at h
    rw [← h]
    have hpos : 0 < (c.buf b).refcnt := ho.2
    exact ⟨ch, Uniq_count P c ch hc hu b _ rfl rfl rfl (fun _ => hpos)⟩
  | bunpin b =>
    simp only [Call.run, Option.some.injEq] at h
    rw [← h]
    exact ⟨ch, Uniq_count P c ch hc hu b _ rfl rfl rfl (fun hpos => by
      have : 0 < (c.buf b).refcnt - 1 := hpos
      omega)⟩

theorem Uniq_reach (P : Params) (hP : 0 < P.NBUCKET) (c : Bcache) (h : Reach P (Owned P) c) :
    ∃ ch, Chains P c ch ∧ Uniq P c ch := by
  induction h with
  | init c0 hz =>
    refine ⟨_, (binit_spec P hP c0).1, ?_⟩
    intro b _ hr
    rw [(binit_spec P hP c0).2.2 b, (hz b).2.2.2.2.1] at hr
    exact absurd hr (by decide)
  | step c call c' _ hallow hrun ih =>
    obtain ⟨ch, hc, hu⟩ := ih
    exact Uniq_run P c ch hc hu hP call hallow c' hrun

/-- C12 (as the code has it): in every state reachable from `binit` by
`bget`, `bread`, `brelse`, `bpin` and `bunpin`, where `brelse`, `bunpin` and
also `bpin` are applied only to buffers whose count is positive, no two
distinct pool buffers with positive count cache the same device and block. -/
theorem buffer_uniqueness (P : Params) (c : Bcache) (b1 b2 : Nat) (hP : 0 < P.NBUCKET)
    (hr : Reach P (Owned P) c) (h1 : b1 < P.NBUF) (h2 : b2 < P.NBUF) (hne : b1 ≠ b2)
    (hr1 : 0 < (c.buf b1).refcnt) (hr2 : 0 < (c.buf b2).refcnt) :
    ¬ ((c.buf b1).dev = (c.buf b2).dev ∧ (c.buf b1).blockno = (c.buf b2).blockno) := by
  obtain ⟨ch, _, hu⟩ := Uniq_reach P hP c hr
  rintro ⟨hd, hb⟩
  have e1 := hu b1 h1 hr1
  have e2 := hu b2 h2 hr2
  rw [hd, hb, e2] at e1
  exact hne (Option.some.inj e1).symm

theorem zeroed_Zeroed : Zeroed zeroed :=
  fun _ => ⟨rfl, rfl, rfl, rfl, rfl, rfl⟩

/-- C12 on `twoBoth`, reached by `binit`, `bget(1, 10)` and `bget(1, 20)`:
both buffers are in use and they do not cache the same block. -/
theorem buffer_uniqueness_witness :
    0 < (twoBoth.buf 0).refcnt ∧ 0 < (twoBoth.buf 1).refcnt ∧
      ¬ ((twoBoth.buf 0).dev = (twoBoth.buf 1).dev ∧
        (twoBoth.buf 0).blockno = (twoBoth.buf 1).blockno) :=
  ⟨by decide, by decide,
    buffer_uniqueness two twoBoth 0 1 (by decide)
      (Reach.step twoHeld (.bget 7 1 20) twoBoth
        (Reach.step (binit two zeroed) (.bget 7 1 10) twoHeld (Reach.init zeroed zeroed_Zeroed)
          trivial rfl)
        trivial rfl)
      (by decide) (by decide) (by decide) (by decide) (by decide)⟩

/-- C12 fails as stated.  `bpin` may be applied to a buffer whose count is 0:
after `binit` on the pool `two`, `bpin` of buffer 0 and `bpin` of buffer 1
leave two distinct buffers with count 1 that both carry device 0, block 0. -/
theorem buffer_uniqueness_counterexample :
    Reach two (Allowed two) (bpin 1 (bpin 0 (binit two zeroed))) ∧
      0 < ((bpin 1 (bpin 0 (binit two zeroed))).buf 0).refcnt ∧
      0 < ((bpin 1 (bpin 0 (binit two zeroed))).buf 1).refcnt ∧
      ((bpin 1 (bpin 0 (binit two zeroed))).buf 0).dev
        = ((bpin 1 (bpin 0 (binit two zeroed))).buf 1).dev ∧
      ((bpin 1 (bpin 0 (binit two zeroed))).buf 0).blockno
        = ((bpin 1 (bpin 0 (binit two zeroed))).buf 1).blockno ∧
      (0 : Nat) ≠ 1 :=
  ⟨Reach.step (bpin 0 (binit two zeroed)) (.bpin 1) _
      (Reach.step (binit two zeroed) (.bpin 0) _ (Reach.init zeroed zeroed_Zeroed)
        (show (0 : Nat) < 2 by decide) rfl)
      (show (1 : Nat) < 2 by decide) rfl,
    by decide, by decide, by decide, by decide, by decide⟩

/-! ## The race in the global eviction path -/

/-- C18, the failing interleaving.  On the pool `three`, with buffer 1 of
bucket 1 in use, processes 8 and 9 both ask for block 3 of device 1, which
hashes to bucket 1.  Each runs the section under the bucket lock on the same
state: nothing is cached, the bucket has no unused buffer, the lock is dropped
and the cache is untouched.  Then process 8 runs the global section and binds
buffer 2 to the block; then process 9 runs the global section, which does not
look at the target bucket again, and binds buffer 0 to the same block.  Two
buffers with count 1 now claim device 1, block 3. -/
theorem bget_race :
    Chains three threeHeld (fun i => if i = 0 then [2, 0] else [1]) ∧
    (bgetLocal three 8 1 3 threeHeld).isNone = true ∧
    (bgetLocal three 9 1 3 threeHeld).isNone = true ∧
    (bgetGlobal three 8 1 3 threeHeld).returned = true ∧
    (bgetGlobal three 8 1 3 threeHeld).chosen = some 2 ∧
    (bgetGlobal three 9 1 3 (bgetGlobal three 8 1 3 threeHeld).next).returned = true ∧
    (bgetGlobal three 9 1 3 (bgetGlobal three 8 1 3 threeHeld).next).chosen = some 0 ∧
    ((bgetGlobal three 9 1 3 (bgetGlobal three 8 1 3 threeHeld).next).next.buf 2).dev = 1 ∧
    ((bgetGlobal three 9 1 3 (bgetGlobal three 8 1 3 threeHeld).next).next.buf 2).blockno = 3 ∧
    ((bgetGlobal three 9 1 3 (bgetGlobal three 8 1 3 threeHeld).next).next.buf 2).refcnt = 1 ∧
    ((bgetGlobal three 9 1 3 (bgetGlobal three 8 1 3 threeHeld).next).next.buf 0).dev = 1 ∧
    ((bgetGlobal three 9 1 3 (bgetGlobal three 8 1 3 threeHeld).next).next.buf 0).blockno = 3 ∧
    ((bgetGlobal three 9 1 3 (bgetGlobal three 8 1 3 threeHeld).next).next.buf 0).refcnt = 1 := by
  decide

end Bio

namespace LockOrder

theorem ordered_append : ∀ (t1 t2 : List Ev) (held : List Lock),
    ordered held (t1 ++ t2) = (ordered held t1 && ordered (heldAfter held t1) t2)
  | [], t2, held => by simp [ordered, heldAfter]
  | .acquire l :: t1, t2, held => by
    show (mayAcquire held l && ordered (l :: held) (t1 ++ t2))
      = ((mayAcquire held l && ordered (l :: held) t1) && ordered (heldAfter (l :: held) t1) t2)
    rw [ordered_append t1 t2 (l :: held), Bool.and_assoc]
  | .release l :: t1, t2, held => by
    show ordered (held.erase l) (t1 ++ t2)
      = (ordered (held.erase l) t1 && ordered (heldAfter (held.erase l) t1) t2)
    exact ordered_append t1 t2 (held.erase l)

theorem heldAfter_append : ∀ (t1 t2 : List Ev) (held : List Lock),
    heldAfter held (t1 ++ t2) = heldAfter (heldAfter held t1) t2
  | [], _, _ => rfl
  | .acquire l :: t1, t2, held => by
    show heldAfter (l :: held) (t1 ++ t2) = heldAfter (heldAfter (l :: held) t1) t2
    exact heldAfter_append t1 t2 (l :: held)
  | .release l :: t1, t2, held => by
    show heldAfter (held.erase l) (t1 ++ t2) = heldAfter (heldAfter (held.erase l) t1) t2
    exact heldAfter_append t1 t2 (held.erase l)

theorem below_succ (i : Nat) (l : Lock) (h : below i l = true) : below (i + 1) l = true := by
  cases l with
  | bucket j =>
    simp only [below, decide_eq_true_eq] at h ⊢
    omega
  | lock_global => exact h
  | ref_lock => rfl
  | kmem => rfl

/-- Acquiring the bucket locks from `i` on in ascending order is in order
whenever every lock already held is below bucket `i`. -/
theorem ordered_acquireAll : ∀ (k i : Nat) (held : List Lock), held.all (below i) = true →
    ordered held (acquireAll k i) = true ∧
      (heldAfter held (acquireAll k i)).all (below (i + k)) = true
  | 0, i, held, h => ⟨rfl, h⟩
  | k + 1, i, held, h => by
    have hnext : (Lock.bucket i :: held).all (below (i + 1)) = true := by
      simp only [List.all_cons, Bool.and_eq_true]
      refine ⟨by simp [below], ?_⟩
      rw [List.all_eq_true] at h ⊢
      exact fun l hl => below_succ i l (h l hl)
    obtain ⟨h1, h2⟩ := ordered_acquireAll k (i + 1) (Lock.bucket i :: held) hnext
    refine ⟨?_, ?_⟩
    · simp only [acquireAll, ordered, mayAcquire, h, h1, Bool.and_self]
    · simp only [acquireAll, heldAfter]
      have e : i + (k + 1) = i + 1 + k := by omega
      rw [e]
      exact h2

theorem ordered_releaseAll : ∀ (k j : Nat) (held : List Lock),
    ordered held (releaseAll k j) = true
  | 0, _, _ => rfl
  | k + 1, j, held => by
    simp only [releaseAll, ordered]
    exact ordered_releaseAll k (j + 1) _

theorem kfree_locks_ordered (L : Kalloc.Layout) (pa : Nat) (s : Kalloc.Kmem) :
    ordered [] (kfree_locks L pa s) = true ∧ heldAfter [] (kfree_locks L pa s) = [] := by
  unfold kfree_locks
  by_cases hg : pa % Kalloc.PGSIZE ≠ 0 ∨ pa < L.kend ∨ pa ≥ L.PHYSTOP
  · rw [if_pos hg]
    exact ⟨rfl, rfl⟩
  · rw [if_neg hg]
    by_cases hle : s.ref (Kalloc.pa2index L pa) - 1 ≤ 0
    · rw [if_pos hle]
      exact ⟨by decide, by decide⟩
    · rw [if_neg hle]
      exact ⟨by decide, by decide⟩

theorem freerangeLoop_locks_ordered (L : Kalloc.Layout) (pa_end : Nat) :
    ∀ (fuel p : Nat) (s : Kalloc.Kmem), ordered [] (freerangeLoop_locks L pa_end fuel p s) = true
  | 0, _, _ => rfl
  | fuel + 1, p, s => by
    by_cases hstep : p + Kalloc.PGSIZE ≤ pa_end
    · simp only [freerangeLoop_locks, if_pos hstep]
      rw [ordered_append, (kfree_locks_ordered L p s).1, (kfree_locks_ordered L p s).2]
      cases Kalloc.kfree L p s with
      | ok v s1 => simpa using freerangeLoop_locks_ordered L pa_end fuel (p + Kalloc.PGSIZE) s1
      | panic msg s1 => rfl
    · simp only [freerangeLoop_locks, if_neg hstep]
      rfl

theorem bgetGlobal_locks_ordered (P : Bio.Params) (blockno : Nat) (c : Bio.Bcache) :
    ordered [] (bgetGlobal_locks P blockno c) = true := by
  obtain ⟨h1, _⟩ := ordered_acquireAll P.NBUCKET 0 [] rfl
  unfold bgetGlobal_locks
  rw [ordered_append, ordered_append, h1]
  simp only [Bool.true_and, ordered, mayAcquire]
  cases Bio.findVictim P c (blockno % P.NBUCKET) P.NBUCKET 0 with
  | none => rfl
  | some v =>
    cases v with
    | none => rfl
    | some w =>
      simp only [heldAfter_append, heldAfter, ordered]
      exact ordered_releaseAll _ _ _

theorem bucket_pair_ordered (i : Nat) (t : List Ev) :
    ordered [] ([Ev.acquire (Lock.bucket i), Ev.release (Lock.bucket i)] ++ t) = ordered [] t := by
  simp [ordered, mayAcquire]

/-- C19: in the spinlock events of `kfree`, `kalloc`, `cowcopy_pa`,
`freerange`, `bget`, `brelse`, `bpin` and `bunpin`, started with no lock held,
`ref_lock` is never acquired while `kmem.lock` is held and a bucket lock is
never acquired while the global lock or the lock of the same or a later
bucket is held; and when `bget` goes on to the global eviction path its events
are: the target bucket's lock acquired and released, then the bucket locks
`0`, ..., `NBUCKET - 1` acquired in this order, then the global lock. -/
theorem lock_order :
    (∀ L pa s, ordered [] (kfree_locks L pa s) = true) ∧
    ordered [] kalloc_locks = true ∧
    (∀ L pa s, ordered [] (cowcopy_pa_locks L pa s) = true) ∧
    (∀ L pa_start pa_end s, ordered [] (freerange_locks L pa_start pa_end s) = true) ∧
    (∀ P dev blockno c, ordered [] (bget_locks P dev blockno c) = true) ∧
    (∀ P pid b c, ordered [] (brelse_locks P pid b c) = true) ∧
    (∀ P b c, ordered [] (bpin_locks P b c) = true) ∧
    (∀ P b c, ordered [] (bunpin_locks P b c) = true) ∧
    (∀ P pid dev blockno c, Bio.bgetLocal P pid dev blockno c = none →
      ∃ tail, bget_locks P dev blockno c
        = [Ev.acquire (Lock.bucket (blockno % P.NBUCKET)),
            Ev.release (Lock.bucket (blockno % P.NBUCKET))]
          ++ acquireAll P.NBUCKET 0 ++ [Ev.acquire Lock.lock_global] ++ tail) := by
  refine ⟨fun L pa s => (kfree_locks_ordered L pa s).1, by decide, ?_, ?_, ?_, ?_, ?_, ?_, ?_⟩
  · intro L pa s
    unfold cowcopy_pa_locks
    by_cases h : s.ref (Kalloc.pa2index L pa) ≤ 1
    · rw [if_pos h]
      decide
    · rw [if_neg h]
      decide
  · intro L pa_start pa_end s
    exact freerangeLoop_locks_ordered L pa_end _ _ s
  · intro P dev blockno c
    unfold bget_locks
    cases h1 : Bio.findChain c (fun x => x.dev == dev && x.blockno == blockno) (P.NBUF + 1)
        (c.head (blockno % P.NBUCKET)) with
    | none => simp [h1, ordered, mayAcquire]
    | some r =>
      cases r with
      | some b => simp [h1, ordered, mayAcquire]
      | none =>
        cases h2 : Bio.findChain c (fun x => x.refcnt == 0) (P.NBUF + 1)
            (c.head (blockno % P.NBUCKET)) with
        | none => simp [h1, h2, ordered, mayAcquire]
        | some r2 =>
          cases r2 with
          | some b => simp [h1, h2, ordered, mayAcquire]
          | none =>
            simp only [h1, h2]
            rw [bucket_pair_ordered]
            exact bgetGlobal_locks_ordered P blockno c
  · intro P pid b c
    unfold brelse_locks
    by_cases h : (!Bio.holdingsleep pid (c.buf b)) = true
    · rw [if_pos h]
      rfl
    · rw [if_neg h]
      simp [ordered, mayAcquire]
  · intro P b c
    simp [bpin_locks, ordered, mayAcquire]
  · intro P b c
    simp [bunpin_locks, ordered, mayAcquire]
  · intro P pid dev blockno c h
    unfold bget_locks
    unfold Bio.bgetLocal at h
    cases h1 : Bio.findChain c (fun x => x.dev == dev && x.blockno == blockno) (P.NBUF + 1)
        (c.head (blockno % P.NBUCKET)) with
    | none => simp [h1] at h
    | some r =>
      cases r with
      | some b => simp [h1] at h
      | none =>
        cases h2 : Bio.findChain c (fun x => x.refcnt == 0) (P.NBUF + 1)
            (c.head (blockno % P.NBUCKET)) with
        | none => simp [h1, h2] at h
        | some r2 =>
          cases r2 with
          | some b => simp [h1, h2] at h
          | none =>
            simp only [h1, h2]
            simp only [bgetGlobal_locks, List.append_assoc]
            exact ⟨_, rfl⟩

end LockOrder
